import Mathlib

/-!
The client `exp_http_client`: retry policy, URL template resolver and resource.

A shallow embedding of `resources/retriers/exponential_retrier.go`,
`resources/misc/url_template.go` and `resources/resource.go`, followed by the
properties proved about them.

Conventions of the embedding:

* a Go `string` is its sequence of bytes (`GoString`);
* a Go `map[string]string` handed to `Resolve` is the list of its entries in the
  order the `range` loop visits them;
* the transport (`misc.HttpClient`) is the sequence of outcomes its `Do` gives,
  indexed by the number of invocations made before;
* the `uint` loop counter `try` is a natural number: it never exceeds
  `maxTries + 1`, which fits a `uint` unless `maxTries` is the largest `uint`;
* the floating-point expressions of the back-off work on whole numbers; they are
  computed on integers with the rounding of IEEE 754 (`roundToSignificand`) made
  explicit where Go converts to `float64` or `float32`;
* the `int64` values of the back-off (`delay`, `maxJitter`, `jitter`) are
  integers without bound: they are the values of the source up to attempt 63,
  beyond which the conversion of the delay to `int64` is out of range and its
  result depends on the implementation. The product with `time.Second`
  overflows `int64` earlier: at attempt 34 for some draws, from attempt 35 on
  for every draw; `sleepDuration` computes it with the wrap-around of Go.
-/

namespace ExpHttpClient

/-! ## Strings -/

/-- One byte of a Go string. -/
abbrev Byte := Fin 256

/-- A Go string: an immutable sequence of bytes. -/
abbrev GoString := List Byte

/-- The bytes of an ASCII literal. -/
def ascii (s : String) : GoString :=
  s.toList.map (fun c => (⟨c.toNat % 256, Nat.mod_lt _ (by decide)⟩ : Byte))

/-- The function `strings.Contains(s, substr)`: does `substr` start at some position of `s`? -/
def Contains : GoString → GoString → Bool
  | [], substr => substr.isEmpty
  | c :: s, substr => substr.isPrefixOf (c :: s) || Contains s substr

/-- The loop of `misc.Find`, `i` being the index of the head of the remaining
haystack: the first index whose element the comparison accepts, or `-1`. -/
def findFrom (call : GoString → Bool) : List GoString → Nat → Int
  | [], _ => -1
  | n :: rest, i => if call n then (i : Int) else findFrom call rest (i + 1)

/-- The function `misc.Find(haystack, needle, partial)`; the flag is named `fuzzy` here. -/
def Find (haystack : List GoString) (needle : GoString) (fuzzy : Bool) : Int :=
  if fuzzy then findFrom (fun bait => Contains bait needle) haystack 0
  else findFrom (fun bait => bait == needle) haystack 0

/-! ## Transport, responses and errors -/

/-- A Go `error` value, as far as the client looks at it: its text and whether
`errors.Is(err, context.DeadlineExceeded)` holds. -/
structure GoError where
  text : String
  isDeadlineExceeded : Bool
  deriving DecidableEq, Repr

/-- The value `context.DeadlineExceeded`. -/
def DeadlineExceeded : GoError := ⟨"context deadline exceeded", true⟩

/-- What reading `response.Body` to its end (`ioutil.ReadAll`) gives. -/
inductive BodyStream where
  | data (bytes : GoString)
  | failing (err : GoError)
  deriving DecidableEq, Repr

/-- The parts of `http.Response` the client reads. -/
structure Response where
  StatusCode : Int
  /-- The header values `response.Header["Content-Type"]` (empty when absent). -/
  ContentType : List GoString
  Body : BodyStream
  deriving DecidableEq, Repr

/-- The pair `client.Do(request)` returns. -/
structure DoResult where
  response : Option Response
  err : Option GoError
  deriving DecidableEq, Repr

/-- A `misc.HttpClient` seen from one `Try`: the result of its `Do`, given how
many times `Do` was invoked before. -/
abbrev HttpClient := Nat → DoResult

/-! ## `retriers.exponentialRetrier` -/

/-- The default maximum number of times a request is sent. -/
def defaultMaxTries : Nat := 3

/-- The default HTTP status codes that trigger a retry. -/
def defaultRetryableCodes : List Int := [429, 500, 503, 504]

/-- The default jitter setting. -/
def defaultJittering : Bool := true

/-- The struct `exponentialRetrier`. -/
structure exponentialRetrier where
  maxTries : Nat
  retryableCodes : List Int
  jitter : Bool
  deriving DecidableEq, Repr

namespace exponentialRetrier

/-- The function `WithMaxTries`: a zero argument leaves the retrier as it is. -/
def WithMaxTries (retrier : exponentialRetrier) (maxTries : Nat) : exponentialRetrier :=
  if maxTries > 0 then { retrier with maxTries := maxTries } else retrier

/-- The function `WithRetryableCodes`: a nil or empty slice (both `[]` here) leaves the
retrier as it is. -/
def WithRetryableCodes (retrier : exponentialRetrier) (retryableCodes : List Int) :
    exponentialRetrier :=
  if retryableCodes.length > 0 then { retrier with retryableCodes := retryableCodes } else retrier

/-- The function `WithJitter`. -/
def WithJitter (retrier : exponentialRetrier) (jitter : Bool) : exponentialRetrier :=
  { retrier with jitter := jitter }

end exponentialRetrier

/-- The function `NewExponentialRetrier`. -/
def NewExponentialRetrier : exponentialRetrier :=
  { maxTries := defaultMaxTries
    retryableCodes := defaultRetryableCodes
    jitter := defaultJittering }

/-- One configuration call on a retrier. -/
inductive RetrierOption where
  | maxTries (n : Nat)
  | retryableCodes (codes : List Int)
  | jitter (b : Bool)
  deriving DecidableEq, Repr

/-- Apply one configuration call. -/
def RetrierOption.apply (retrier : exponentialRetrier) : RetrierOption → exponentialRetrier
  | .maxTries n => retrier.WithMaxTries n
  | .retryableCodes codes => retrier.WithRetryableCodes codes
  | .jitter b => retrier.WithJitter b

/-- The constructor `NewExponentialRetrier()` followed by a chain of configuration calls. -/
def configured (calls : List RetrierOption) : exponentialRetrier :=
  calls.foldl RetrierOption.apply NewExponentialRetrier

/-- The loop `for _, v := range retrier.retryableCodes` of `Try`: is the status
code one of the retryable ones? -/
def isRetryableCode (codes : List Int) (status : Int) : Bool :=
  match codes with
  | [] => false
  | v :: rest => if v = status then true else isRetryableCode rest status

/-- The value of `canRetry` after an attempt, from the two results of `Do`. -/
def canRetry (retrier : exponentialRetrier) (out : DoResult) : Bool :=
  match out.err with
  | some e =>
    if e.isDeadlineExceeded then true
    else
      match out.response with
      | some resp => isRetryableCode retrier.retryableCodes resp.StatusCode
      | none => false
  | none =>
    match out.response with
    | some resp => isRetryableCode retrier.retryableCodes resp.StatusCode
    | none => false

/-- The number of low bits dropped when `x` is written with a significand of
`p` bits: how often `x` is halved until it is below `2^p`. -/
def lostBits (p : Nat) : Nat → Nat → Nat
  | 0, _ => 0
  | fuel + 1, x => if x < 2 ^ p then 0 else lostBits p fuel (x / 2) + 1

/-- The floating-point number with a significand of `p` bits nearest to the
natural number `x`, ties going to the even significand: the rounding of IEEE 754
arithmetic and of Go's conversions from integers (`p = 53` for `float64`,
`p = 24` for `float32`), exponent range aside. -/
def roundToSignificand (p x : Nat) : Nat :=
  let e := lostBits p x x
  let q := x / 2 ^ e
  let r := x % 2 ^ e
  if 2 * r < 2 ^ e then q * 2 ^ e
  else if 2 ^ e < 2 * r then (q + 1) * 2 ^ e
  else if q % 2 = 0 then q * 2 ^ e
  else (q + 1) * 2 ^ e

/-- The base delay, in seconds, `int64(math.Floor((math.Pow(2, try) - 1) * 0.5))`:
`math.Pow(2, try)` is the exact power, the subtraction rounds to `float64`, the
product with `0.5` is exact and `math.Floor` then `int64` give the whole part.
From `try = 64` on the value is outside `int64` and the conversion is
implementation-dependent in Go; the mathematical value stands for it here. -/
def backoffDelay (tries : Nat) : Int := ((roundToSignificand 53 (2 ^ tries - 1) / 2 : Nat) : Int)

/-- The conversion `float32(d)` of an integer. -/
def toFloat32 (d : Int) : Int :=
  if 0 ≤ d then (roundToSignificand 24 d.toNat : Int)
  else -(roundToSignificand 24 (-d).toNat : Int)

/-- The bound `int64(float32(delay-previousDelay) * 0.25)`: the conversion to
`float32` rounds, the product with `0.25` is exact and the conversion to `int64`
truncates toward zero. -/
def maxJitterOf (delay previousDelay : Int) : Int :=
  Int.tdiv (toFloat32 (delay - previousDelay)) 4

/-- The jitter added to the delay; `draw` is the value `rand.Int63n` is built
from, reduced to the range `[0, 2*maxJitter)`. -/
def jitterOf (maxJitter : Int) (draw : Nat) : Int :=
  if maxJitter > 0 then ((draw : Int) % (2 * maxJitter)) - maxJitter else 0

/-- The local variables of `Try`, with two observers added: how many times
`client.Do` was invoked and the value `delay+jitter`, in seconds, behind each
`time.Sleep(time.Duration(delay+jitter) * time.Second)`; `sleepDuration` gives
the duration handed to `time.Sleep` for such a value. -/
structure TryState where
  response : Option Response
  err : Option GoError
  previousDelay : Int
  /-- The loop counter `try`. -/
  tries : Nat
  invocations : Nat
  sleeps : List Int
  deriving DecidableEq, Repr

/-- The state before the loop: `try = 1`, `previousDelay = 0`, nil response and
error. -/
def TryState.init : TryState :=
  { response := none, err := none, previousDelay := 0, tries := 1, invocations := 0, sleeps := [] }

/-- The `for try = 1; try <= retrier.maxTries; try++` loop of `Try`. Each unit
of fuel pays for one evaluation of the loop condition; `none` means the fuel ran
out before the loop ended. The `Date` header written on the request before each
attempt and the `fmt.Printf` after the loop do not reach the returned values and
are left out. The integers `delay`, `maxJitter`, `jitter` and `delay+jitter` are
those of the source while `try ≤ 63`: up to there the conversion of the delay to
`int64` is defined and no `int64` operation on them overflows. -/
def tryLoop (retrier : exponentialRetrier) (client : HttpClient) (rnd : Nat → Nat) :
    Nat → TryState → Option TryState
  | 0, _ => none
  | fuel + 1, st =>
    if st.tries ≤ retrier.maxTries then
      -- Actual HTTP request
      let out := client st.invocations
      if canRetry retrier out then
        let delay := backoffDelay st.tries
        let maxJitter := maxJitterOf delay st.previousDelay
        let jitter := jitterOf maxJitter (rnd st.tries)
        -- sleep, then the post statement try++
        tryLoop retrier client rnd fuel
          { response := out.response, err := out.err, previousDelay := delay,
            tries := st.tries + 1, invocations := st.invocations + 1,
            sleeps := st.sleeps ++ [delay + jitter] }
      else
        -- break
        some { st with response := out.response, err := out.err,
                       invocations := st.invocations + 1 }
    else some st

/-- The method `Try`: the final state carries the returned `response`, `try` and
`err`. The loop condition is evaluated at most `maxTries + 1` times. -/
def exponentialRetrier.Try (retrier : exponentialRetrier) (client : HttpClient)
    (rnd : Nat → Nat) : Option TryState :=
  tryLoop retrier client rnd (retrier.maxTries + 1) TryState.init

/-! ## `resources.call` and `resources.decodeResponseBody` -/

/-- The interface `serializers.Marshaller`, over the type `α` of decoded values;
`none` is the nil `interface{}` and the nil `error`. -/
structure Marshaller (α : Type) where
  Serialize : α → GoString × Option GoError
  SerializationCompatibleMimetype : GoString
  Deserialize : GoString → Option α × Option GoError
  DeserializationCompatibleMimetypes : List GoString

/-- The loop of `decodeResponseBody` over the marshaller's MIME types: does one
of them occur inside one of the declared content types? -/
def matchesContentType (contentTypes : List GoString) : List GoString → Bool
  | [] => false
  | s :: rest => if Find contentTypes s true ≠ -1 then true else matchesContentType contentTypes rest

/-- The function `decodeResponseBody`. -/
def decodeResponseBody {α : Type} (rawBody : BodyStream) (contentTypes : List GoString)
    (marshaller : Marshaller α) : Option α × Option GoError :=
  match rawBody with
  | .failing err => (none, some err)
  | .data responseBody =>
    if contentTypes.length > 0 ∧
        matchesContentType contentTypes marshaller.DeserializationCompatibleMimetypes = false then
      (none, some ⟨"Cannot deserialize the response", false⟩)
    else if responseBody.length > 0 then marshaller.Deserialize responseBody
    else (none, none)

/-- The interface `retriers.Retrier`: `Try` gives the response, the number of
tries and the error, or `none` when it does not return. -/
abbrev Retrier := HttpClient → Option (Option Response × Nat × Option GoError)

/-- An `exponentialRetrier` as a `Retrier`; `rnd` supplies the random draws. -/
def exponentialRetrier.toRetrier (retrier : exponentialRetrier) (rnd : Nat → Nat) : Retrier :=
  fun client => (retrier.Try client rnd).map (fun st => (st.response, st.tries, st.err))

/-- How an invocation of `call` ends. -/
inductive CallResult (α : Type) where
  /-- The three returned values: decoded body, status code, error. -/
  | returned (body : Option α) (status : Int) (err : Option GoError)
  /-- The nil dereference `response.Body` when `Try` gave neither response nor error. -/
  | nilDereference

/-- The function `call`; `none` when `Try` does not return. -/
def call {α : Type} (client : HttpClient) (marshaller : Marshaller α) (retrier : Retrier) :
    Option (CallResult α) :=
  match retrier client with
  | none => none
  | some (response, _, err) =>
    match err with
    | some e => some (.returned none 0 (some e))
    | none =>
      match response with
      | none => some .nilDereference
      | some resp =>
        let decoded := decodeResponseBody resp.Body resp.ContentType marshaller
        some (.returned decoded.1 resp.StatusCode decoded.2)

/-! ## `strings.ReplaceAll` and `net/url` -/

/-- The byte `{`. -/
def lbrace : Byte := 123
/-- The byte `}`. -/
def rbrace : Byte := 125
/-- The byte `&`. -/
def ampersand : Byte := 38
/-- The byte `=`. -/
def equalsSign : Byte := 61
/-- The byte `;`. -/
def semicolon : Byte := 59
/-- The byte `%`. -/
def percent : Byte := 37
/-- The byte `+`. -/
def plusSign : Byte := 43
/-- The byte of a space. -/
def space : Byte := 32

/-- The scan of `strings.ReplaceAll` for a non-empty `old`, left to right:
`skip` counts the bytes of a matched occurrence still to be passed over. -/
def replaceFrom (old new : GoString) : Nat → GoString → GoString
  | _, [] => []
  | skip + 1, _ :: s => replaceFrom old new skip s
  | 0, c :: s =>
    if old.isPrefixOf (c :: s) then new ++ replaceFrom old new (old.length - 1) s
    else c :: replaceFrom old new 0 s

/-- The function `strings.ReplaceAll(s, old, new)`: every non-overlapping occurrence of `old`
replaced by `new`. Only a non-empty `old` is modelled (for an empty one Go
inserts `new` around every UTF-8 sequence); `Resolve` passes a tag, which has at
least two bytes. -/
def ReplaceAll (s old new : GoString) : GoString :=
  match old with
  | [] => s
  | _ :: _ => replaceFrom old new 0 s

/-- The function `shouldEscape(c, encodeQueryComponent)`: everything but the unreserved
characters `A-Z a-z 0-9 - _ . ~` is escaped. -/
def shouldEscape (c : Byte) : Bool :=
  if (97 ≤ c.val ∧ c.val ≤ 122) ∨ (65 ≤ c.val ∧ c.val ≤ 90) ∨ (48 ≤ c.val ∧ c.val ≤ 57) then false
  else if c.val = 45 ∨ c.val = 95 ∨ c.val = 46 ∨ c.val = 126 then false
  else true

/-- The table `upperhex = "0123456789ABCDEF"`, read at `n`. -/
def upperhex (n : Nat) : Byte :=
  if n < 10 then ⟨(48 + n) % 256, Nat.mod_lt _ (by decide)⟩
  else ⟨(55 + n) % 256, Nat.mod_lt _ (by decide)⟩

/-- What `escape` writes for one byte in the mode `encodeQueryComponent`. -/
def escapeByte (c : Byte) : GoString :=
  if shouldEscape c then
    if c = space then [plusSign]
    else [percent, upperhex (c.val / 16), upperhex (c.val % 16)]
  else [c]

/-- The function `url.QueryEscape`. -/
def QueryEscape : GoString → GoString
  | [] => []
  | c :: s => escapeByte c ++ QueryEscape s

/-- The function `ishex`. -/
def ishex (c : Byte) : Bool :=
  if 48 ≤ c.val ∧ c.val ≤ 57 then true
  else if 97 ≤ c.val ∧ c.val ≤ 102 then true
  else if 65 ≤ c.val ∧ c.val ≤ 70 then true
  else false

/-- The function `unhex`. -/
def unhex (c : Byte) : Nat :=
  if 48 ≤ c.val ∧ c.val ≤ 57 then c.val - 48
  else if 97 ≤ c.val ∧ c.val ≤ 102 then c.val - 97 + 10
  else if 65 ≤ c.val ∧ c.val ≤ 70 then c.val - 65 + 10
  else 0

/-- The function `url.QueryUnescape`; `none` is the `EscapeError` of a `%` that is not
followed by two hexadecimal digits. -/
def QueryUnescape : GoString → Option GoString
  | [] => some []
  | c :: s =>
    if c = percent then
      match s with
      | h1 :: h2 :: rest =>
        if ishex h1 ∧ ishex h2 then
          (QueryUnescape rest).map
            (fun t => (⟨(unhex h1 * 16 + unhex h2) % 256, Nat.mod_lt _ (by decide)⟩ : Byte) :: t)
        else none
      | _ => none
    else if c = plusSign then (QueryUnescape s).map (fun t => space :: t)
    else (QueryUnescape s).map (fun t => c :: t)

/-- The type `url.Values`, a `map[string][]string`: the keys with their values,
each key once. -/
abbrev Values := List (GoString × List GoString)

/-- The map read `v[key]`; a missing key reads as the nil (empty) slice. -/
def Values.index : Values → GoString → List GoString
  | [], _ => []
  | (k, vs) :: rest, key => if k = key then vs else Values.index rest key

/-- The function `Values.Add`: `v[key] = append(v[key], value)`. -/
def Values.Add : Values → GoString → GoString → Values
  | [], key, value => [(key, [value])]
  | (k, vs) :: rest, key, value =>
    if k = key then (k, vs ++ [value]) :: rest else (k, vs) :: Values.Add rest key value

/-- The function `strings.Cut(s, sep)` for a one-byte separator, without the `found` flag. -/
def cutByte (sep : Byte) : GoString → GoString × GoString
  | [] => ([], [])
  | c :: s => if c = sep then ([], s) else (c :: (cutByte sep s).1, (cutByte sep s).2)

/-- The body of the loop of `parseQuery` for one `&`-separated piece: a piece
holding a semicolon, an empty piece and a piece whose key or value does not
unescape are skipped. -/
def parseSegment (m : Values) (segment : GoString) : Values :=
  if Contains segment [semicolon] then m
  else if segment = [] then m
  else
    match QueryUnescape (cutByte equalsSign segment).1 with
    | none => m
    | some key =>
      match QueryUnescape (cutByte equalsSign segment).2 with
      | none => m
      | some value => m.Add key value

/-- The function `url.ParseQuery` without its error (`URL.Query` drops it): the
loop cuts the query at each `&` and handles the pieces from left to right. A
semicolon makes a piece invalid, as it does since Go 1.17. -/
def parseQuery (query : GoString) : Values :=
  (query.splitOn ampersand).foldl parseSegment []

/-- The comparison of two Go strings, byte by byte: `a ≤ b`. -/
def strLe : GoString → GoString → Bool
  | [], _ => true
  | _ :: _, [] => false
  | a :: s, b :: t => if a < b then true else if b < a then false else strLe s t

/-- The function `slices.Sort` on strings. -/
def sortStrings (keys : List GoString) : List GoString :=
  keys.insertionSort (fun a b => strLe a b = true)

/-- What `Values.Encode` writes for one key: `key=value` for each of its values. -/
def encodeKey (v : Values) (k : GoString) : List GoString :=
  (v.index k).map (fun value => QueryEscape k ++ equalsSign :: QueryEscape value)

/-- The function `Values.Encode`: the pairs `key=value`, sorted by key, joined by `&`. -/
def Values.Encode (v : Values) : GoString :=
  [ampersand].intercalate ((sortStrings (v.map Prod.fst)).flatMap (encodeKey v))

/-- The struct `url.URL`. -/
structure URL where
  Scheme : GoString
  Opaque : GoString
  /-- The field `User *Userinfo`: user name and optional password. -/
  User : Option (GoString × Option GoString)
  Host : GoString
  Path : GoString
  RawPath : GoString
  OmitHost : Bool
  ForceQuery : Bool
  RawQuery : GoString
  Fragment : GoString
  RawFragment : GoString
  deriving DecidableEq, Repr

/-- The function `URL.Query`: the parsed `RawQuery`, malformed pairs dropped. -/
def URL.Query (u : URL) : Values := parseQuery u.RawQuery

/-! ## `misc.Resolve` -/

/-- The tag `"{" + k + "}"`. -/
def tagOf (k : GoString) : GoString := lbrace :: (k ++ [rbrace])

/-- One pass of the inner loop of `Resolve` over a field of the copied URL: the
new value of the field and of `hasMatched`. -/
def replaceField (vv tag v : GoString) (hasMatched : Bool) : GoString × Bool :=
  if Contains vv tag then (ReplaceAll vv tag v, true) else (vv, hasMatched)

/-- The body of the loop `for k, v := range *values` of `Resolve`. -/
def resolveEntry (copiedUrl : URL) (k v : GoString) : URL :=
  let tag := tagOf k
  let path := replaceField copiedUrl.Path tag v false
  let fragment := replaceField copiedUrl.Fragment tag v path.2
  let rawQuery := replaceField copiedUrl.RawQuery tag v fragment.2
  let replaced : URL :=
    { copiedUrl with Path := path.1, Fragment := fragment.1, RawQuery := rawQuery.1 }
  if rawQuery.2 = false then
    { replaced with RawQuery := (replaced.Query.Add k v).Encode }
  else replaced

/-- The function `misc.Resolve(url, values)`: `none` is the nil pointer; the entries of the
map come in the order the `range` loop visits them. -/
def Resolve (url : Option URL) (values : Option (List (GoString × GoString))) : Option URL :=
  match url with
  | none => none
  | some copiedUrl =>
    match values with
    | none => some copiedUrl
    | some entries =>
      if entries.length = 0 then some copiedUrl
      else some (entries.foldl (fun u kv => resolveEntry u kv.1 kv.2) copiedUrl)

/-! ## Notions used to state the properties -/

/-- A retryable outcome in the words of the retry policy: a deadline-exceeded
error, or a response whose status code is one of the retryable codes. -/
def retryableOutcome (retrier : exponentialRetrier) (out : DoResult) : Prop :=
  (∃ e, out.err = some e ∧ e.isDeadlineExceeded = true) ∨
  (∃ resp, out.response = some resp ∧ resp.StatusCode ∈ retrier.retryableCodes)

/-- A transport whose every invocation gives the same result. -/
def constClient (out : DoResult) : HttpClient := fun _ => out

/-- A transport giving `first` on its first `n` invocations and `later` afterwards. -/
def switchingClient (n : Nat) (first later : DoResult) : HttpClient :=
  fun i => if i < n then first else later

/-- A response with the given status code, no declared content type and the body `{}`. -/
def statusResponse (status : Int) : Response :=
  { StatusCode := status, ContentType := [], Body := .data (ascii "{}") }

/-- A marshaller for raw bytes: it hands the body back undecoded. -/
def rawMarshaller : Marshaller GoString :=
  { Serialize := fun v => (v, none)
    SerializationCompatibleMimetype := ascii "application/octet-stream"
    Deserialize := fun b => (some b, none)
    DeserializationCompatibleMimetypes := [ascii "application/octet-stream"] }

/-- The bytes `QueryEscape` writes: unreserved characters, `+` and `%`. -/
def isEscapedByte (b : Byte) : Bool := !shouldEscape b || b == plusSign || b == percent

/-- The text `key=value` that `Encode` writes for one pair. -/
def encodePair (kv : GoString × GoString) : GoString :=
  QueryEscape kv.1 ++ equalsSign :: QueryEscape kv.2

/-- The pairs `Encode` writes, in the order it writes them. -/
def Values.pairs (v : Values) : List (GoString × GoString) :=
  (sortStrings (v.map Prod.fst)).flatMap (fun k => (v.index k).map (fun value => (k, value)))

/-- The values a list of pairs holds for a key, in order. -/
def valuesOf (key : GoString) : List (GoString × GoString) → List GoString
  | [] => []
  | kv :: rest => if kv.1 = key then kv.2 :: valuesOf key rest else valuesOf key rest

/-- The function `Values.Add` on a pair. -/
def addPair (acc : Values) (kv : GoString × GoString) : Values := acc.Add kv.1 kv.2

/-- An `http` URL on `localhost:8080` with the given path, raw query and fragment,
as `url.Parse` fills the fields `Resolve` works on. -/
def localUrl (path query fragment : String) : URL :=
  { Scheme := ascii "http", Opaque := [], User := none, Host := ascii "localhost:8080",
    Path := ascii path, RawPath := [], OmitHost := false, ForceQuery := false,
    RawQuery := ascii query, Fragment := ascii fragment, RawFragment := [] }

/-- A string without the bytes `{` and `}`. -/
def braceFree (s : GoString) : Bool := s.all (fun c => c != lbrace && c != rbrace)

/-- Reading `s` from left to right, `inTag` telling whether the last brace read
was a `{`: no `{` comes while `inTag` holds. -/
def flatFrom : Bool → GoString → Bool
  | _, [] => true
  | inTag, c :: s =>
    if c = lbrace then !inTag && flatFrom true s
    else if c = rbrace then flatFrom false s
    else flatFrom inTag s

/-- A string whose braces are not nested: no `{` is followed by another `{`
before a `}`. -/
def flat (s : GoString) : Bool := flatFrom false s

/-- The tag of `k` occurs in none of path, fragment and raw query. -/
def tagAbsent (k : GoString) (u : URL) : Prop :=
  ¬ tagOf k <:+: u.Path ∧ ¬ tagOf k <:+: u.Fragment ∧ ¬ tagOf k <:+: u.RawQuery

/-- Path, fragment and raw query all have flat braces. -/
def flatUrl (u : URL) : Bool := flat u.Path && flat u.Fragment && flat u.RawQuery

/-- No name and no value of the mapping holds a brace. -/
def plainEntries (entries : List (GoString × GoString)) : Bool :=
  entries.all (fun kv => braceFree kv.1 && braceFree kv.2)

/-! ## `resources.resource` and its configuration calls -/

/-- The default request timeout, in seconds. -/
def defaultTimeout : Nat := 30

/-- The struct `resource`, over the type `α` of decoded values; `none` is a nil
interface value or a nil pointer. -/
structure resource (α : Type) where
  client : Option HttpClient
  endpoint : Option URL
  marshaller : Option (Marshaller α)
  retrier : Option Retrier
  timeout : Nat

namespace resource

/-- The method `WithMarshaller`; the returned value is the receiver after the call. -/
def WithMarshaller {α : Type} (r : resource α) (marshaller : Option (Marshaller α)) :
    resource α :=
  match marshaller with
  | some m => { r with marshaller := some m }
  | none => r

/-- The method `WithTimeout`: the assignment has no guard. -/
def WithTimeout {α : Type} (r : resource α) (timeout : Nat) : resource α :=
  { r with timeout := timeout }

/-- The method `WithClient`. -/
def WithClient {α : Type} (r : resource α) (client : Option HttpClient) : resource α :=
  match client with
  | some c => { r with client := some c }
  | none => r

/-- The method `WithRetrier`. -/
def WithRetrier {α : Type} (r : resource α) (retrier : Option Retrier) : resource α :=
  match retrier with
  | some t => { r with retrier := some t }
  | none => r

end resource

/-- The constructor `NewResource`; `http.DefaultClient` and the JSON marshaller
are taken as given, `rnd` supplies the random draws of the default retrier. -/
def NewResource {α : Type} (defaultClient : HttpClient) (jsonMarshaller : Marshaller α)
    (rnd : Nat → Nat) (endpoint : Option URL) : resource α :=
  { client := some defaultClient
    endpoint := endpoint
    marshaller := some jsonMarshaller
    retrier := some (NewExponentialRetrier.toRetrier rnd)
    timeout := defaultTimeout }

/-! ## Further notions used to state the properties -/

/-- The error `errors.New("Cannot deserialize the response")` of `decodeResponseBody`. -/
def incompatibleContentType : GoError := ⟨"Cannot deserialize the response", false⟩

/-- Some declared content type holds one of the MIME types as a substring. -/
def compatibleContentType (contentTypes mimetypes : List GoString) : Prop :=
  ∃ s ∈ mimetypes, ∃ bait ∈ contentTypes, s <:+: bait

/-- The comparison `Find` makes between an element of the haystack and the needle. -/
def findMatches (needle : GoString) (fuzzy : Bool) (bait : GoString) : Prop :=
  if fuzzy then needle <:+: bait else bait = needle

/-- The value of `previousDelay` when attempt `n` is made: the delay of the
attempt before, or 0 at the first attempt. -/
def previousDelayAt (n : Nat) : Int := if n ≤ 1 then 0 else backoffDelay (n - 1)

/-- The number of seconds `Try` sleeps after a retryable attempt `n`. -/
def waitAt (rnd : Nat → Nat) (n : Nat) : Int :=
  backoffDelay n + jitterOf (maxJitterOf (backoffDelay n) (previousDelayAt n)) (rnd n)

/-- The value of `hasMatched` after the inner loop of `Resolve`. -/
def tagMatched (u : URL) (k : GoString) : Bool :=
  Contains u.Path (tagOf k) || Contains u.Fragment (tagOf k) || Contains u.RawQuery (tagOf k)

/-- The loop of `Resolve` over the entries, from the copied URL. -/
def resolveAll (u : URL) (entries : List (GoString × GoString)) : URL :=
  entries.foldl (fun u kv => resolveEntry u kv.1 kv.2) u

/-- The templates on which every supplied name is substituted: braces flat in
path, fragment and raw query, and the tag of every supplied name present. -/
def allSubstituted (u : URL) (entries : List (GoString × GoString)) : Prop :=
  flatUrl u = true ∧ plainEntries entries = true ∧ (entries.map Prod.fst).Nodup ∧
  ∀ kv ∈ entries, tagMatched u kv.1 = true

/-- The templates whose raw query holds no supplied tag: braces flat in path and
fragment, names and values without braces, each name once. -/
def queryUntagged (u : URL) (entries : List (GoString × GoString)) : Prop :=
  flat u.Path = true ∧ flat u.Fragment = true ∧ plainEntries entries = true ∧
  (entries.map Prod.fst).Nodup ∧ ∀ kv ∈ entries, ¬ tagOf kv.1 <:+: u.RawQuery

/-! ## The events of `Try` in order -/

/-- What `Try` does to the outside, one step at a time: a call of `client.Do`,
with the value of `try` at that moment, or a call of `time.Sleep`, with its
number of seconds (a sleep of zero seconds is a sleep). -/
inductive TryEvent where
  | invoke (attempt : Nat)
  | sleep (seconds : Int)
  deriving DecidableEq, Repr

/-- The `for` loop of `Try` as in `tryLoop`, returning with the final state the
calls of `client.Do` and of `time.Sleep` in the order in which the loop makes
them from the state `st` on: in one round `client.Do` comes first and
`time.Sleep`, if the outcome is retryable, second. -/
def tryLoopEvents (retrier : exponentialRetrier) (client : HttpClient) (rnd : Nat → Nat) :
    Nat → TryState → Option (TryState × List TryEvent)
  | 0, _ => none
  | fuel + 1, st =>
    if st.tries ≤ retrier.maxTries then
      -- Actual HTTP request
      let out := client st.invocations
      if canRetry retrier out then
        let delay := backoffDelay st.tries
        let maxJitter := maxJitterOf delay st.previousDelay
        let jitter := jitterOf maxJitter (rnd st.tries)
        -- sleep, then the post statement try++
        (tryLoopEvents retrier client rnd fuel
          { response := out.response, err := out.err, previousDelay := delay,
            tries := st.tries + 1, invocations := st.invocations + 1,
            sleeps := st.sleeps ++ [delay + jitter] }).map
          (fun r => (r.1, TryEvent.invoke st.tries :: TryEvent.sleep (delay + jitter) :: r.2))
      else
        -- break
        some ({ st with response := out.response, err := out.err,
                        invocations := st.invocations + 1 },
              [TryEvent.invoke st.tries])
    else some (st, [])

/-- The method `Try` with the events of its loop. -/
def exponentialRetrier.TryEvents (retrier : exponentialRetrier) (client : HttpClient)
    (rnd : Nat → Nat) : Option (TryState × List TryEvent) :=
  tryLoopEvents retrier client rnd (retrier.maxTries + 1) TryState.init

/-- The seconds of the sleeps among the events, in order. -/
def sleepsOf : List TryEvent → List Int
  | [] => []
  | TryEvent.sleep s :: rest => s :: sleepsOf rest
  | TryEvent.invoke _ :: rest => sleepsOf rest

/-- The number of calls of `client.Do` among the events. -/
def invocationsOf : List TryEvent → Nat
  | [] => 0
  | TryEvent.invoke _ :: rest => invocationsOf rest + 1
  | TryEvent.sleep _ :: rest => invocationsOf rest

/-- The number of attempts, among the first `n`, whose outcome the loop of `Try`
finds retryable. -/
def retryableAttempts (retrier : exponentialRetrier) (client : HttpClient) (n : Nat) : Nat :=
  ((List.range n).filter (fun i => canRetry retrier (client i))).length

/-- The events of `n` attempts each followed by its wait. -/
def attemptsWithWaits (rnd : Nat → Nat) (first n : Nat) : List TryEvent :=
  (List.range' first n).flatMap (fun k => [TryEvent.invoke k, TryEvent.sleep (waitAt rnd k)])

/-! ## The duration handed to `time.Sleep` -/

/-- The value an `int64` holds after an operation whose exact result is `x`: Go
wraps signed integers around. -/
def wrapInt64 (x : Int) : Int := (x + 2 ^ 63) % 2 ^ 64 - 2 ^ 63

/-- The constant `time.Second`: the nanoseconds of one second. -/
def Second : Int := 1000000000

/-- The argument `time.Duration(delay+jitter) * time.Second` of `time.Sleep`, in
nanoseconds, from the value `seconds` of `delay+jitter`: a product of two
`int64`. On a duration that is not positive `time.Sleep` returns at once. -/
def sleepDuration (seconds : Int) : Int := wrapInt64 (seconds * Second)

/-- An event of `Try` without its seconds. -/
inductive TryStep where
  | attempt (n : Nat)
  | wait
  deriving DecidableEq, Repr

/-- The step an event stands for. -/
def TryEvent.step : TryEvent → TryStep
  | TryEvent.invoke n => TryStep.attempt n
  | TryEvent.sleep _ => TryStep.wait

/-! ## The retry loop -/

theorem isRetryableCode_iff (codes : List Int) (status : Int) :
    isRetryableCode codes status = true ↔ status ∈ codes := by
  induction codes with
  | nil => simp [isRetryableCode]
  | cons v rest ih =>
    by_cases h : v = status
    · simp [isRetryableCode, h]
    · have h2 : ¬ status = v := fun e => h e.symm
      simp [isRetryableCode, h, h2, ih]

theorem canRetry_iff (retrier : exponentialRetrier) (out : DoResult) :
    canRetry retrier out = true ↔ retryableOutcome retrier out := by
  obtain ⟨response, err⟩ := out
  cases err with
  | none =>
    cases response with
    | none => simp [canRetry, retryableOutcome]
    | some resp => simp [canRetry, retryableOutcome, isRetryableCode_iff]
  | some e =>
    by_cases hd : e.isDeadlineExceeded = true
    · simp [canRetry, retryableOutcome, hd]
    · cases response with
      | none => simp [canRetry, retryableOutcome, hd]
      | some resp => simp [canRetry, retryableOutcome, hd, isRetryableCode_iff]

theorem WithMaxTries_pos (retrier : exponentialRetrier) (n : Nat) (h : 0 < retrier.maxTries) :
    0 < (retrier.WithMaxTries n).maxTries := by
  unfold exponentialRetrier.WithMaxTries
  split
  · assumption
  · exact h

theorem apply_maxTries_pos (retrier : exponentialRetrier) (c : RetrierOption)
    (h : 0 < retrier.maxTries) : 0 < (c.apply retrier).maxTries := by
  cases c with
  | maxTries n => exact WithMaxTries_pos retrier n h
  | retryableCodes codes =>
    simp only [RetrierOption.apply, exponentialRetrier.WithRetryableCodes]
    split <;> exact h
  | jitter b => exact h

theorem foldl_apply_maxTries_pos (calls : List RetrierOption) (retrier : exponentialRetrier)
    (h : 0 < retrier.maxTries) : 0 < (calls.foldl RetrierOption.apply retrier).maxTries := by
  induction calls generalizing retrier with
  | nil => exact h
  | cons c rest ih => exact ih _ (apply_maxTries_pos retrier c h)

theorem configured_maxTries_pos (calls : List RetrierOption) :
    0 < (configured calls).maxTries :=
  foldl_apply_maxTries_pos calls NewExponentialRetrier (by decide)

/-- What the loop of `Try` does from a state at the loop head (where the
transport was invoked `tries - 1` times): it ends, and it ends either on a
`break` at the first attempt whose outcome is not retryable, or on the loop
condition after `maxTries` attempts that were all retryable. -/
theorem tryLoop_spec (retrier : exponentialRetrier) (client : HttpClient) (rnd : Nat → Nat) :
    ∀ (fuel : Nat) (st : TryState),
      st.invocations + 1 = st.tries →
      st.tries ≤ retrier.maxTries + 1 →
      retrier.maxTries + 2 ≤ fuel + st.tries →
      ∃ res, tryLoop retrier client rnd fuel st = some res ∧
        ((st.tries ≤ res.tries ∧ res.tries ≤ retrier.maxTries ∧
            res.invocations = res.tries ∧
            canRetry retrier (client (res.tries - 1)) = false ∧
            res.response = (client (res.tries - 1)).response ∧
            res.err = (client (res.tries - 1)).err ∧
            ∀ i, st.tries ≤ i + 1 → i + 1 < res.tries → canRetry retrier (client i) = true)
          ∨
          (res.tries = retrier.maxTries + 1 ∧
            res.invocations = retrier.maxTries ∧
            (∀ i, st.tries ≤ i + 1 → i < retrier.maxTries → canRetry retrier (client i) = true) ∧
            (st.tries ≤ retrier.maxTries →
              res.response = (client (retrier.maxTries - 1)).response ∧
              res.err = (client (retrier.maxTries - 1)).err) ∧
            (st.tries = retrier.maxTries + 1 → res = st))) := by
  intro fuel
  induction fuel with
  | zero =>
    intro st _ h2 h3
    omega
  | succ fuel ih =>
    intro st h1 h2 h3
    by_cases hle : st.tries ≤ retrier.maxTries
    · have hinv : st.invocations = st.tries - 1 := by omega
      by_cases hc : canRetry retrier (client st.invocations) = true
      · -- retry: sleep, try++ and go on
        have hstep : tryLoop retrier client rnd (fuel + 1) st =
            tryLoop retrier client rnd fuel
              { response := (client st.invocations).response,
                err := (client st.invocations).err,
                previousDelay := backoffDelay st.tries,
                tries := st.tries + 1, invocations := st.invocations + 1,
                sleeps := st.sleeps ++ [backoffDelay st.tries +
                  jitterOf (maxJitterOf (backoffDelay st.tries) st.previousDelay)
                    (rnd st.tries)] } := by
          simp [tryLoop, hle, hc]
        obtain ⟨res, hres, hcases⟩ := ih
            { response := (client st.invocations).response,
              err := (client st.invocations).err,
              previousDelay := backoffDelay st.tries,
              tries := st.tries + 1, invocations := st.invocations + 1,
              sleeps := st.sleeps ++ [backoffDelay st.tries +
                jitterOf (maxJitterOf (backoffDelay st.tries) st.previousDelay)
                  (rnd st.tries)] }
            (by simp; omega) (by simp; omega) (by simp; omega)
        refine ⟨res, by rw [hstep, hres], ?_⟩
        simp only at hcases
        rcases hcases with ⟨a1, a2, a3, a4, a5, a6, a7⟩ | ⟨b1, b2, b3, b4, b5⟩
        · left
          refine ⟨by omega, a2, a3, a4, a5, a6, ?_⟩
          intro i hi1 hi2
          by_cases hi : i + 1 = st.tries
          · have : i = st.invocations := by omega
            rw [this]; exact hc
          · exact a7 i (by omega) hi2
        · right
          refine ⟨b1, b2, ?_, ?_, ?_⟩
          · intro i hi1 hi2
            by_cases hi : i + 1 = st.tries
            · have : i = st.invocations := by omega
              rw [this]; exact hc
            · exact b3 i (by omega) hi2
          · intro _
            by_cases hlast : st.tries = retrier.maxTries
            · have hst := b5 (by omega)
              rw [hst]
              simp only
              have : st.invocations = retrier.maxTries - 1 := by omega
              rw [this]
              exact ⟨rfl, rfl⟩
            · exact b4 (by omega)
          · intro hcontra
            omega
      · -- break
        have hc2 : canRetry retrier (client st.invocations) = false := by
          simpa using hc
        refine ⟨{ st with response := (client st.invocations).response,
                          err := (client st.invocations).err,
                          invocations := st.invocations + 1 }, ?_, ?_⟩
        · simp [tryLoop, hle, hc2]
        · left
          simp only
          rw [← hinv]
          refine ⟨le_refl _, hle, h1, hc2, rfl, rfl, ?_⟩
          intro i hi1 hi2
          omega
    · -- the loop condition fails
      refine ⟨st, ?_, ?_⟩
      · simp [tryLoop, hle]
      · right
        refine ⟨by omega, by omega, ?_, ?_, ?_⟩
        · intro i hi1 hi2
          omega
        · intro hcontra
          omega
        · intro _
          rfl

/-- The function `Try` from the initial state: the loop ends, and ends in one of the two ways
of `tryLoop_spec`. -/
theorem Try_spec (retrier : exponentialRetrier) (client : HttpClient) (rnd : Nat → Nat) :
    ∃ res, retrier.Try client rnd = some res ∧
      ((1 ≤ res.tries ∧ res.tries ≤ retrier.maxTries ∧
          res.invocations = res.tries ∧
          canRetry retrier (client (res.tries - 1)) = false ∧
          res.response = (client (res.tries - 1)).response ∧
          res.err = (client (res.tries - 1)).err ∧
          ∀ i, i + 1 < res.tries → canRetry retrier (client i) = true)
        ∨
        (res.tries = retrier.maxTries + 1 ∧
          res.invocations = retrier.maxTries ∧
          (∀ i, i < retrier.maxTries → canRetry retrier (client i) = true) ∧
          (1 ≤ retrier.maxTries →
            res.response = (client (retrier.maxTries - 1)).response ∧
            res.err = (client (retrier.maxTries - 1)).err))) := by
  obtain ⟨res, hres, hcases⟩ := tryLoop_spec retrier client rnd (retrier.maxTries + 1)
    TryState.init (by simp [TryState.init]) (by simp [TryState.init])
    (by simp [TryState.init])
  refine ⟨res, hres, ?_⟩
  simp only [TryState.init] at hcases
  rcases hcases with ⟨a1, a2, a3, a4, a5, a6, a7⟩ | ⟨b1, b2, b3, b4, _⟩
  · left
    exact ⟨a1, a2, a3, a4, a5, a6, fun i hi => a7 i (by omega) hi⟩
  · right
    exact ⟨b1, b2, fun i hi => b3 i (by omega) hi, b4⟩

/-- When every one of the `maxTries` attempts has a retryable outcome, the loop
ends on its condition: the transport was invoked `maxTries` times and the
counter stands at `maxTries + 1`. -/
theorem Try_exhausted (retrier : exponentialRetrier) (client : HttpClient) (rnd : Nat → Nat)
    (hall : ∀ i, i < retrier.maxTries → retryableOutcome retrier (client i)) :
    ∃ res, retrier.Try client rnd = some res ∧
      res.invocations = retrier.maxTries ∧ res.tries = retrier.maxTries + 1 := by
  obtain ⟨res, hres, hcases⟩ := Try_spec retrier client rnd
  refine ⟨res, hres, ?_⟩
  rcases hcases with ⟨a1, a2, _, a4, _⟩ | ⟨b1, b2, _⟩
  · exfalso
    have h := (canRetry_iff retrier _).2 (hall (res.tries - 1) (by omega))
    rw [a4] at h
    exact Bool.false_ne_true h
  · exact ⟨b2, b1⟩

/-! ## Properties of `Try` -/

/-- C2: for a retrier built by `NewExponentialRetrier` followed by any chain of
`WithMaxTries` / `WithRetryableCodes` / `WithJitter` calls and for every
transport, `Try` returns after invoking the transport at least once and at most
`maxTries` times; `WithMaxTries(0)` changes nothing and `maxTries ≥ 1` always. -/
theorem Try_invocations_between_one_and_maxTries (calls : List RetrierOption)
    (client : HttpClient) (rnd : Nat → Nat) :
    (∀ r : exponentialRetrier, r.WithMaxTries 0 = r) ∧
    1 ≤ (configured calls).maxTries ∧
    ∃ res, (configured calls).Try client rnd = some res ∧
      1 ≤ res.invocations ∧ res.invocations ≤ (configured calls).maxTries := by
  refine ⟨fun r => by simp [exponentialRetrier.WithMaxTries], configured_maxTries_pos calls, ?_⟩
  have hpos := configured_maxTries_pos calls
  obtain ⟨res, hres, hcases⟩ := Try_spec (configured calls) client rnd
  refine ⟨res, hres, ?_⟩
  rcases hcases with ⟨a1, a2, a3, _⟩ | ⟨_, b2, _⟩
  · omega
  · omega

/-- The loop stops at the first attempt whose outcome is not retryable. -/
theorem Try_stops_at_first_non_retryable_aux (retrier : exponentialRetrier) (client : HttpClient)
    (rnd : Nat → Nat) (k : Nat) (hk1 : 1 ≤ k) (hk2 : k ≤ retrier.maxTries)
    (hretry : ∀ i, i + 1 < k → retryableOutcome retrier (client i))
    (hstop : ¬ retryableOutcome retrier (client (k - 1))) :
    ∃ res, retrier.Try client rnd = some res ∧
      res.invocations = k ∧
      res.response = (client (k - 1)).response ∧
      res.err = (client (k - 1)).err ∧
      res.tries = k := by
  obtain ⟨res, hres, hcases⟩ := Try_spec retrier client rnd
  refine ⟨res, hres, ?_⟩
  rcases hcases with ⟨a1, a2, a3, a4, a5, a6, a7⟩ | ⟨_, _, b3, _⟩
  · have hk : res.tries = k := by
      rcases Nat.lt_trichotomy res.tries k with hlt | heq | hgt
      · exfalso
        have h1 := (canRetry_iff retrier _).2 (hretry (res.tries - 1) (by omega))
        rw [a4] at h1
        exact Bool.false_ne_true h1
      · exact heq
      · exfalso
        have h1 := a7 (k - 1) (by omega)
        exact hstop ((canRetry_iff retrier _).1 h1)
    subst hk
    exact ⟨a3, a5, a6, rfl⟩
  · exfalso
    exact hstop ((canRetry_iff retrier _).1 (b3 (k - 1) (by omega)))

/-- C3: with `maxTries = m ≥ 1` and `1 ≤ k ≤ m`, if the first `k-1` invocations
give retryable outcomes and the `k`-th a non-retryable one, `Try` invokes the
transport exactly `k` times and returns the `k`-th response, the `k`-th error
and the count `k`. -/
theorem Try_stops_at_first_non_retryable (retrier : exponentialRetrier) (client : HttpClient)
    (rnd : Nat → Nat) (k : Nat) (hk1 : 1 ≤ k) (hk2 : k ≤ retrier.maxTries)
    (hretry : ∀ i, i + 1 < k → retryableOutcome retrier (client i))
    (hstop : ¬ retryableOutcome retrier (client (k - 1))) :
    ∃ res, retrier.Try client rnd = some res ∧
      res.invocations = k ∧
      res.response = (client (k - 1)).response ∧
      res.err = (client (k - 1)).err ∧
      res.tries = k :=
  Try_stops_at_first_non_retryable_aux retrier client rnd k hk1 hk2 hretry hstop

/-- C3, the two examples of the test suite: an always-200 transport gives count
1, and 500 three times then 200 with `maxTries = 4` gives status 200 and count 4. -/
theorem Try_stops_at_first_non_retryable_witness :
    (∃ res, NewExponentialRetrier.Try (constClient ⟨some (statusResponse 200), none⟩)
        (fun _ => 0) = some res ∧
      res.invocations = 1 ∧ res.response = some (statusResponse 200) ∧ res.err = none ∧
      res.tries = 1) ∧
    (∃ res, (NewExponentialRetrier.WithMaxTries 4).Try
        (switchingClient 3 ⟨some (statusResponse 500), none⟩ ⟨some (statusResponse 200), none⟩)
        (fun _ => 0) = some res ∧
      res.invocations = 4 ∧ res.response = some (statusResponse 200) ∧ res.err = none ∧
      res.tries = 4) := by
  constructor
  · exact Try_stops_at_first_non_retryable NewExponentialRetrier
      (constClient ⟨some (statusResponse 200), none⟩) (fun _ => 0) 1 (by decide) (by decide)
      (fun i hi => absurd hi (by omega))
      (fun h => by
        have h2 := (canRetry_iff _ _).2 h
        revert h2
        decide)
  · exact Try_stops_at_first_non_retryable (NewExponentialRetrier.WithMaxTries 4)
      (switchingClient 3 ⟨some (statusResponse 500), none⟩ ⟨some (statusResponse 200), none⟩)
      (fun _ => 0) 4 (by decide) (by decide)
      (fun i hi => by
        apply (canRetry_iff _ _).1
        have hi3 : i < 3 := by omega
        simp only [switchingClient, hi3, if_true]
        decide)
      (fun h => by
        have h2 := (canRetry_iff _ _).2 h
        revert h2
        decide)

/-- C4 (evaluation at the failing input): the default retrier (`maxTries = 3`)
on a transport that times out on every invocation returns the count 4. -/
theorem Try_always_timeout_returns_four (rnd : Nat → Nat) :
    NewExponentialRetrier.maxTries = 3 ∧
    ∃ res, NewExponentialRetrier.Try (constClient ⟨none, some DeadlineExceeded⟩) rnd = some res ∧
      res.tries = 4 ∧ res.err = some DeadlineExceeded := by
  refine ⟨rfl, ?_⟩
  obtain ⟨res, hres, hcases⟩ :=
    Try_spec NewExponentialRetrier (constClient ⟨none, some DeadlineExceeded⟩) rnd
  refine ⟨res, hres, ?_⟩
  rcases hcases with ⟨_, _, _, a4, _⟩ | ⟨b1, _, _, b4⟩
  · exfalso
    revert a4
    simp [constClient, canRetry, DeadlineExceeded]
  · exact ⟨b1, (b4 (by decide)).2⟩

/-- C5 (evaluation at the failing input): with `maxTries = 1` and a transport
that always answers 503, `Try` invokes the transport once and returns the count 2. -/
theorem Try_exhausted_count_exceeds_invocations (rnd : Nat → Nat) :
    ∃ res, (NewExponentialRetrier.WithMaxTries 1).Try
        (constClient ⟨some (statusResponse 503), none⟩) rnd = some res ∧
      res.invocations = 1 ∧ res.tries = 2 := by
  refine ⟨_, rfl, rfl, rfl⟩

/-- C6 (counterexample): the first attempt fails with an error that is not
deadline-exceeded, accompanied by a response with status 500; `Try` does not
stop there: it invokes the transport a second time and returns the second
attempt's response. -/
theorem Try_retries_failure_with_retryable_response :
    (switchingClient 1 ⟨some (statusResponse 500), some ⟨"connection reset", false⟩⟩
        ⟨some (statusResponse 200), none⟩ 0).err = some ⟨"connection reset", false⟩ ∧
    NewExponentialRetrier.Try
        (switchingClient 1 ⟨some (statusResponse 500), some ⟨"connection reset", false⟩⟩
          ⟨some (statusResponse 200), none⟩) (fun _ => 0) =
      some { response := some (statusResponse 200), err := none, previousDelay := 0,
             tries := 2, invocations := 2, sleeps := [0] } := by
  decide

/-- C6 (amended): `canRetry` holds exactly for the retryable outcomes: a
deadline-exceeded error, or a response whose status code is in `retryableCodes`
(whether or not another error accompanies that response). For an attempt `n`
that is reached: if its outcome is retryable and `n < maxTries` the transport is
invoked again; if its outcome is not retryable `Try` stops after it and returns
its response and error. -/
theorem Try_retry_decision (retrier : exponentialRetrier) (client : HttpClient)
    (rnd : Nat → Nat) (n : Nat) (hn1 : 1 ≤ n) (hn2 : n ≤ retrier.maxTries)
    (hreach : ∀ i, i + 1 < n → retryableOutcome retrier (client i)) :
    (canRetry retrier (client (n - 1)) = true ↔
      ((∃ e, (client (n - 1)).err = some e ∧ e.isDeadlineExceeded = true) ∨
       (∃ resp, (client (n - 1)).response = some resp ∧
          resp.StatusCode ∈ retrier.retryableCodes))) ∧
    ∃ res, retrier.Try client rnd = some res ∧
      (canRetry retrier (client (n - 1)) = true → n < retrier.maxTries →
        n < res.invocations) ∧
      (canRetry retrier (client (n - 1)) = false →
        res.invocations = n ∧ res.response = (client (n - 1)).response ∧
        res.err = (client (n - 1)).err) := by
  refine ⟨canRetry_iff retrier (client (n - 1)), ?_⟩
  obtain ⟨res, hres, hcases⟩ := Try_spec retrier client rnd
  refine ⟨res, hres, ?_, ?_⟩
  · intro hc hlt
    rcases hcases with ⟨a1, a2, a3, a4, a5, a6, a7⟩ | ⟨_, b2, _, _⟩
    · rw [a3]
      by_contra hcon
      have hle : res.tries ≤ n := by omega
      rcases Nat.lt_or_eq_of_le hle with h1 | h1
      · have h2 := (canRetry_iff retrier _).2 (hreach (res.tries - 1) (by omega))
        rw [a4] at h2
        exact Bool.false_ne_true h2
      · rw [h1, hc] at a4
        exact Bool.false_ne_true a4.symm
    · omega
  · intro hc
    have hstop : ¬ retryableOutcome retrier (client (n - 1)) := by
      intro h
      have h2 := (canRetry_iff retrier _).2 h
      rw [hc] at h2
      exact Bool.false_ne_true h2
    obtain ⟨res2, hres2, h1, h2, h3, _⟩ :=
      Try_stops_at_first_non_retryable_aux retrier client rnd n hn1 hn2 hreach hstop
    rw [hres] at hres2
    cases hres2
    exact ⟨h1, h2, h3⟩

/-- C6 (amended), on the default retrier with `500, 500, 200`: the second
attempt is reached and retried, the third is not retried. -/
theorem Try_retry_decision_witness :
    ∃ res, NewExponentialRetrier.Try
        (switchingClient 2 ⟨some (statusResponse 500), none⟩ ⟨some (statusResponse 200), none⟩)
        (fun _ => 0) = some res ∧ res.invocations = 3 ∧
        res.response = some (statusResponse 200) := by
  obtain ⟨_, res, hres, _, hstop⟩ := Try_retry_decision NewExponentialRetrier
    (switchingClient 2 ⟨some (statusResponse 500), none⟩ ⟨some (statusResponse 200), none⟩)
    (fun _ => 0) 3 (by decide) (by decide)
    (fun i hi => by
      apply (canRetry_iff _ _).1
      have hi2 : i < 2 := by omega
      simp only [switchingClient, hi2, if_true]
      decide)
  have h := hstop (by decide)
  exact ⟨res, hres, h.1, h.2.1⟩

/-- C7: if each of the `maxTries` invocations gives no error and a response with
a retryable status code, `Try` returns the last response with a nil error, and
`call` returns that response's status code with the decoding of its body. -/
theorem call_after_exhaustion_on_retryable_status {α : Type} (retrier : exponentialRetrier)
    (client : HttpClient) (rnd : Nat → Nat) (marshaller : Marshaller α)
    (hpos : 0 < retrier.maxTries)
    (hall : ∀ i, i < retrier.maxTries → ∃ resp, client i = ⟨some resp, none⟩ ∧
      resp.StatusCode ∈ retrier.retryableCodes) :
    ∃ last res, client (retrier.maxTries - 1) = ⟨some last, none⟩ ∧
      retrier.Try client rnd = some res ∧
      res.invocations = retrier.maxTries ∧
      res.response = some last ∧ res.err = none ∧
      call client marshaller (retrier.toRetrier rnd) =
        some (.returned (decodeResponseBody last.Body last.ContentType marshaller).1
          last.StatusCode (decodeResponseBody last.Body last.ContentType marshaller).2) := by
  obtain ⟨last, hlast, _⟩ := hall (retrier.maxTries - 1) (by omega)
  obtain ⟨res, hres, hcases⟩ := Try_spec retrier client rnd
  have hretry : ∀ i, i < retrier.maxTries → canRetry retrier (client i) = true := by
    intro i hi
    obtain ⟨resp, h1, h2⟩ := hall i hi
    apply (canRetry_iff retrier _).2
    right
    exact ⟨resp, by rw [h1], h2⟩
  rcases hcases with ⟨a1, a2, _, a4, _⟩ | ⟨_, b2, _, b4⟩
  · exfalso
    rw [hretry (res.tries - 1) (by omega)] at a4
    exact Bool.false_ne_true a4.symm
  · obtain ⟨h1, h2⟩ := b4 hpos
    rw [hlast] at h1 h2
    simp only at h1 h2
    refine ⟨last, res, hlast, hres, b2, h1, h2, ?_⟩
    simp [call, exponentialRetrier.toRetrier, hres, h1, h2]

/-- C7 on the default retrier with a transport that always answers 503 with the
body `{}`: `call` returns the status 503, the body and no error. -/
theorem call_after_exhaustion_on_retryable_status_witness :
    call (constClient ⟨some (statusResponse 503), none⟩) rawMarshaller
        (NewExponentialRetrier.toRetrier (fun _ => 0)) =
      some (.returned (some (ascii "{}")) 503 none) := by
  obtain ⟨last, res, hlast, _, _, _, _, hcall⟩ :=
    call_after_exhaustion_on_retryable_status NewExponentialRetrier
      (constClient ⟨some (statusResponse 503), none⟩) (fun _ => 0) rawMarshaller (by decide)
      (fun i _ => ⟨statusResponse 503, rfl, by decide⟩)
  have hl : last = statusResponse 503 := by
    simp only [constClient, DoResult.mk.injEq, Option.some.injEq, and_true] at hlast
    exact hlast.symm
  subst hl
  rw [hcall]
  rfl

/-! ## Query escaping -/

set_option maxRecDepth 100000 in
theorem escapeByte_all : ∀ c : Byte, (escapeByte c).all isEscapedByte = true := by
  decide

set_option maxRecDepth 100000 in
theorem unreserved_not_special :
    ∀ c : Byte, shouldEscape c = false → c ≠ percent ∧ c ≠ plusSign := by
  decide

set_option maxRecDepth 100000 in
theorem upperhex_roundtrip : ∀ c : Byte,
    ishex (upperhex (c.val / 16)) = true ∧ ishex (upperhex (c.val % 16)) = true ∧
    (⟨(unhex (upperhex (c.val / 16)) * 16 + unhex (upperhex (c.val % 16))) % 256,
      Nat.mod_lt _ (by decide)⟩ : Byte) = c := by
  decide

theorem QueryUnescape_cons_of_ne (c : Byte) (s : GoString) (h : c ≠ percent) :
    QueryUnescape (c :: s) =
      if c = plusSign then (QueryUnescape s).map (fun t => space :: t)
      else (QueryUnescape s).map (fun t => c :: t) := by
  rcases s with _ | ⟨a, _ | ⟨b, rest⟩⟩ <;> simp [QueryUnescape, h]

theorem QueryUnescape_escapeByte (c : Byte) (rest : GoString) :
    QueryUnescape (escapeByte c ++ rest) = (QueryUnescape rest).map (fun t => c :: t) := by
  unfold escapeByte
  by_cases hs : shouldEscape c = true
  · by_cases hsp : c = space
    · subst hsp
      have h1 : plusSign ≠ percent := by decide
      simp [hs, QueryUnescape_cons_of_ne _ _ h1]
    · obtain ⟨h1, h2, h3⟩ := upperhex_roundtrip c
      simp [hs, hsp, QueryUnescape, h1, h2, h3]
  · have hs2 : shouldEscape c = false := by simpa using hs
    obtain ⟨h1, h2⟩ := unreserved_not_special c hs2
    simp [hs2, QueryUnescape_cons_of_ne _ _ h1, h2]

theorem QueryUnescape_QueryEscape (s : GoString) : QueryUnescape (QueryEscape s) = some s := by
  induction s with
  | nil => simp [QueryEscape, QueryUnescape]
  | cons c s ih => simp [QueryEscape, QueryUnescape_escapeByte, ih]

theorem QueryEscape_bytes (s : GoString) : ∀ b ∈ QueryEscape s, isEscapedByte b = true := by
  induction s with
  | nil => simp [QueryEscape]
  | cons c s ih =>
    intro b hb
    simp only [QueryEscape, List.mem_append] at hb
    rcases hb with hb | hb
    · exact List.all_eq_true.1 (escapeByte_all c) b hb
    · exact ih b hb

theorem QueryEscape_not_mem (s : GoString) (b : Byte) (hb : isEscapedByte b = false) :
    b ∉ QueryEscape s := by
  intro h
  rw [QueryEscape_bytes s b h] at hb
  exact Bool.noConfusion hb

/-! ## Substrings -/

theorem Contains_iff (s sub : GoString) : Contains s sub = true ↔ sub <:+: s := by
  induction s with
  | nil =>
    cases sub with
    | nil => simp [Contains]
    | cons c t => simp [Contains]
  | cons c s ih =>
    simp only [Contains, Bool.or_eq_true, ih, List.isPrefixOf_iff_prefix]
    constructor
    · rintro (h | h)
      · exact h.isInfix
      · exact List.infix_cons h
    · intro h
      rcases List.infix_cons_iff.1 h with h | h
      · exact Or.inl h
      · exact Or.inr h

theorem Contains_singleton (s : GoString) (b : Byte) : Contains s [b] = true ↔ b ∈ s := by
  rw [Contains_iff]
  constructor
  · intro h
    exact h.subset (List.mem_singleton_self b)
  · intro h
    obtain ⟨l1, l2, rfl⟩ := List.append_of_mem h
    exact ⟨l1, l2, by simp⟩

/-! ## Parsing what `Encode` wrote -/

theorem cutByte_append (sep : Byte) (a b : GoString) (h : sep ∉ a) :
    cutByte sep (a ++ sep :: b) = (a, b) := by
  induction a with
  | nil => simp [cutByte]
  | cons c a ih =>
    have hc : c ≠ sep := fun e => h (by simp [e])
    have ha : sep ∉ a := fun e => h (List.mem_cons_of_mem _ e)
    simp [cutByte, hc, ih ha]

theorem encodePair_not_mem (kv : GoString × GoString) (b : Byte)
    (hb : isEscapedByte b = false) (he : b ≠ equalsSign) : b ∉ encodePair kv := by
  intro h
  simp only [encodePair, List.mem_append, List.mem_cons] at h
  rcases h with h | h | h
  · exact QueryEscape_not_mem _ b hb h
  · exact he h
  · exact QueryEscape_not_mem _ b hb h

theorem parseSegment_encodePair (m : Values) (kv : GoString × GoString) :
    parseSegment m (encodePair kv) = m.Add kv.1 kv.2 := by
  have hsemi : Contains (encodePair kv) [semicolon] = false := by
    rw [Bool.eq_false_iff]
    intro h
    exact encodePair_not_mem kv semicolon (by decide) (by decide) ((Contains_singleton _ _).1 h)
  have hne : encodePair kv ≠ [] := by simp [encodePair]
  have hcut : cutByte equalsSign (encodePair kv) = (QueryEscape kv.1, QueryEscape kv.2) :=
    cutByte_append _ _ _ (QueryEscape_not_mem _ _ (by decide))
  simp [parseSegment, hsemi, hne, hcut, QueryUnescape_QueryEscape]

theorem foldl_parseSegment_encodePair (ps : List (GoString × GoString)) (m : Values) :
    (ps.map encodePair).foldl parseSegment m = ps.foldl addPair m := by
  induction ps generalizing m with
  | nil => rfl
  | cons kv ps ih => simp [parseSegment_encodePair, ih, addPair]

theorem parseQuery_intercalate (ps : List (GoString × GoString)) :
    parseQuery ([ampersand].intercalate (ps.map encodePair)) =
      ps.foldl addPair [] := by
  cases ps with
  | nil => decide
  | cons kv ps =>
    unfold parseQuery
    rw [List.splitOn_intercalate]
    · exact foldl_parseSegment_encodePair (kv :: ps) []
    · intro l hl
      obtain ⟨p, _, rfl⟩ := List.mem_map.1 hl
      exact encodePair_not_mem p ampersand (by decide) (by decide)
    · simp

theorem Encode_eq (v : Values) :
    v.Encode = [ampersand].intercalate (v.pairs.map encodePair) := by
  unfold Values.Encode Values.pairs
  congr 1
  induction sortStrings (v.map Prod.fst) with
  | nil => rfl
  | cons k ks ih =>
    simp only [List.flatMap_cons, List.map_append, ih]
    congr 1
    simp [encodeKey, encodePair, List.map_map, Function.comp_def]

/-! ## The map `url.Values` -/

theorem index_Add (m : Values) (k v key : GoString) :
    (m.Add k v).index key = m.index key ++ (if k = key then [v] else []) := by
  induction m with
  | nil => by_cases h : k = key <;> simp [Values.Add, Values.index, h]
  | cons kvs rest ih =>
    obtain ⟨k0, vs⟩ := kvs
    by_cases h0 : k0 = k
    · subst h0
      by_cases h : k0 = key <;> simp [Values.Add, Values.index, h]
    · by_cases h1 : k0 = key
      · subst h1
        have h2 : ¬ k = k0 := fun e => h0 e.symm
        simp [Values.Add, Values.index, h0, h2]
      · simp [Values.Add, Values.index, h0, h1, ih]

theorem index_foldl_Add (ps : List (GoString × GoString)) (m : Values) (key : GoString) :
    (ps.foldl addPair m).index key = m.index key ++ valuesOf key ps := by
  induction ps generalizing m with
  | nil => simp [valuesOf]
  | cons kv ps ih =>
    simp only [List.foldl_cons, ih, addPair, index_Add, valuesOf]
    by_cases h : kv.1 = key <;> simp [h]

theorem valuesOf_append (key : GoString) (a b : List (GoString × GoString)) :
    valuesOf key (a ++ b) = valuesOf key a ++ valuesOf key b := by
  induction a with
  | nil => rfl
  | cons kv a ih => by_cases h : kv.1 = key <;> simp [valuesOf, h, ih]

theorem valuesOf_map_pair (key k : GoString) (vs : List GoString) :
    valuesOf key (vs.map (fun value => (k, value))) = if k = key then vs else [] := by
  by_cases h : k = key
  · subst h
    induction vs with
    | nil => simp [valuesOf]
    | cons v vs ih =>
      simp only [if_true] at ih
      simp [valuesOf, ih]
  · induction vs with
    | nil => simp [valuesOf]
    | cons v vs ih =>
      simp only [h, if_false] at ih
      simp [valuesOf, h, ih]

theorem index_eq_nil_of_not_mem (m : Values) (key : GoString) (h : key ∉ m.map Prod.fst) :
    m.index key = [] := by
  induction m with
  | nil => rfl
  | cons kvs rest ih =>
    obtain ⟨k0, vs⟩ := kvs
    simp only [List.map_cons, List.mem_cons, not_or] at h
    have h0 : ¬ k0 = key := fun e => h.1 e.symm
    simp [Values.index, h0, ih h.2]

theorem valuesOf_flatMap_nodup (m : Values) (key : GoString) (ks : List GoString)
    (hnd : ks.Nodup) :
    valuesOf key (ks.flatMap (fun k => (m.index k).map (fun value => (k, value)))) =
      if key ∈ ks then m.index key else [] := by
  induction ks with
  | nil => simp [valuesOf]
  | cons k ks ih =>
    obtain ⟨hk, hks⟩ := List.nodup_cons.1 hnd
    simp only [List.flatMap_cons, valuesOf_append, valuesOf_map_pair, ih hks]
    by_cases h : k = key
    · subst h
      simp [hk]
    · have h2 : ¬ key = k := fun e => h e.symm
      simp [h, h2]

theorem valuesOf_pairs (m : Values) (key : GoString) (hnd : (m.map Prod.fst).Nodup) :
    valuesOf key m.pairs = m.index key := by
  unfold Values.pairs
  have hperm : List.Perm (sortStrings (m.map Prod.fst)) (m.map Prod.fst) :=
    List.perm_insertionSort _ _
  rw [valuesOf_flatMap_nodup m key _ (hperm.nodup_iff.2 hnd)]
  by_cases h : key ∈ m.map Prod.fst
  · simp [hperm.mem_iff, h]
  · simp [hperm.mem_iff, h, index_eq_nil_of_not_mem m key h]

/-- Parsing what `Encode` wrote gives back, for every key, the values the map
held for it. -/
theorem index_parseQuery_Encode (m : Values) (key : GoString) (hnd : (m.map Prod.fst).Nodup) :
    (parseQuery m.Encode).index key = m.index key := by
  rw [Encode_eq, parseQuery_intercalate, index_foldl_Add, valuesOf_pairs m key hnd]
  simp [Values.index]

theorem keys_Add (m : Values) (k v : GoString) :
    (m.Add k v).map Prod.fst = if k ∈ m.map Prod.fst then m.map Prod.fst
      else m.map Prod.fst ++ [k] := by
  induction m with
  | nil => simp [Values.Add]
  | cons kvs rest ih =>
    obtain ⟨k0, vs⟩ := kvs
    by_cases h0 : k0 = k
    · subst h0
      simp [Values.Add]
    · have h2 : ¬ k = k0 := fun e => h0 e.symm
      by_cases hm : k ∈ rest.map Prod.fst
      · rw [if_pos hm] at ih
        have hm2 : k ∈ ((k0, vs) :: rest).map Prod.fst := by
          simp only [List.map_cons, List.mem_cons]; exact Or.inr hm
        rw [if_pos hm2]
        simp [Values.Add, h0, ih]
      · rw [if_neg hm] at ih
        have hm2 : k ∉ ((k0, vs) :: rest).map Prod.fst := by
          simp only [List.map_cons, List.mem_cons, not_or]; exact ⟨h2, hm⟩
        rw [if_neg hm2]
        simp [Values.Add, h0, ih]

theorem nodup_keys_Add (m : Values) (k v : GoString) (hnd : (m.map Prod.fst).Nodup) :
    ((m.Add k v).map Prod.fst).Nodup := by
  rw [keys_Add]
  split
  · exact hnd
  · rename_i hm
    exact List.Nodup.append hnd (List.nodup_singleton k) (by simpa using hm)

theorem nodup_keys_foldl_parseSegment (segs : List GoString) (m : Values)
    (hnd : (m.map Prod.fst).Nodup) : ((segs.foldl parseSegment m).map Prod.fst).Nodup := by
  induction segs generalizing m with
  | nil => exact hnd
  | cons seg segs ih =>
    apply ih
    unfold parseSegment
    repeat' split
    all_goals first | exact hnd | exact nodup_keys_Add _ _ _ hnd

theorem nodup_keys_parseQuery (query : GoString) : ((parseQuery query).map Prod.fst).Nodup :=
  nodup_keys_foldl_parseSegment _ [] List.nodup_nil

/-! ## `ReplaceAll` on strings with flat braces -/

theorem replaceFrom_skip (old new : GoString) (s : GoString) (n : Nat) :
    replaceFrom old new n s = replaceFrom old new 0 (s.drop n) := by
  induction s generalizing n with
  | nil => cases n <;> simp [replaceFrom]
  | cons c s ih =>
    cases n with
    | zero => simp
    | succ m => simp [replaceFrom, ih m]

theorem ReplaceAll_nil (k v : GoString) : ReplaceAll [] (tagOf k) v = [] := by
  simp [ReplaceAll, tagOf, replaceFrom]

theorem ReplaceAll_tag_append (k v rest : GoString) :
    ReplaceAll (tagOf k ++ rest) (tagOf k) v = v ++ ReplaceAll rest (tagOf k) v := by
  have hp : (tagOf k).isPrefixOf (lbrace :: (k ++ [rbrace] ++ rest)) = true := by
    rw [List.isPrefixOf_iff_prefix]
    exact ⟨rest, by simp [tagOf]⟩
  have hlen : (tagOf k).length - 1 = (k ++ [rbrace]).length := by simp [tagOf]
  have h1 : tagOf k ++ rest = lbrace :: (k ++ [rbrace] ++ rest) := by simp [tagOf]
  rw [h1]
  simp only [ReplaceAll, tagOf] at *
  rw [replaceFrom, if_pos hp, replaceFrom_skip, hlen, List.drop_left]

theorem ReplaceAll_cons_of_not_starts (k v : GoString) (c : Byte) (s : GoString)
    (h : ¬ tagOf k <+: c :: s) :
    ReplaceAll (c :: s) (tagOf k) v = c :: ReplaceAll s (tagOf k) v := by
  have hp : (tagOf k).isPrefixOf (c :: s) = false := by
    rw [Bool.eq_false_iff, Ne, List.isPrefixOf_iff_prefix]
    exact h
  simp only [ReplaceAll, tagOf] at *
  rw [replaceFrom, if_neg (by simp [hp])]

theorem flatFrom_append_braceFree (b : Bool) (x s : GoString) (hx : braceFree x = true) :
    flatFrom b (x ++ s) = flatFrom b s := by
  induction x with
  | nil => rfl
  | cons c x ih =>
    simp only [braceFree, List.all_cons, Bool.and_eq_true, bne_iff_ne] at hx
    have hx2 : braceFree x = true := hx.2
    simp [flatFrom, hx.1.1, hx.1.2, ih hx2]

theorem flatFrom_tag_append (b : Bool) (k rest : GoString) (hk : braceFree k = true) :
    flatFrom b (tagOf k ++ rest) = (!b && flatFrom false rest) := by
  have hne : rbrace ≠ lbrace := by decide
  have h1 : tagOf k ++ rest = lbrace :: (k ++ rbrace :: rest) := by simp [tagOf]
  rw [h1]
  simp [flatFrom, flatFrom_append_braceFree _ _ _ hk, hne]

theorem flatFrom_of_no_lbrace (b : Bool) (s : GoString) (h : lbrace ∉ s) :
    flatFrom b s = true := by
  induction s generalizing b with
  | nil => rfl
  | cons c s ih =>
    have hc : c ≠ lbrace := fun e => h (by simp [e])
    have hs : lbrace ∉ s := fun e => h (List.mem_cons_of_mem _ e)
    by_cases hr : c = rbrace
    · subst hr
      simp [flatFrom, hc, ih _ hs]
    · simp [flatFrom, hc, hr, ih _ hs]

theorem not_tag_infix_of_no_lbrace (k s : GoString) (h : lbrace ∉ s) : ¬ tagOf k <:+: s := by
  intro hin
  exact h (hin.subset (by simp [tagOf]))

theorem braceFree_no_lbrace (v : GoString) (hv : braceFree v = true) : lbrace ∉ v := by
  intro h
  have := List.all_eq_true.1 hv lbrace h
  simp at this

theorem tag_starts_iff (k : GoString) (c : Byte) (s : GoString) :
    tagOf k <+: c :: s ↔ c = lbrace ∧ (k ++ [rbrace]) <+: s := by
  simp only [tagOf, List.cons_prefix_cons]
  constructor
  · rintro ⟨h1, h2⟩; exact ⟨h1.symm, h2⟩
  · rintro ⟨h1, h2⟩; exact ⟨h1.symm, h2⟩

/-- Inside a tag of a flat string the scan copies: a closing `k}` read in the
result was there before. -/
theorem closing_starts_ReplaceAll (k' v : GoString) :
    ∀ (s k : GoString), flatFrom true s = true → braceFree k = true →
      (k ++ [rbrace]) <+: ReplaceAll s (tagOf k') v → (k ++ [rbrace]) <+: s := by
  intro s
  induction s with
  | nil =>
    intro k _ _ h
    rw [ReplaceAll_nil] at h
    simp at h
  | cons c s ih =>
    intro k hflat hk h
    have hc : c ≠ lbrace := by
      intro e
      subst e
      simp [flatFrom] at hflat
    have hns : ¬ tagOf k' <+: c :: s := fun e => hc ((tag_starts_iff _ _ _).1 e).1
    rw [ReplaceAll_cons_of_not_starts _ _ _ _ hns] at h
    cases k with
    | nil =>
      simp only [List.nil_append, List.cons_prefix_cons] at h ⊢
      exact ⟨h.1, List.nil_prefix⟩
    | cons a k2 =>
      simp only [List.cons_append, List.cons_prefix_cons] at h ⊢
      simp only [braceFree, List.all_cons, Bool.and_eq_true, bne_iff_ne] at hk
      have hcr : c ≠ rbrace := by
        rw [← h.1]; exact hk.1.2
      have hflat2 : flatFrom true s = true := by
        simpa [flatFrom, hc, hcr] using hflat
      exact ⟨h.1, ih k2 hflat2 hk.2 h.2⟩

theorem infix_of_infix_append_braceFree (x v w : GoString) (k : GoString)
    (hx : x = tagOf k) (hv : lbrace ∉ v) (h : x <:+: v ++ w) : x <:+: w := by
  induction v with
  | nil => simpa using h
  | cons a v ih =>
    have ha : a ≠ lbrace := fun e => hv (by simp [e])
    have hv2 : lbrace ∉ v := fun e => hv (List.mem_cons_of_mem _ e)
    rw [List.cons_append, List.infix_cons_iff] at h
    rcases h with h | h
    · exfalso
      rw [hx] at h
      exact ha ((tag_starts_iff _ _ _).1 h).1
    · exact ih hv2 h

theorem flatFrom_tail (b : Bool) (c : Byte) (s : GoString) (h : flatFrom b (c :: s) = true) :
    ∃ b2, flatFrom b2 s = true ∧ (c = lbrace → b2 = true) := by
  by_cases hl : c = lbrace
  · refine ⟨true, ?_, fun _ => rfl⟩
    simp only [flatFrom, hl, if_true, Bool.and_eq_true] at h
    exact h.2
  · by_cases hr : c = rbrace
    · refine ⟨false, ?_, fun e => absurd e hl⟩
      simpa [flatFrom, hl, hr] using h
    · refine ⟨b, ?_, fun e => absurd e hl⟩
      simpa [flatFrom, hl, hr] using h

/-- Replacing the tag of `k2` by a brace-free value in a flat string creates no
occurrence of the tag of a brace-free `k`, and leaves none of `k2` itself. -/
theorem tag_infix_ReplaceAll (k k2 v : GoString) (hk : braceFree k = true)
    (hk2 : braceFree k2 = true) (hv : braceFree v = true) :
    ∀ (n : Nat) (s : GoString) (b : Bool), s.length ≤ n → flatFrom b s = true →
      tagOf k <:+: ReplaceAll s (tagOf k2) v → tagOf k <:+: s ∧ k ≠ k2 := by
  intro n
  induction n with
  | zero =>
    intro s b hlen _ h
    have hs : s = [] := List.length_eq_zero.1 (Nat.le_zero.1 hlen)
    subst hs
    rw [ReplaceAll_nil] at h
    simp [tagOf] at h
  | succ n ih =>
    intro s b hlen hflat h
    cases s with
    | nil =>
      rw [ReplaceAll_nil] at h
      simp [tagOf] at h
    | cons c s =>
      by_cases hst : tagOf k2 <+: c :: s
      · obtain ⟨rest, hrest⟩ := hst
        rw [← hrest] at h hflat hlen ⊢
        rw [ReplaceAll_tag_append] at h
        have h2 := infix_of_infix_append_braceFree _ _ _ k rfl (braceFree_no_lbrace v hv) h
        rw [flatFrom_tag_append _ _ _ hk2, Bool.and_eq_true] at hflat
        have hlen2 : rest.length ≤ n := by
          simp only [List.length_append, tagOf, List.length_cons] at hlen
          omega
        obtain ⟨h3, h4⟩ := ih rest false hlen2 hflat.2 h2
        exact ⟨List.IsInfix.trans h3 (List.suffix_append _ _).isInfix, h4⟩
      · rw [ReplaceAll_cons_of_not_starts _ _ _ _ hst, List.infix_cons_iff] at h
        obtain ⟨b2, hb2, hb2l⟩ := flatFrom_tail b c s hflat
        have hlen2 : s.length ≤ n := by
          simp only [List.length_cons] at hlen
          omega
        rcases h with h | h
        · obtain ⟨hc, hclose⟩ := (tag_starts_iff _ _ _).1 h
          have hb2t := hb2l hc
          subst hb2t
          have hclose2 := closing_starts_ReplaceAll k2 v s k hb2 hk hclose
          have hstart : tagOf k <+: c :: s := (tag_starts_iff _ _ _).2 ⟨hc, hclose2⟩
          refine ⟨hstart.isInfix, ?_⟩
          intro e
          subst e
          exact hst hstart
        · obtain ⟨h3, h4⟩ := ih s b2 hlen2 hb2 h
          exact ⟨List.infix_cons h3, h4⟩

theorem flatFrom_ReplaceAll (k2 v : GoString) (hk2 : braceFree k2 = true)
    (hv : braceFree v = true) :
    ∀ (n : Nat) (s : GoString) (b : Bool), s.length ≤ n → flatFrom b s = true →
      flatFrom b (ReplaceAll s (tagOf k2) v) = true := by
  intro n
  induction n with
  | zero =>
    intro s b hlen _
    have hs : s = [] := List.length_eq_zero.1 (Nat.le_zero.1 hlen)
    subst hs
    rw [ReplaceAll_nil]
    rfl
  | succ n ih =>
    intro s b hlen hflat
    cases s with
    | nil =>
      rw [ReplaceAll_nil]
      rfl
    | cons c s =>
      by_cases hst : tagOf k2 <+: c :: s
      · obtain ⟨rest, hrest⟩ := hst
        rw [← hrest] at hflat hlen ⊢
        rw [ReplaceAll_tag_append, flatFrom_append_braceFree _ _ _ hv]
        rw [flatFrom_tag_append _ _ _ hk2, Bool.and_eq_true] at hflat
        have hlen2 : rest.length ≤ n := by
          simp only [List.length_append, tagOf, List.length_cons] at hlen
          omega
        have hb : b = false := by simpa using hflat.1
        subst hb
        exact ih rest false hlen2 hflat.2
      · rw [ReplaceAll_cons_of_not_starts _ _ _ _ hst]
        have hlen2 : s.length ≤ n := by
          simp only [List.length_cons] at hlen
          omega
        by_cases hl : c = lbrace
        · simp only [flatFrom, hl, if_true, Bool.and_eq_true] at hflat ⊢
          exact ⟨hflat.1, ih s true hlen2 hflat.2⟩
        · by_cases hr : c = rbrace
          · simp only [flatFrom, hl, hr, if_true, if_false] at hflat ⊢
            have hne : rbrace ≠ lbrace := by decide
            simp only [hne, if_false] at hflat ⊢
            exact ih s false hlen2 hflat
          · simp only [flatFrom, hl, hr, if_false] at hflat ⊢
            exact ih s b hlen2 hflat

/-! ## Properties of `Resolve` -/

theorem replaceField_of_not_Contains (vv tag v : GoString) (b : Bool)
    (h : Contains vv tag = false) : replaceField vv tag v b = (vv, b) := by
  simp [replaceField, h]

theorem resolveEntry_unmatched (u : URL) (k v : GoString)
    (hpath : Contains u.Path (tagOf k) = false)
    (hfrag : Contains u.Fragment (tagOf k) = false)
    (hquery : Contains u.RawQuery (tagOf k) = false) :
    resolveEntry u k v = { u with RawQuery := (u.Query.Add k v).Encode } := by
  simp [resolveEntry, replaceField, hpath, hfrag, hquery, URL.Query]

theorem Contains_eq_false_iff (s sub : GoString) : Contains s sub = false ↔ ¬ sub <:+: s := by
  rw [← Contains_iff, Bool.not_eq_true]

/-- C8: for a single-entry mapping `{k: v}` whose tag occurs in none of path,
fragment and raw query, `Resolve` leaves path and fragment (and every field but
the raw query) as they are, and the parsed query of the result holds, for every
name, the values the input's parsed query held for it, with `v` appended to the
values of `k`. -/
theorem Resolve_unmatched_entry_merges_query (u : URL) (k v : GoString)
    (hpath : ¬ tagOf k <:+: u.Path) (hfrag : ¬ tagOf k <:+: u.Fragment)
    (hquery : ¬ tagOf k <:+: u.RawQuery) :
    ∃ r, Resolve (some u) (some [(k, v)]) = some r ∧
      r.Path = u.Path ∧ r.Fragment = u.Fragment ∧ r = { u with RawQuery := r.RawQuery } ∧
      ∀ key, r.Query.index key = u.Query.index key ++ (if key = k then [v] else []) := by
  have h := resolveEntry_unmatched u k v ((Contains_eq_false_iff _ _).2 hpath)
    ((Contains_eq_false_iff _ _).2 hfrag) ((Contains_eq_false_iff _ _).2 hquery)
  refine ⟨resolveEntry u k v, by simp [Resolve], by rw [h], by rw [h], by rw [h], ?_⟩
  intro key
  rw [h]
  simp only [URL.Query]
  rw [index_parseQuery_Encode _ _ (nodup_keys_Add _ _ _ (nodup_keys_parseQuery _)), index_Add]
  by_cases hk : k = key
  · subst hk; simp
  · have hk2 : ¬ key = k := fun e => hk e.symm
    simp [hk, hk2]

/-- C8 on the URL of the test suite: adding `withBio=true` to the query
`withCredentials=true&withPhoto=false&withPhoto=maybe` keeps the values of
`withPhoto`. -/
theorem Resolve_unmatched_entry_merges_query_witness :
    ∃ r, Resolve
        (some (localUrl "/api/julien/info" "withCredentials=true&withPhoto=false&withPhoto=maybe" ""))
        (some [(ascii "withBio", ascii "true")]) = some r ∧
      r.Path = ascii "/api/julien/info" ∧
      r.Query.index (ascii "withPhoto") = [ascii "false", ascii "maybe"] ∧
      r.Query.index (ascii "withBio") = [ascii "true"] := by
  obtain ⟨r, hr, hp, _, _, hq⟩ := Resolve_unmatched_entry_merges_query
    (localUrl "/api/julien/info" "withCredentials=true&withPhoto=false&withPhoto=maybe" "")
    (ascii "withBio") (ascii "true")
    ((Contains_eq_false_iff _ _).1 (by decide)) ((Contains_eq_false_iff _ _).1 (by decide))
    ((Contains_eq_false_iff _ _).1 (by decide))
  refine ⟨r, hr, hp, ?_, ?_⟩
  · rw [hq]; decide
  · rw [hq]; decide

/-- C9 (evaluation at the failing input): the raw query holds the tag
`{withBio}`, the mapping `{x: 1}` has no entry for `withBio`, and the raw query
of the resolved URL no longer holds the tag: `Encode` wrote it as
`%7BwithBio%7D`. -/
theorem Resolve_escapes_unsupplied_tag_in_query :
    Contains (localUrl "/api/julien/info" "withBio={withBio}&withPhoto=false" "").RawQuery
        (tagOf (ascii "withBio")) = true ∧
    Resolve (some (localUrl "/api/julien/info" "withBio={withBio}&withPhoto=false" ""))
        (some [(ascii "x", ascii "1")]) =
      some (localUrl "/api/julien/info" "withBio=%7BwithBio%7D&withPhoto=false&x=1" "") ∧
    Contains (localUrl "/api/julien/info" "withBio=%7BwithBio%7D&withPhoto=false&x=1" "").RawQuery
        (tagOf (ascii "withBio")) = false := by
  decide

/-- C10: for every non-nil URL `u`, `Resolve(u, nil)` and `Resolve(u, {})` return
a URL equal to `u` in every field, whatever tags `u` holds. -/
theorem Resolve_without_values (u : URL) :
    Resolve (some u) none = some u ∧ Resolve (some u) (some []) = some u := by
  constructor <;> rfl

/-! ## `Resolve` on templates with flat braces -/

theorem resolveEntry_Path (u : URL) (k v : GoString) :
    (resolveEntry u k v).Path =
      if Contains u.Path (tagOf k) then ReplaceAll u.Path (tagOf k) v else u.Path := by
  unfold resolveEntry replaceField
  by_cases h1 : Contains u.Path (tagOf k) = true <;>
  by_cases h2 : Contains u.Fragment (tagOf k) = true <;>
  by_cases h3 : Contains u.RawQuery (tagOf k) = true <;>
  simp [h1, h2, h3]

theorem resolveEntry_Fragment (u : URL) (k v : GoString) :
    (resolveEntry u k v).Fragment =
      if Contains u.Fragment (tagOf k) then ReplaceAll u.Fragment (tagOf k) v
      else u.Fragment := by
  unfold resolveEntry replaceField
  by_cases h1 : Contains u.Path (tagOf k) = true <;>
  by_cases h2 : Contains u.Fragment (tagOf k) = true <;>
  by_cases h3 : Contains u.RawQuery (tagOf k) = true <;>
  simp [h1, h2, h3]

theorem resolveEntry_RawQuery (u : URL) (k v : GoString) :
    ((resolveEntry u k v).RawQuery =
        if Contains u.RawQuery (tagOf k) then ReplaceAll u.RawQuery (tagOf k) v
        else u.RawQuery) ∨
    (tagAbsent k u ∧ (resolveEntry u k v).RawQuery = (u.Query.Add k v).Encode) := by
  unfold resolveEntry replaceField tagAbsent
  by_cases h1 : Contains u.Path (tagOf k) = true <;>
  by_cases h2 : Contains u.Fragment (tagOf k) = true <;>
  by_cases h3 : Contains u.RawQuery (tagOf k) = true <;>
  simp [h1, h2, h3, URL.Query, ← Contains_iff]

theorem resolveEntry_of_tagAbsent (u : URL) (k v : GoString) (h : tagAbsent k u) :
    (resolveEntry u k v).RawQuery = (u.Query.Add k v).Encode := by
  rw [resolveEntry_unmatched u k v ((Contains_eq_false_iff _ _).2 h.1)
    ((Contains_eq_false_iff _ _).2 h.2.1) ((Contains_eq_false_iff _ _).2 h.2.2)]

theorem flat_replaced (f k2 v : GoString) (hk2 : braceFree k2 = true) (hv : braceFree v = true)
    (hf : flat f = true) :
    flat (if Contains f (tagOf k2) then ReplaceAll f (tagOf k2) v else f) = true := by
  split
  · exact flatFrom_ReplaceAll k2 v hk2 hv f.length f false (le_refl _) hf
  · exact hf

theorem tag_infix_replaced (f k k2 v : GoString) (hk : braceFree k = true)
    (hk2 : braceFree k2 = true) (hv : braceFree v = true) (hf : flat f = true)
    (h : tagOf k <:+: (if Contains f (tagOf k2) then ReplaceAll f (tagOf k2) v else f)) :
    tagOf k <:+: f ∧ k ≠ k2 := by
  split at h
  · exact tag_infix_ReplaceAll k k2 v hk hk2 hv f.length f false (le_refl _) hf h
  · rename_i hc
    refine ⟨h, ?_⟩
    intro e
    subst e
    exact hc ((Contains_iff _ _).2 h)

theorem intercalate_no_lbrace (segs : List GoString) (h : ∀ seg ∈ segs, lbrace ∉ seg) :
    lbrace ∉ [ampersand].intercalate segs := by
  induction segs with
  | nil => simp [List.intercalate]
  | cons a rest ih =>
    have ha : lbrace ∉ a := h a (List.mem_cons_self _ _)
    have hrest : ∀ seg ∈ rest, lbrace ∉ seg := fun seg hs => h seg (List.mem_cons_of_mem _ hs)
    cases rest with
    | nil => simpa [List.intercalate] using ha
    | cons b rest2 =>
      have ih2 := ih hrest
      have hamp : ¬ lbrace = ampersand := by decide
      simp only [List.intercalate, List.intersperse, List.flatten_cons, List.mem_append,
        not_or] at ih2 ⊢
      exact ⟨ha, by simpa using hamp, ih2⟩

theorem Encode_no_lbrace (m : Values) : lbrace ∉ m.Encode := by
  rw [Encode_eq]
  apply intercalate_no_lbrace
  intro seg hs
  obtain ⟨p, _, rfl⟩ := List.mem_map.1 hs
  exact encodePair_not_mem p lbrace (by decide) (by decide)

theorem Resolve_some (u : URL) (entries : List (GoString × GoString)) :
    Resolve (some u) (some entries) =
      some (entries.foldl (fun u kv => resolveEntry u kv.1 kv.2) u) := by
  cases entries with
  | nil => rfl
  | cons e rest => simp [Resolve]

theorem resolveEntry_flatUrl (u : URL) (k2 v : GoString) (hk2 : braceFree k2 = true)
    (hv : braceFree v = true) (h : flatUrl u = true) : flatUrl (resolveEntry u k2 v) = true := by
  simp only [flatUrl, Bool.and_eq_true] at h ⊢
  refine ⟨⟨?_, ?_⟩, ?_⟩
  · rw [resolveEntry_Path]
    exact flat_replaced _ _ _ hk2 hv h.1.1
  · rw [resolveEntry_Fragment]
    exact flat_replaced _ _ _ hk2 hv h.1.2
  · rcases resolveEntry_RawQuery u k2 v with hq | ⟨_, hq⟩
    · rw [hq]
      exact flat_replaced _ _ _ hk2 hv h.2
    · rw [hq]
      exact flatFrom_of_no_lbrace _ _ (Encode_no_lbrace _)

/-- One entry of the mapping leaves no occurrence of its own tag and creates no
occurrence of another brace-free tag. -/
theorem resolveEntry_tagAbsent (u : URL) (k k2 v : GoString) (hk : braceFree k = true)
    (hk2 : braceFree k2 = true) (hv : braceFree v = true) (hflat : flatUrl u = true)
    (h : tagAbsent k u ∨ k = k2) : tagAbsent k (resolveEntry u k2 v) := by
  simp only [flatUrl, Bool.and_eq_true] at hflat
  have key : ∀ f : GoString, flat f = true → (tagAbsent k u → ¬ tagOf k <:+: f) →
      ¬ tagOf k <:+: (if Contains f (tagOf k2) then ReplaceAll f (tagOf k2) v else f) := by
    intro f hf hab hin
    obtain ⟨h1, h2⟩ := tag_infix_replaced f k k2 v hk hk2 hv hf hin
    rcases h with h | h
    · exact hab h h1
    · exact h2 h
  refine ⟨?_, ?_, ?_⟩
  · rw [resolveEntry_Path]
    exact key _ hflat.1.1 (fun hab => hab.1)
  · rw [resolveEntry_Fragment]
    exact key _ hflat.1.2 (fun hab => hab.2.1)
  · rcases resolveEntry_RawQuery u k2 v with hq | ⟨_, hq⟩
    · rw [hq]
      exact key _ hflat.2 (fun hab => hab.2.2)
    · rw [hq]
      exact not_tag_infix_of_no_lbrace _ _ (Encode_no_lbrace _)

theorem plainEntries_cons (e : GoString × GoString) (rest : List (GoString × GoString))
    (h : plainEntries (e :: rest) = true) :
    braceFree e.1 = true ∧ braceFree e.2 = true ∧ plainEntries rest = true := by
  simp only [plainEntries, List.all_cons, Bool.and_eq_true] at h
  exact ⟨h.1.1, h.1.2, by simpa [plainEntries] using h.2⟩

theorem foldl_resolveEntry_tagAbsent (k : GoString) (hk : braceFree k = true)
    (entries : List (GoString × GoString)) :
    ∀ u : URL, plainEntries entries = true → flatUrl u = true → tagAbsent k u →
      tagAbsent k (entries.foldl (fun u kv => resolveEntry u kv.1 kv.2) u) := by
  induction entries with
  | nil => intro u _ _ h; exact h
  | cons e rest ih =>
    intro u hplain hflat h
    obtain ⟨h1, h2, h3⟩ := plainEntries_cons e rest hplain
    exact ih _ h3 (resolveEntry_flatUrl u e.1 e.2 h1 h2 hflat)
      (resolveEntry_tagAbsent u k e.1 e.2 hk h1 h2 hflat (Or.inl h))

/-- Every supplied tag is absent from the result. -/
theorem foldl_resolveEntry_supplied_absent (entries : List (GoString × GoString)) :
    ∀ u : URL, plainEntries entries = true → flatUrl u = true →
      ∀ kv ∈ entries, tagAbsent kv.1 (entries.foldl (fun u kv => resolveEntry u kv.1 kv.2) u) := by
  induction entries with
  | nil => intro u _ _ kv hkv; simp at hkv
  | cons e rest ih =>
    intro u hplain hflat kv hkv
    obtain ⟨h1, h2, h3⟩ := plainEntries_cons e rest hplain
    have hflat2 := resolveEntry_flatUrl u e.1 e.2 h1 h2 hflat
    rcases List.mem_cons.1 hkv with heq | hmem
    · subst heq
      exact foldl_resolveEntry_tagAbsent kv.1 h1 rest _ h3 hflat2
        (resolveEntry_tagAbsent u kv.1 kv.1 kv.2 h1 h1 h2 hflat (Or.inr rfl))
    · exact ih _ h3 hflat2 kv hmem

/-- A value held by an encoded query stays in it through later entries. -/
theorem foldl_resolveEntry_keeps_value (k v : GoString)
    (entries : List (GoString × GoString)) :
    ∀ u : URL, lbrace ∉ u.RawQuery → v ∈ u.Query.index k →
      v ∈ (entries.foldl (fun u kv => resolveEntry u kv.1 kv.2) u).Query.index k := by
  induction entries with
  | nil => intro u _ h; exact h
  | cons e rest ih =>
    intro u hq hv
    have hnot : Contains u.RawQuery (tagOf e.1) = false :=
      (Contains_eq_false_iff _ _).2 (not_tag_infix_of_no_lbrace _ _ hq)
    apply ih
    · rcases resolveEntry_RawQuery u e.1 e.2 with h | ⟨_, h⟩
      · rw [h]; simpa [hnot] using hq
      · rw [h]; exact Encode_no_lbrace _
    · rcases resolveEntry_RawQuery u e.1 e.2 with h | ⟨_, h⟩
      · simp only [hnot] at h
        simp only [URL.Query] at hv ⊢
        rw [h]; simpa using hv
      · simp only [URL.Query] at hv h ⊢
        rw [h, index_parseQuery_Encode _ _ (nodup_keys_Add _ _ _ (nodup_keys_parseQuery _)),
          index_Add]
        exact List.mem_append_left _ hv

/-- Every supplied name whose tag was absent from the input is a parameter of
the result's query. -/
theorem foldl_resolveEntry_unmatched_added (entries : List (GoString × GoString)) :
    ∀ u : URL, plainEntries entries = true → flatUrl u = true →
      ∀ kv ∈ entries, tagAbsent kv.1 u →
        kv.2 ∈ (entries.foldl (fun u kv => resolveEntry u kv.1 kv.2) u).Query.index kv.1 := by
  induction entries with
  | nil => intro u _ _ kv hkv; simp at hkv
  | cons e rest ih =>
    intro u hplain hflat kv hkv hab
    obtain ⟨h1, h2, h3⟩ := plainEntries_cons e rest hplain
    have hflat2 := resolveEntry_flatUrl u e.1 e.2 h1 h2 hflat
    rcases List.mem_cons.1 hkv with heq | hmem
    · subst heq
      have hq := resolveEntry_of_tagAbsent u kv.1 kv.2 hab
      rw [List.foldl_cons]
      apply foldl_resolveEntry_keeps_value
      · rw [hq]; exact Encode_no_lbrace _
      · simp only [URL.Query] at hq ⊢
        rw [hq, index_parseQuery_Encode _ _ (nodup_keys_Add _ _ _ (nodup_keys_parseQuery _)),
          index_Add]
        simp
    · have hk : braceFree kv.1 = true := by
        have := List.all_eq_true.1 h3 kv hmem
        simp only [Bool.and_eq_true] at this
        exact this.1
      exact ih _ h3 hflat2 kv hmem (resolveEntry_tagAbsent u kv.1 e.1 e.2 hk h1 h2 hflat (Or.inl hab))

/-- C1 (counterexample): three resolutions that break the claim. The value of
`a` holds the tag `{a}`, which is still in the path afterwards; the path
`/{{a}}` with `a = a` becomes `/{a}`; and with the entries `a = {b}`, `b = x`
visited in this order the name `b`, whose tag is nowhere in the input, is
substituted into the path and is no parameter of the result's query. -/
theorem Resolve_literal_substitution_counterexample :
    (Contains (localUrl "/{a}" "" "").Path (tagOf (ascii "a")) = true ∧
      ∃ r, Resolve (some (localUrl "/{a}" "" "")) (some [(ascii "a", ascii "{a}")]) = some r ∧
        Contains r.Path (tagOf (ascii "a")) = true) ∧
    (Contains (localUrl "/{{a}}" "" "").Path (tagOf (ascii "a")) = true ∧
      ∃ r, Resolve (some (localUrl "/{{a}}" "" "")) (some [(ascii "a", ascii "a")]) = some r ∧
        Contains r.Path (tagOf (ascii "a")) = true) ∧
    (Contains (localUrl "/{a}" "" "").Path (tagOf (ascii "b")) = false ∧
      Contains (localUrl "/{a}" "" "").Fragment (tagOf (ascii "b")) = false ∧
      Contains (localUrl "/{a}" "" "").RawQuery (tagOf (ascii "b")) = false ∧
      ∃ r, Resolve (some (localUrl "/{a}" "" ""))
          (some [(ascii "a", ascii "{b}"), (ascii "b", ascii "x")]) = some r ∧
        r.Path = ascii "/x" ∧ r.Query.index (ascii "b") = []) := by
  refine ⟨⟨by decide, _, rfl, by decide⟩, ⟨by decide, _, rfl, by decide⟩,
    ⟨by decide, by decide, by decide, _, rfl, by decide, by decide⟩⟩

/-- C1 (amended): when path, fragment and raw query of the URL have flat braces
(no `{` is followed by another `{` before a `}`) and no name or value of the
mapping holds a brace, then, whatever the order in which the entries are
visited, `Resolve` returns a URL in which no supplied name has an occurrence of
its tag left in the path, fragment or raw query, and each supplied name whose
tag occurred in none of the three in the input has its value among the values of
that name in the result's parsed query. -/
theorem Resolve_flat_template (u : URL) (entries : List (GoString × GoString))
    (hflat : flatUrl u = true) (hplain : plainEntries entries = true) :
    ∃ r, Resolve (some u) (some entries) = some r ∧
      (∀ kv ∈ entries,
        ¬ tagOf kv.1 <:+: r.Path ∧ ¬ tagOf kv.1 <:+: r.Fragment ∧ ¬ tagOf kv.1 <:+: r.RawQuery) ∧
      (∀ kv ∈ entries,
        ¬ tagOf kv.1 <:+: u.Path → ¬ tagOf kv.1 <:+: u.Fragment → ¬ tagOf kv.1 <:+: u.RawQuery →
          kv.2 ∈ r.Query.index kv.1) := by
  refine ⟨_, Resolve_some u entries, ?_, ?_⟩
  · exact foldl_resolveEntry_supplied_absent entries u hplain hflat
  · intro kv hkv h1 h2 h3
    exact foldl_resolveEntry_unmatched_added entries u hplain hflat kv hkv ⟨h1, h2, h3⟩

/-- C1 (amended) on the template of the test suite, the entries visited in the
order `user`, `credentials`, `withBio`: the path becomes `/api/julien/info`, the
raw query `withBio=true&withCredentials=true&withPhoto=false`, no tag of the
three names is left and `withBio` holds `true` in the parsed query. -/
theorem Resolve_flat_template_witness :
    ∃ r, Resolve
        (some (localUrl "/api/{user}/info" "withCredentials={credentials}&withPhoto=false" ""))
        (some [(ascii "user", ascii "julien"), (ascii "credentials", ascii "true"),
          (ascii "withBio", ascii "true")]) = some r ∧
      r.Path = ascii "/api/julien/info" ∧
      r.RawQuery = ascii "withBio=true&withCredentials=true&withPhoto=false" ∧
      r.Fragment = [] ∧
      (¬ tagOf (ascii "user") <:+: r.Path ∧ ¬ tagOf (ascii "credentials") <:+: r.RawQuery) ∧
      ascii "true" ∈ r.Query.index (ascii "withBio") := by
  obtain ⟨r, hr, habsent, hadded⟩ := Resolve_flat_template
    (localUrl "/api/{user}/info" "withCredentials={credentials}&withPhoto=false" "")
    [(ascii "user", ascii "julien"), (ascii "credentials", ascii "true"),
      (ascii "withBio", ascii "true")] (by decide) (by decide)
  have hval : Resolve
      (some (localUrl "/api/{user}/info" "withCredentials={credentials}&withPhoto=false" ""))
      (some [(ascii "user", ascii "julien"), (ascii "credentials", ascii "true"),
        (ascii "withBio", ascii "true")]) =
      some (localUrl "/api/julien/info" "withBio=true&withCredentials=true&withPhoto=false" "") := by
    decide
  have hr2 : r = localUrl "/api/julien/info" "withBio=true&withCredentials=true&withPhoto=false" "" := by
    rw [hr] at hval
    exact Option.some.inj hval
  refine ⟨r, hr, by rw [hr2]; rfl, by rw [hr2]; rfl, by rw [hr2]; rfl, ?_, ?_⟩
  · exact ⟨(habsent (ascii "user", ascii "julien") (by simp)).1,
      (habsent (ascii "credentials", ascii "true") (by simp)).2.2⟩
  · exact hadded (ascii "withBio", ascii "true") (by simp)
      ((Contains_eq_false_iff _ _).1 (by decide)) ((Contains_eq_false_iff _ _).1 (by decide))
      ((Contains_eq_false_iff _ _).1 (by decide))

/-! ## `Find` and the content-type check -/

theorem findFrom_range (call : GoString → Bool) (l : List GoString) (i : Nat) :
    findFrom call l i = -1 ∨
      ((i : Int) ≤ findFrom call l i ∧ findFrom call l i < (i : Int) + l.length) := by
  induction l generalizing i with
  | nil => left; rfl
  | cons n rest ih =>
    by_cases hc : call n = true
    · right
      simp only [findFrom, hc, if_true, List.length_cons]
      omega
    · simp only [findFrom, hc, List.length_cons]
      rcases ih (i + 1) with h | ⟨h1, h2⟩
      · left; exact h
      · right
        push_cast at h1 h2 ⊢
        omega

theorem findFrom_eq_neg_one (call : GoString → Bool) (l : List GoString) (i : Nat) :
    findFrom call l i = -1 ↔ ∀ x ∈ l, call x = false := by
  induction l generalizing i with
  | nil => simp [findFrom]
  | cons n rest ih =>
    by_cases hc : call n = true
    · simp only [findFrom, hc, if_true, List.mem_cons, forall_eq_or_imp]
      constructor
      · intro h; omega
      · intro h; exact absurd h.1 (by simp)
    · have hc2 : call n = false := by simpa using hc
      simp only [findFrom, hc, List.mem_cons, forall_eq_or_imp, hc2, true_and]
      exact ih (i + 1)

theorem findFrom_eq_index (call : GoString → Bool) (l : List GoString) (i j : Nat) :
    findFrom call l i = ((i + j : Nat) : Int) ↔
      (∃ b, l[j]? = some b ∧ call b = true) ∧
        ∀ j2, j2 < j → ∀ b, l[j2]? = some b → call b = false := by
  induction l generalizing i j with
  | nil => simp [findFrom]; omega
  | cons n rest ih =>
    by_cases hc : call n = true
    · simp only [findFrom, hc, if_true]
      constructor
      · intro h
        have hj : j = 0 := by omega
        subst hj
        exact ⟨⟨n, by simp, hc⟩, fun j2 hj2 => absurd hj2 (by omega)⟩
      · rintro ⟨_, h2⟩
        cases j with
        | zero => simp
        | succ j =>
          have := h2 0 (by omega) n (by simp)
          rw [hc] at this
          exact absurd this (by simp)
    · have hc2 : call n = false := by simpa using hc
      have hstep : findFrom call (n :: rest) i = findFrom call rest (i + 1) := by
        simp [findFrom, hc2]
      rw [hstep]
      cases j with
      | zero =>
        constructor
        · intro h
          exfalso
          rcases findFrom_range call rest (i + 1) with h1 | ⟨h1, _⟩
          · rw [h1] at h; omega
          · rw [h] at h1; push_cast at h1; omega
        · rintro ⟨⟨b, hb1, hb2⟩, _⟩
          simp only [List.getElem?_cons_zero, Option.some.injEq] at hb1
          subst hb1
          rw [hc2] at hb2
          exact absurd hb2 (by simp)
      | succ j =>
        have hidx : i + (j + 1) = (i + 1) + j := by omega
        rw [hidx, ih (i + 1) j]
        simp only [List.getElem?_cons_succ]
        constructor
        · rintro ⟨h1, h2⟩
          refine ⟨h1, ?_⟩
          intro j2 hj2 b hb
          cases j2 with
          | zero =>
            simp only [List.getElem?_cons_zero, Option.some.injEq] at hb
            subst hb
            exact hc2
          | succ j3 =>
            simp only [List.getElem?_cons_succ] at hb
            exact h2 j3 (by omega) b hb
        · rintro ⟨h1, h2⟩
          refine ⟨h1, ?_⟩
          intro j2 hj2 b hb
          exact h2 (j2 + 1) (by omega) b (by simpa using hb)

theorem Find_eq_findFrom (haystack : List GoString) (needle : GoString) (fuzzy : Bool) :
    ∃ call : GoString → Bool, Find haystack needle fuzzy = findFrom call haystack 0 ∧
      ∀ bait, call bait = true ↔ findMatches needle fuzzy bait := by
  cases fuzzy with
  | true =>
    refine ⟨fun bait => Contains bait needle, by simp [Find], ?_⟩
    intro bait
    simp [findMatches, Contains_iff]
  | false =>
    refine ⟨fun bait => bait == needle, by simp [Find], ?_⟩
    intro bait
    simp [findMatches]

/-- C19: `Find` returns the least index whose element matches the needle (equal
to it in the exact mode, holding it as a substring in the other mode), and `-1`
if and only if no element matches; the result lies in `[-1, len(haystack))`. -/
theorem Find_least_matching_index (haystack : List GoString) (needle : GoString)
    (fuzzy : Bool) :
    (-1 ≤ Find haystack needle fuzzy ∧ Find haystack needle fuzzy < (haystack.length : Int)) ∧
    (Find haystack needle fuzzy = -1 ↔ ∀ bait ∈ haystack, ¬ findMatches needle fuzzy bait) ∧
    (∀ i : Nat, Find haystack needle fuzzy = (i : Int) ↔
      (∃ bait, haystack[i]? = some bait ∧ findMatches needle fuzzy bait) ∧
        ∀ j, j < i → ∀ bait, haystack[j]? = some bait → ¬ findMatches needle fuzzy bait) := by
  obtain ⟨call, hfind, hcall⟩ := Find_eq_findFrom haystack needle fuzzy
  have hfalse : ∀ bait, call bait = false ↔ ¬ findMatches needle fuzzy bait := by
    intro bait
    rw [← hcall bait]
    simp
  rw [hfind]
  refine ⟨?_, ?_, ?_⟩
  · rcases findFrom_range call haystack 0 with h | ⟨h1, h2⟩
    · rw [h]; constructor <;> omega
    · push_cast at h1 h2; constructor <;> omega
  · rw [findFrom_eq_neg_one]
    exact forall_congr' (fun bait => imp_congr_right (fun _ => hfalse bait))
  · intro i
    have h := findFrom_eq_index call haystack 0 i
    rw [Nat.zero_add] at h
    rw [h]
    constructor
    · rintro ⟨⟨b, hb1, hb2⟩, h2⟩
      exact ⟨⟨b, hb1, (hcall b).1 hb2⟩, fun j hj b2 hb => (hfalse b2).1 (h2 j hj b2 hb)⟩
    · rintro ⟨⟨b, hb1, hb2⟩, h2⟩
      exact ⟨⟨b, hb1, (hcall b).2 hb2⟩, fun j hj b2 hb => (hfalse b2).2 (h2 j hj b2 hb)⟩

theorem Find_ne_neg_one_iff (contentTypes : List GoString) (s : GoString) :
    Find contentTypes s true ≠ -1 ↔ ∃ bait ∈ contentTypes, s <:+: bait := by
  simp only [Find, if_true, ne_eq, findFrom_eq_neg_one, Contains_eq_false_iff]
  push_neg
  rfl

theorem matchesContentType_iff (contentTypes mimetypes : List GoString) :
    matchesContentType contentTypes mimetypes = true ↔
      compatibleContentType contentTypes mimetypes := by
  induction mimetypes with
  | nil => simp [matchesContentType, compatibleContentType]
  | cons s rest ih =>
    unfold compatibleContentType at ih ⊢
    by_cases h : Find contentTypes s true ≠ -1
    · have hm : matchesContentType contentTypes (s :: rest) = true := by
        simp [matchesContentType, h]
      simp only [hm, List.mem_cons, exists_eq_or_imp, true_iff]
      exact Or.inl ((Find_ne_neg_one_iff _ _).1 h)
    · have h2 : ¬ ∃ bait ∈ contentTypes, s <:+: bait := fun e => h ((Find_ne_neg_one_iff _ _).2 e)
      have hm : matchesContentType contentTypes (s :: rest) =
          matchesContentType contentTypes rest := by
        simp [matchesContentType, h]
      simp only [hm, List.mem_cons, exists_eq_or_imp, ih]
      constructor
      · intro hr; exact Or.inr hr
      · rintro (hl | hr)
        · exact absurd hl h2
        · exact hr

/-! ## Configuration calls, `decodeResponseBody` and `call` -/

/-- C15 (counterexample): on a resource with the default timeout of 30 seconds,
`WithTimeout(0)` sets the timeout to 0. -/
theorem WithTimeout_zero_changes_timeout :
    (NewResource (constClient ⟨none, none⟩) rawMarshaller (fun _ => 0) none).timeout = 30 ∧
    ((NewResource (constClient ⟨none, none⟩) rawMarshaller (fun _ => 0) none).WithTimeout 0).timeout
      = 0 := by
  exact ⟨rfl, rfl⟩

/-- C15 (amended): `WithMarshaller(nil)`, `WithClient(nil)` and `WithRetrier(nil)`
leave every field of the resource unchanged; a call with a non-nil argument
replaces exactly the corresponding field; `WithTimeout(t)` sets the timeout to
`t` for every `t`, zero included, and leaves the other fields unchanged. Each
call returns the resource it was invoked on, after the update. -/
theorem With_calls_frame {α : Type} (r : resource α) :
    r.WithMarshaller none = r ∧ r.WithClient none = r ∧ r.WithRetrier none = r ∧
    (∀ m, r.WithMarshaller (some m) =
      { client := r.client, endpoint := r.endpoint, marshaller := some m,
        retrier := r.retrier, timeout := r.timeout }) ∧
    (∀ c, r.WithClient (some c) =
      { client := some c, endpoint := r.endpoint, marshaller := r.marshaller,
        retrier := r.retrier, timeout := r.timeout }) ∧
    (∀ t, r.WithRetrier (some t) =
      { client := r.client, endpoint := r.endpoint, marshaller := r.marshaller,
        retrier := some t, timeout := r.timeout }) ∧
    (∀ t, r.WithTimeout t =
      { client := r.client, endpoint := r.endpoint, marshaller := r.marshaller,
        retrier := r.retrier, timeout := t }) := by
  refine ⟨rfl, rfl, rfl, fun _ => rfl, fun _ => rfl, fun _ => rfl, fun _ => rfl⟩

theorem decodeResponseBody_incompatible {α : Type} (body : GoString)
    (contentTypes : List GoString) (marshaller : Marshaller α) (hne : contentTypes ≠ [])
    (hno : ¬ compatibleContentType contentTypes marshaller.DeserializationCompatibleMimetypes) :
    decodeResponseBody (.data body) contentTypes marshaller =
      (none, some incompatibleContentType) := by
  have hlen : contentTypes.length > 0 := List.length_pos.2 hne
  have hm : matchesContentType contentTypes marshaller.DeserializationCompatibleMimetypes
      = false := by
    rw [Bool.eq_false_iff]
    exact fun h => hno ((matchesContentType_iff _ _).1 h)
  simp [decodeResponseBody, hlen, hm, incompatibleContentType]

theorem decodeResponseBody_compatible {α : Type} (body : GoString)
    (contentTypes : List GoString) (marshaller : Marshaller α)
    (h : contentTypes = [] ∨
      compatibleContentType contentTypes marshaller.DeserializationCompatibleMimetypes) :
    decodeResponseBody (.data body) contentTypes marshaller =
      if body.length > 0 then marshaller.Deserialize body else (none, none) := by
  rcases h with h | h
  · subst h
    simp [decodeResponseBody]
  · have hm := (matchesContentType_iff _ _).2 h
    simp [decodeResponseBody, hm]

/-- C16 (counterexample): the response declares the content type `text/html`,
which holds none of the marshaller's MIME types, and reading its body fails;
`decodeResponseBody` fails with the error of the read, not with the
incompatible-content-type error. -/
theorem decodeResponseBody_read_error_first :
    ¬ compatibleContentType [ascii "text/html"]
        rawMarshaller.DeserializationCompatibleMimetypes ∧
    decodeResponseBody (.failing ⟨"unexpected EOF", false⟩) [ascii "text/html"] rawMarshaller =
      (none, some ⟨"unexpected EOF", false⟩) ∧
    (⟨"unexpected EOF", false⟩ : GoError) ≠ incompatibleContentType := by
  refine ⟨?_, rfl, by decide⟩
  rw [← matchesContentType_iff]
  decide

/-- C16 (amended): when the body was read to its end without error,
`decodeResponseBody` fails with the incompatible-content-type error, without
consulting `Deserialize`, if and only if the response declared at least one
content type and no declared content type holds one of the marshaller's MIME
types as a substring. When no content type is declared or one matches, a
non-empty body yields exactly the result of `Deserialize(body)` and an empty
body yields no value and no error, so the error can then only be one that
`Deserialize` itself returned. -/
theorem decodeResponseBody_content_negotiation {α : Type} (body : GoString)
    (contentTypes : List GoString) (marshaller : Marshaller α) :
    ((∀ deserialize : GoString → Option α × Option GoError,
        decodeResponseBody (.data body) contentTypes
            { marshaller with Deserialize := deserialize } =
          (none, some incompatibleContentType)) ↔
      (contentTypes ≠ [] ∧
        ¬ compatibleContentType contentTypes marshaller.DeserializationCompatibleMimetypes)) ∧
    ((marshaller.Deserialize body).2 ≠ some incompatibleContentType →
      ((decodeResponseBody (.data body) contentTypes marshaller).2 =
          some incompatibleContentType ↔
        (contentTypes ≠ [] ∧
          ¬ compatibleContentType contentTypes
            marshaller.DeserializationCompatibleMimetypes))) ∧
    ((contentTypes ≠ [] ∧
        ¬ compatibleContentType contentTypes marshaller.DeserializationCompatibleMimetypes) →
      decodeResponseBody (.data body) contentTypes marshaller =
        (none, some incompatibleContentType)) ∧
    ((contentTypes = [] ∨
        compatibleContentType contentTypes marshaller.DeserializationCompatibleMimetypes) →
      body ≠ [] →
      decodeResponseBody (.data body) contentTypes marshaller = marshaller.Deserialize body) ∧
    ((contentTypes = [] ∨
        compatibleContentType contentTypes marshaller.DeserializationCompatibleMimetypes) →
      body = [] →
      decodeResponseBody (.data body) contentTypes marshaller = (none, none)) := by
  have hor : ¬ (contentTypes ≠ [] ∧
      ¬ compatibleContentType contentTypes marshaller.DeserializationCompatibleMimetypes) →
      (contentTypes = [] ∨
        compatibleContentType contentTypes marshaller.DeserializationCompatibleMimetypes) := by
    intro hn
    by_cases h1 : contentTypes = []
    · exact Or.inl h1
    · right
      by_contra h2
      exact hn ⟨h1, h2⟩
  refine ⟨⟨?_, ?_⟩, ?_, ?_, ?_, ?_⟩
  · intro hall
    by_contra hn
    have h := hall (fun _ => (none, none))
    rw [decodeResponseBody_compatible body contentTypes
      { marshaller with Deserialize := fun _ => (none, none) } (hor hn)] at h
    by_cases hb : body.length > 0
    · simp [hb] at h
    · simp [hb] at h
  · intro h deserialize
    exact decodeResponseBody_incompatible body contentTypes
      { marshaller with Deserialize := deserialize } h.1 h.2
  · intro hD
    constructor
    · intro he
      by_contra hn
      rw [decodeResponseBody_compatible body contentTypes marshaller (hor hn)] at he
      by_cases hb : body.length > 0
      · rw [if_pos hb] at he
        exact hD he
      · rw [if_neg hb] at he
        simp at he
    · intro h
      rw [decodeResponseBody_incompatible body contentTypes marshaller h.1 h.2]
  · intro h
    exact decodeResponseBody_incompatible body contentTypes marshaller h.1 h.2
  · intro h hb
    rw [decodeResponseBody_compatible body contentTypes marshaller h,
      if_pos (List.length_pos.2 hb)]
  · intro h hb
    subst hb
    rw [decodeResponseBody_compatible [] contentTypes marshaller h]
    simp

/-- C16 (amended) on a marshaller for `application/octet-stream` and the body
`{}`: declared as `text/html` the decode fails with the incompatible-content-type
error; declared as `application/octet-stream; charset=binary`, or with no
declared type, it yields what `Deserialize` gives. -/
theorem decodeResponseBody_content_negotiation_witness :
    decodeResponseBody (.data (ascii "{}")) [ascii "text/html"] rawMarshaller =
      (none, some incompatibleContentType) ∧
    decodeResponseBody (.data (ascii "{}"))
        [ascii "application/octet-stream; charset=binary"] rawMarshaller =
      (some (ascii "{}"), none) ∧
    decodeResponseBody (.data (ascii "{}")) [] rawMarshaller = (some (ascii "{}"), none) := by
  have hno : ¬ compatibleContentType [ascii "text/html"]
      rawMarshaller.DeserializationCompatibleMimetypes := by
    rw [← matchesContentType_iff]
    decide
  have hyes : compatibleContentType [ascii "application/octet-stream; charset=binary"]
      rawMarshaller.DeserializationCompatibleMimetypes := by
    rw [← matchesContentType_iff]
    decide
  refine ⟨?_, ?_, ?_⟩
  · exact (decodeResponseBody_content_negotiation (ascii "{}") [ascii "text/html"]
      rawMarshaller).2.2.1 ⟨by decide, hno⟩
  · exact (decodeResponseBody_content_negotiation (ascii "{}")
      [ascii "application/octet-stream; charset=binary"] rawMarshaller).2.2.2.1
      (Or.inr hyes) (by decide)
  · exact (decodeResponseBody_content_negotiation (ascii "{}") [] rawMarshaller).2.2.2.1
      (Or.inl rfl) (by decide)

/-- C17 (counterexample): an empty body with the declared content type
`text/html`, which holds none of the marshaller's MIME types, gives the
incompatible-content-type error. -/
theorem decodeResponseBody_empty_body_incompatible :
    decodeResponseBody (.data []) [ascii "text/html"] rawMarshaller =
      (none, some incompatibleContentType) := by
  decide

/-- C17 (amended): for a response whose body is empty and that declares no
content type, or a content type holding one of the marshaller's MIME types,
`decodeResponseBody` returns no value and no error, whatever `Deserialize`
would give; when every declared content type is incompatible it returns the
incompatible-content-type error. -/
theorem decodeResponseBody_empty_body {α : Type} (contentTypes : List GoString)
    (marshaller : Marshaller α) :
    ((contentTypes = [] ∨
        compatibleContentType contentTypes marshaller.DeserializationCompatibleMimetypes) →
      decodeResponseBody (.data []) contentTypes marshaller = (none, none)) ∧
    ((contentTypes ≠ [] ∧
        ¬ compatibleContentType contentTypes marshaller.DeserializationCompatibleMimetypes) →
      decodeResponseBody (.data []) contentTypes marshaller =
        (none, some incompatibleContentType)) := by
  constructor
  · intro h
    rw [decodeResponseBody_compatible [] contentTypes marshaller h]
    rfl
  · intro h
    exact decodeResponseBody_incompatible [] contentTypes marshaller h.1 h.2

/-- C18 (counterexample): every attempt gives a response with status 200
together with a deadline-exceeded error; `call` returns that error with the
status code 0 although the final attempt obtained a response. -/
theorem call_status_zero_with_response :
    (∃ res, NewExponentialRetrier.Try
        (constClient ⟨some (statusResponse 200), some DeadlineExceeded⟩) (fun _ => 0) = some res ∧
      res.response = some (statusResponse 200) ∧ res.err = some DeadlineExceeded) ∧
    call (constClient ⟨some (statusResponse 200), some DeadlineExceeded⟩) rawMarshaller
        (NewExponentialRetrier.toRetrier (fun _ => 0)) =
      some (.returned none 0 (some DeadlineExceeded)) := by
  exact ⟨⟨_, rfl, rfl, rfl⟩, rfl⟩

/-- C18 (amended): when the retrier returns an error, `call` returns that
error with the status code 0, whether or not a response came with it; when the
retrier returns a response and no error, `call` returns the status code of that
response together with the value and the error of `decodeResponseBody`. -/
theorem call_status_code {α : Type} (client : HttpClient) (marshaller : Marshaller α)
    (retrier : Retrier) (response : Option Response) (tries : Nat) (err : Option GoError)
    (htry : retrier client = some (response, tries, err)) :
    (∀ e, err = some e → call client marshaller retrier = some (.returned none 0 (some e))) ∧
    (err = none → ∀ resp, response = some resp →
      call client marshaller retrier =
        some (.returned (decodeResponseBody resp.Body resp.ContentType marshaller).1
          resp.StatusCode (decodeResponseBody resp.Body resp.ContentType marshaller).2)) := by
  constructor
  · intro e he
    subst he
    simp [call, htry]
  · intro he resp hr
    subst he hr
    simp [call, htry]

/-- C18 (amended) on a transport that answers 404 with the content type
`text/html`: the error is the incompatible-content-type error and the status
code is 404. -/
theorem call_status_code_witness :
    call (constClient ⟨some ⟨404, [ascii "text/html"], .data (ascii "<html>")⟩, none⟩)
        rawMarshaller (NewExponentialRetrier.toRetrier (fun _ => 0)) =
      some (.returned none 404 (some incompatibleContentType)) := by
  have h := (call_status_code
    (constClient ⟨some ⟨404, [ascii "text/html"], .data (ascii "<html>")⟩, none⟩)
    rawMarshaller (NewExponentialRetrier.toRetrier (fun _ => 0))
    (some ⟨404, [ascii "text/html"], .data (ascii "<html>")⟩) 1 none rfl).2 rfl
    ⟨404, [ascii "text/html"], .data (ascii "<html>")⟩ rfl
  rw [h]
  have hd : decodeResponseBody (.data (ascii "<html>")) [ascii "text/html"] rawMarshaller =
      (none, some incompatibleContentType) := by decide
  simp only [hd]

/-! ## Back-off delays -/

theorem lostBits_of_lt (p fuel x : Nat) (h : x < 2 ^ p) : lostBits p fuel x = 0 := by
  cases fuel with
  | zero => rfl
  | succ fuel => simp [lostBits, h]

theorem roundToSignificand_of_lt (p x : Nat) (h : x < 2 ^ p) : roundToSignificand p x = x := by
  simp [roundToSignificand, lostBits_of_lt p x x h, Nat.mod_one]

theorem roundToSignificand_of_dvd (p x : Nat) (h : 2 ^ lostBits p x x ∣ x) :
    roundToSignificand p x = x := by
  have hr : x % 2 ^ lostBits p x x = 0 := Nat.mod_eq_zero_of_dvd h
  have hpos : 0 < 2 ^ lostBits p x x := Nat.two_pow_pos _
  simp only [roundToSignificand, hr, Nat.mul_zero, hpos, if_true]
  exact Nat.div_mul_cancel h

theorem lostBits_pow_le (p : Nat) (hp : 0 < p) (fuel k : Nat) : lostBits p fuel (2 ^ k) ≤ k := by
  induction fuel generalizing k with
  | zero => exact Nat.zero_le _
  | succ fuel ih =>
    by_cases h : 2 ^ k < 2 ^ p
    · simp [lostBits, h]
    · have hk : p ≤ k := by
        by_contra hlt
        exact h (Nat.pow_lt_pow_right (by decide) (by omega))
      obtain ⟨k2, rfl⟩ : ∃ k2, k = k2 + 1 := ⟨k - 1, by omega⟩
      have hhalf : 2 ^ (k2 + 1) / 2 = 2 ^ k2 := by
        rw [Nat.pow_succ]; exact Nat.mul_div_cancel _ (by decide)
      simp only [lostBits, h, if_false, hhalf]
      have := ih k2
      omega

theorem roundToSignificand_pow (p k : Nat) (hp : 0 < p) :
    roundToSignificand p (2 ^ k) = 2 ^ k :=
  roundToSignificand_of_dvd p (2 ^ k) (Nat.pow_dvd_pow 2 (lostBits_pow_le p hp _ k))

theorem half_pred_pow (n : Nat) : (2 ^ (n + 1) - 1) / 2 = 2 ^ n - 1 := by
  have h : 2 ^ (n + 1) = 2 * 2 ^ n := by rw [Nat.pow_succ, Nat.mul_comm]
  have hpos : 0 < 2 ^ n := Nat.two_pow_pos _
  omega

theorem lostBits_pred_pow (p : Nat) (fuel n : Nat) (hn : p ≤ n) (hfuel : n - p < fuel) :
    lostBits p fuel (2 ^ n - 1) = n - p := by
  induction fuel generalizing n with
  | zero => omega
  | succ fuel ih =>
    by_cases h : n = p
    · subst h
      have hlt : 2 ^ n - 1 < 2 ^ n := Nat.sub_lt (Nat.two_pow_pos _) (by decide)
      simp [lostBits, hlt]
    · obtain ⟨m, rfl⟩ : ∃ m, n = m + 1 := ⟨n - 1, by omega⟩
      have hge : ¬ 2 ^ (m + 1) - 1 < 2 ^ p := by
        have h1 : 2 ^ p < 2 ^ (m + 1) := Nat.pow_lt_pow_right (by decide) (by omega)
        omega
      simp only [lostBits, hge, if_false, half_pred_pow]
      rw [ih m (by omega) (by omega)]
      omega

/-- From `2^(p+1) - 1` on, a number of the form `2^n - 1` rounds up to `2^n`. -/
theorem roundToSignificand_pred_pow (p n : Nat) (hp : 0 < p) (hn : p < n) :
    roundToSignificand p (2 ^ n - 1) = 2 ^ n := by
  have hfuel : n - p < 2 ^ n - 1 := by
    have h1 : n < 2 ^ n := Nat.lt_two_pow n
    have h2 : 2 ≤ n := by omega
    have h3 : 2 ^ 2 ≤ 2 ^ n := Nat.pow_le_pow_right (by decide) h2
    omega
  have he : lostBits p (2 ^ n - 1) (2 ^ n - 1) = n - p :=
    lostBits_pred_pow p _ n (by omega) hfuel
  obtain ⟨e, hne⟩ : ∃ e, n = p + (e + 1) := ⟨n - p - 1, by omega⟩
  subst hne
  have he2 : p + (e + 1) - p = e + 1 := by omega
  have hsplit : 2 ^ (p + (e + 1)) - 1 = (2 ^ p - 1) * 2 ^ (e + 1) + (2 ^ (e + 1) - 1) := by
    have h1 : 2 ^ (p + (e + 1)) = 2 ^ p * 2 ^ (e + 1) := Nat.pow_add 2 p (e + 1)
    have h2 : 0 < 2 ^ p := Nat.two_pow_pos _
    have h3 : 0 < 2 ^ (e + 1) := Nat.two_pow_pos _
    rw [h1, Nat.sub_mul, Nat.one_mul]
    have h4 : 2 ^ (e + 1) ≤ 2 ^ p * 2 ^ (e + 1) := Nat.le_mul_of_pos_left _ h2
    omega
  have hlt : 2 ^ (e + 1) - 1 < 2 ^ (e + 1) := Nat.sub_lt (Nat.two_pow_pos _) (by decide)
  have hq : (2 ^ (p + (e + 1)) - 1) / 2 ^ (e + 1) = 2 ^ p - 1 := by
    rw [hsplit, Nat.add_comm, Nat.add_mul_div_right _ _ (Nat.two_pow_pos _),
      Nat.div_eq_of_lt hlt, Nat.zero_add]
  have hr : (2 ^ (p + (e + 1)) - 1) % 2 ^ (e + 1) = 2 ^ (e + 1) - 1 := by
    rw [hsplit, Nat.add_comm, Nat.add_mul_mod_self_right, Nat.mod_eq_of_lt hlt]
  have hodd : (2 ^ p - 1) % 2 = 1 := by
    obtain ⟨p2, rfl⟩ : ∃ p2, p = p2 + 1 := ⟨p - 1, by omega⟩
    have h1 : 2 ^ (p2 + 1) = 2 * 2 ^ p2 := by rw [Nat.pow_succ, Nat.mul_comm]
    have h2 : 0 < 2 ^ p2 := Nat.two_pow_pos _
    omega
  have hup : (2 ^ p - 1 + 1) * 2 ^ (e + 1) = 2 ^ (p + (e + 1)) := by
    rw [Nat.sub_add_cancel (Nat.two_pow_pos _), ← Nat.pow_add]
  have hE : 2 ^ (e + 1) = 2 * 2 ^ e := by rw [Nat.pow_succ, Nat.mul_comm]
  have hEpos : 0 < 2 ^ e := Nat.two_pow_pos _
  simp only [roundToSignificand, he, he2, hq, hr]
  have hnot : ¬ 2 * (2 ^ (e + 1) - 1) < 2 ^ (e + 1) := by omega
  rw [if_neg hnot]
  by_cases hgt : 2 ^ (e + 1) < 2 * (2 ^ (e + 1) - 1)
  · rw [if_pos hgt, hup]
  · have hne0 : ¬ (2 ^ p - 1) % 2 = 0 := by omega
    rw [if_neg hgt, if_neg hne0, hup]

theorem backoffDelay_small (n : Nat) (h1 : 1 ≤ n) (h2 : n ≤ 53) :
    backoffDelay n = ((2 ^ (n - 1) - 1 : Nat) : Int) := by
  obtain ⟨m, rfl⟩ : ∃ m, n = m + 1 := ⟨n - 1, by omega⟩
  have hlt : 2 ^ (m + 1) - 1 < 2 ^ 53 := by
    have h3 : 2 ^ (m + 1) ≤ 2 ^ 53 := Nat.pow_le_pow_right (by decide) h2
    have h4 : 0 < 2 ^ (m + 1) := Nat.two_pow_pos _
    omega
  simp only [backoffDelay, roundToSignificand_of_lt 53 _ hlt, half_pred_pow, Nat.add_sub_cancel]

theorem backoffDelay_large (n : Nat) (h : 54 ≤ n) :
    backoffDelay n = ((2 ^ (n - 1) : Nat) : Int) := by
  obtain ⟨m, rfl⟩ : ∃ m, n = m + 1 := ⟨n - 1, by omega⟩
  have hhalf : 2 ^ (m + 1) / 2 = 2 ^ m := by
    rw [Nat.pow_succ]; exact Nat.mul_div_cancel _ (by decide)
  simp only [backoffDelay, roundToSignificand_pred_pow 53 (m + 1) (by decide) (by omega), hhalf,
    Nat.add_sub_cancel]

/-- C12 (counterexample): at attempt 54 the subtraction `math.Pow(2, 54) - 1`
rounds to `2^54` in `float64`, so the delay computed is `2^53`, one more than
`floor((2^54 - 1) / 2)`. -/
theorem backoffDelay_attempt_54 :
    backoffDelay 54 = 9007199254740992 ∧
    (((2 ^ 54 - 1) / 2 : Nat) : Int) = 9007199254740991 := by
  decide

/-- C12 (amended): for every attempt number `1 ≤ n ≤ 53` the base delay is
`floor((2^n - 1) / 2)` seconds, which equals `2^(n-1) - 1`; it is 0, 1, 3, 7, 15
for `n = 1..5`; and the delay is strictly increasing over the attempts 1 to 63,
for which the conversion to `int64` is defined. -/
theorem backoffDelay_formula (n : Nat) (h1 : 1 ≤ n) (h2 : n ≤ 53) :
    backoffDelay n = (((2 ^ n - 1) / 2 : Nat) : Int) ∧
    backoffDelay n = (2 : Int) ^ (n - 1) - 1 ∧
    (backoffDelay 1 = 0 ∧ backoffDelay 2 = 1 ∧ backoffDelay 3 = 3 ∧ backoffDelay 4 = 7 ∧
      backoffDelay 5 = 15) ∧
    ∀ a b : Nat, 1 ≤ a → a < b → b ≤ 63 → backoffDelay a < backoffDelay b := by
  refine ⟨?_, ?_, by decide, ?_⟩
  · obtain ⟨m, rfl⟩ : ∃ m, n = m + 1 := ⟨n - 1, by omega⟩
    rw [backoffDelay_small (m + 1) h1 h2, half_pred_pow, Nat.add_sub_cancel]
  · rw [backoffDelay_small n h1 h2]
    have hpos : 0 < 2 ^ (n - 1) := Nat.two_pow_pos _
    push_cast [Nat.cast_sub hpos]
    rfl
  · intro a b ha hab _
    have hpow : 2 ^ (a - 1) < 2 ^ (b - 1) := Nat.pow_lt_pow_right (by decide) (by omega)
    have hposa : 0 < 2 ^ (a - 1) := Nat.two_pow_pos _
    have hda : backoffDelay a ≤ ((2 ^ (a - 1) : Nat) : Int) := by
      by_cases hs : a ≤ 53
      · rw [backoffDelay_small a ha hs]; omega
      · rw [backoffDelay_large a (by omega)]
    have hdb : ((2 ^ (b - 1) - 1 : Nat) : Int) ≤ backoffDelay b := by
      by_cases hs : b ≤ 53
      · rw [backoffDelay_small b (by omega) hs]
      · rw [backoffDelay_large b (by omega)]; omega
    by_cases hs : a ≤ 53
    · rw [backoffDelay_small a ha hs] at hda ⊢
      omega
    · have hb : 54 ≤ b := by omega
      rw [backoffDelay_large a (by omega), backoffDelay_large b hb]
      omega

/-- C12 (amended) at the fifth attempt: the delay is 15 seconds. -/
theorem backoffDelay_formula_witness : backoffDelay 5 = 15 ∧ backoffDelay 5 < backoffDelay 6 := by
  obtain ⟨_, h2, _, h4⟩ := backoffDelay_formula 5 (by decide) (by decide)
  exact ⟨by rw [h2]; decide, h4 5 6 (by decide) (by decide) (by decide)⟩

/-- C13 (evaluation at the failing input): jitter is switched off, the transport
answers 503 on each of the four attempts and the random draw is 0; after the
fourth attempt `Try` sleeps 6 seconds, one less than the base delay of 7. -/
theorem Try_applies_jitter_when_disabled :
    ((NewExponentialRetrier.WithJitter false).WithMaxTries 4).jitter = false ∧
    backoffDelay 4 = 7 ∧
    ∃ res, ((NewExponentialRetrier.WithJitter false).WithMaxTries 4).Try
        (constClient ⟨some (statusResponse 503), none⟩) (fun _ => 0) = some res ∧
      res.sleeps = [0, 1, 3, 6] := by
  exact ⟨rfl, by decide, _, rfl, by decide⟩

/-! ## The waits of `Try` -/

theorem toFloat32_pow (k : Nat) : toFloat32 ((2 ^ k : Nat) : Int) = ((2 ^ k : Nat) : Int) := by
  have h0 : (0 : Int) ≤ ((2 ^ k : Nat) : Int) := Int.ofNat_nonneg _
  simp only [toFloat32, h0, if_true, Int.toNat_ofNat, roundToSignificand_pow 24 k (by decide)]

/-- Along the attempts of `Try` the bound computed through `float32` is the
whole part of a quarter of the step between two delays. -/
theorem maxJitterOf_eq (n : Nat) (h1 : 1 ≤ n) :
    maxJitterOf (backoffDelay n) (previousDelayAt n) =
      (backoffDelay n - previousDelayAt n) / 4 := by
  by_cases hn1 : n = 1
  · subst hn1; decide
  by_cases hn54 : n = 54
  · subst hn54; decide
  obtain ⟨k, rfl⟩ : ∃ k, n = k + 2 := ⟨n - 2, by omega⟩
  have hprev : previousDelayAt (k + 2) = backoffDelay (k + 1) := by
    simp [previousDelayAt]
  have hdiff : backoffDelay (k + 2) - backoffDelay (k + 1) = ((2 ^ k : Nat) : Int) := by
    have hpow : 2 ^ (k + 1) = 2 * 2 ^ k := by rw [Nat.pow_succ, Nat.mul_comm]
    have hpos : 0 < 2 ^ k := Nat.two_pow_pos _
    by_cases hs : k + 2 ≤ 53
    · rw [backoffDelay_small (k + 2) (by omega) hs, backoffDelay_small (k + 1) (by omega) (by omega)]
      simp only [Nat.add_sub_cancel, show k + 2 - 1 = k + 1 by omega]
      omega
    · rw [backoffDelay_large (k + 2) (by omega), backoffDelay_large (k + 1) (by omega)]
      simp only [Nat.add_sub_cancel, show k + 2 - 1 = k + 1 by omega]
      omega
  simp only [maxJitterOf, hprev, hdiff, toFloat32_pow]
  exact Int.tdiv_eq_ediv (Int.ofNat_nonneg _) (show (0 : Int) ≤ 4 by decide)

theorem previousDelayAt_le (n : Nat) (h1 : 1 ≤ n) :
    0 ≤ previousDelayAt n ∧ previousDelayAt n ≤ backoffDelay n := by
  have hnonneg : ∀ m, 0 ≤ backoffDelay m := fun m => Int.ofNat_nonneg _
  by_cases hn1 : n ≤ 1
  · simp only [previousDelayAt, hn1, if_true]
    exact ⟨le_refl _, hnonneg n⟩
  · simp only [previousDelayAt, hn1, if_false]
    refine ⟨hnonneg _, ?_⟩
    obtain ⟨k, rfl⟩ : ∃ k, n = k + 2 := ⟨n - 2, by omega⟩
    have hpow : 2 ^ (k + 1) = 2 * 2 ^ k := by rw [Nat.pow_succ, Nat.mul_comm]
    have hpos : 0 < 2 ^ k := Nat.two_pow_pos _
    simp only [show k + 2 - 1 = k + 1 by omega]
    by_cases hs : k + 2 ≤ 53
    · rw [backoffDelay_small (k + 2) (by omega) hs, backoffDelay_small (k + 1) (by omega) (by omega)]
      simp only [Nat.add_sub_cancel, show k + 2 - 1 = k + 1 by omega]
      omega
    · by_cases hs2 : k + 1 ≤ 53
      · rw [backoffDelay_large (k + 2) (by omega), backoffDelay_small (k + 1) (by omega) hs2]
        simp only [Nat.add_sub_cancel, show k + 2 - 1 = k + 1 by omega]
        omega
      · rw [backoffDelay_large (k + 2) (by omega), backoffDelay_large (k + 1) (by omega)]
        simp only [Nat.add_sub_cancel, show k + 2 - 1 = k + 1 by omega]
        omega

theorem jitterOf_bounds (maxJitter : Int) (draw : Nat) :
    (0 < maxJitter → -maxJitter ≤ jitterOf maxJitter draw ∧ jitterOf maxJitter draw < maxJitter) ∧
    (maxJitter ≤ 0 → jitterOf maxJitter draw = 0) := by
  constructor
  · intro h
    have h2 : (0 : Int) < 2 * maxJitter := by omega
    have ha := Int.emod_nonneg (draw : Int) (ne_of_gt h2)
    have hb := Int.emod_lt_of_pos (draw : Int) h2
    simp only [jitterOf, gt_iff_lt, h, if_true]
    constructor <;> omega
  · intro h
    have h2 : ¬ maxJitter > 0 := by omega
    simp [jitterOf, h2]

/-- The wait after a retryable attempt `n` stays within the jitter bound around
the base delay. -/
theorem waitAt_bounds (rnd : Nat → Nat) (n : Nat) (h1 : 1 ≤ n) :
    (0 < (backoffDelay n - previousDelayAt n) / 4 →
      backoffDelay n - (backoffDelay n - previousDelayAt n) / 4 ≤ waitAt rnd n ∧
      waitAt rnd n < backoffDelay n + (backoffDelay n - previousDelayAt n) / 4) ∧
    ((backoffDelay n - previousDelayAt n) / 4 = 0 → waitAt rnd n = backoffDelay n) ∧
    0 ≤ waitAt rnd n ∧
    4 * |waitAt rnd n - backoffDelay n| ≤ backoffDelay n := by
  obtain ⟨hp0, hp1⟩ := previousDelayAt_le n h1
  obtain ⟨hj1, hj2⟩ := jitterOf_bounds ((backoffDelay n - previousDelayAt n) / 4) (rnd n)
  simp only [waitAt, maxJitterOf_eq n h1]
  generalize backoffDelay n = d at *
  generalize previousDelayAt n = p at *
  generalize jitterOf ((d - p) / 4) (rnd n) = j at *
  have hJ0 : 0 ≤ (d - p) / 4 := Int.ediv_nonneg (by omega) (by decide)
  have hJ1 : 4 * ((d - p) / 4) ≤ d - p := Int.mul_ediv_self_le (by decide)
  refine ⟨?_, ?_, ?_, ?_⟩
  · intro h
    have := hj1 h
    constructor <;> omega
  · intro h
    have := hj2 (by omega)
    omega
  · rcases lt_or_ge 0 ((d - p) / 4) with h | h
    · have := hj1 h
      omega
    · have := hj2 h
      omega
  · rw [add_sub_cancel_left]
    rcases lt_or_ge 0 ((d - p) / 4) with h | h
    · have := hj1 h
      have habs : |j| ≤ (d - p) / 4 := abs_le.2 ⟨by omega, by omega⟩
      omega
    · have := hj2 h
      subst this
      simp
      omega

/-- The sleeps the loop of `Try` records are the waits of the attempts made so
far, one per retryable attempt. -/
theorem tryLoop_sleeps (retrier : exponentialRetrier) (client : HttpClient) (rnd : Nat → Nat) :
    ∀ (fuel : Nat) (st res : TryState),
      tryLoop retrier client rnd fuel st = some res →
      1 ≤ st.tries →
      st.previousDelay = previousDelayAt st.tries →
      st.sleeps = (List.range (st.tries - 1)).map (fun i => waitAt rnd (i + 1)) →
      1 ≤ res.tries ∧
        res.sleeps = (List.range (res.tries - 1)).map (fun i => waitAt rnd (i + 1)) := by
  intro fuel
  induction fuel with
  | zero =>
    intro st res h
    simp [tryLoop] at h
  | succ fuel ih =>
    intro st res h h1 hprev hsleeps
    by_cases hle : st.tries ≤ retrier.maxTries
    · by_cases hc : canRetry retrier (client st.invocations) = true
      · simp only [tryLoop, hle, hc, if_true] at h
        refine ih _ res h (by simp) ?_ ?_
        · have hgt : ¬ st.tries + 1 ≤ 1 := by omega
          simp [previousDelayAt, hgt]
        · obtain ⟨t, ht⟩ : ∃ t, st.tries = t + 1 := ⟨st.tries - 1, by omega⟩
          simp only [ht, Nat.add_sub_cancel] at hsleeps ⊢
          rw [List.range_succ, List.map_append, hsleeps, hprev, ht]
          simp [waitAt]
      · have hc2 : canRetry retrier (client st.invocations) = false := by simpa using hc
        simp only [tryLoop, hle, hc2, if_true, Bool.false_eq_true, if_false,
          Option.some.injEq] at h
        subst h
        exact ⟨h1, hsleeps⟩
    · simp only [tryLoop, hle, if_false, Option.some.injEq] at h
      subst h
      exact ⟨h1, hsleeps⟩

theorem Try_sleeps (retrier : exponentialRetrier) (client : HttpClient) (rnd : Nat → Nat)
    (res : TryState) (h : retrier.Try client rnd = some res) :
    1 ≤ res.tries ∧
      res.sleeps = (List.range (res.tries - 1)).map (fun i => waitAt rnd (i + 1)) :=
  tryLoop_sleeps retrier client rnd _ TryState.init res h (by decide) (by decide) rfl

theorem wrapInt64_of_fits (x : Int) (h1 : -(2 ^ 63) ≤ x) (h2 : x < 2 ^ 63) :
    wrapInt64 x = x := by
  unfold wrapInt64
  rw [Int.emod_eq_of_lt (by omega) (by omega)]
  omega

/-- Up to 9223372036 seconds the product with `time.Second` stays within `int64`. -/
theorem sleepDuration_of_fits (seconds : Int) (h1 : 0 ≤ seconds)
    (h2 : seconds ≤ 9223372036) : sleepDuration seconds = seconds * Second := by
  unfold sleepDuration Second
  exact wrapInt64_of_fits _ (by omega) (by omega)

theorem backoffDelay_le_of_le_33 (n : Nat) (h : n ≤ 33) : backoffDelay n ≤ 4294967295 := by
  rcases Nat.eq_zero_or_pos n with h0 | hpos
  · subst h0; decide
  · rw [backoffDelay_small n hpos (by omega)]
    have hle : 2 ^ (n - 1) ≤ 2 ^ 32 := Nat.pow_le_pow_right (by decide) (by omega)
    have hp : 0 < 2 ^ (n - 1) := Nat.two_pow_pos _
    omega

theorem backoffDelay_le_of_le_63 (n : Nat) (h : n ≤ 63) : backoffDelay n ≤ 2 ^ 62 := by
  rcases Nat.eq_zero_or_pos n with h0 | hpos
  · subst h0; decide
  · have hle : 2 ^ (n - 1) ≤ 2 ^ 62 := Nat.pow_le_pow_right (by decide) (by omega)
    have hp : 0 < 2 ^ (n - 1) := Nat.two_pow_pos _
    by_cases hs : n ≤ 53
    · rw [backoffDelay_small n hpos hs]
      omega
    · rw [backoffDelay_large n (by omega)]
      omega

/-- The wait is at most five quarters of the base delay. -/
theorem waitAt_le (rnd : Nat → Nat) (n : Nat) (h1 : 1 ≤ n) :
    0 ≤ waitAt rnd n ∧ 4 * waitAt rnd n ≤ 5 * backoffDelay n := by
  obtain ⟨_, _, h0, habs⟩ := waitAt_bounds rnd n h1
  have := le_abs_self (waitAt rnd n - backoffDelay n)
  exact ⟨h0, by omega⟩

/-- From attempt 35 on the product of the wait with `time.Second` is beyond
`int64`, whatever the draw: the duration handed to `time.Sleep` is not the wait. -/
theorem sleepDuration_overflows_from_35 (rnd : Nat → Nat) (n : Nat) (h : 35 ≤ n) :
    sleepDuration (waitAt rnd n) ≠ waitAt rnd n * Second := by
  obtain ⟨_, _, h0, habs⟩ := waitAt_bounds rnd n (by omega)
  have hneg := neg_abs_le (waitAt rnd n - backoffDelay n)
  have hd : 17179869183 ≤ backoffDelay n := by
    have hle : 2 ^ 34 ≤ 2 ^ (n - 1) := Nat.pow_le_pow_right (by decide) (by omega)
    by_cases hs : n ≤ 53
    · rw [backoffDelay_small n (by omega) hs]
      omega
    · rw [backoffDelay_large n (by omega)]
      omega
  have hlt : sleepDuration (waitAt rnd n) < 2 ^ 63 := by
    unfold sleepDuration wrapInt64
    have := Int.emod_lt_of_pos (waitAt rnd n * Second + 2 ^ 63) (show (0 : Int) < 2 ^ 64 by decide)
    omega
  intro heq
  rw [heq] at hlt
  unfold Second at hlt
  omega

/-- At attempt 34 it depends on the draw whether the product with `time.Second`
overflows: not with the lowest jitter, but with the highest. -/
theorem sleepDuration_at_attempt_34 :
    sleepDuration (waitAt (fun _ => 0) 34) = waitAt (fun _ => 0) 34 * Second ∧
    sleepDuration (waitAt (fun _ => 2147483647) 34) < 0 := by
  decide

/-- C14 (counterexample): with 35 tries, a transport that always answers 503 and
draws of 0, the wait computed at attempt 35 is `17179869183 - 2147483648 =
15032385535` seconds, and the product with `time.Second` overflows `int64`: the
duration handed to `time.Sleep` is negative. -/
theorem Try_sleep_duration_negative_at_attempt_35 :
    ∃ res, (NewExponentialRetrier.WithMaxTries 35).Try
        (constClient ⟨some (statusResponse 503), none⟩) (fun _ => 0) = some res ∧
      res.sleeps[34]? = some 15032385535 ∧
      backoffDelay 35 = 17179869183 ∧
      (backoffDelay 35 - previousDelayAt 35) / 4 = 2147483648 ∧
      (15032385535 : Int) * Second = 15032385535000000000 ∧
      sleepDuration 15032385535 = -3414358538709551616 ∧
      sleepDuration 15032385535 < 0 := by
  obtain ⟨res, hres, _, htries⟩ := Try_exhausted (NewExponentialRetrier.WithMaxTries 35)
    (constClient ⟨some (statusResponse 503), none⟩) (fun _ => 0)
    (fun i _ => Or.inr ⟨statusResponse 503, rfl, by decide⟩)
  obtain ⟨_, hs⟩ := Try_sleeps _ _ _ res hres
  have ht : res.tries - 1 = 35 := by rw [htries]; rfl
  have hw : waitAt (fun _ => 0) (34 + 1) = 15032385535 := by decide
  refine ⟨res, hres, ?_, by decide, by decide, by decide, by decide, by decide⟩
  rw [hs, ht]
  simp only [List.getElem?_map, List.getElem?_range (show 34 < 35 by decide), Option.map_some',
    hw]

/-- C14 (amended): `Try` returns, and for every attempt `n` with `1 ≤ n ≤ 63`
after which it slept, the value `delay(n) + jitter` it computed (the entry
`n - 1` of its sleeps), with `J = floor(0.25 * (delay(n) - previous delay))`,
satisfies `delay(n) - J ≤ wait < delay(n) + J` when `J > 0` and
`wait = delay(n)` when `J = 0`; it is never negative, is within 25% of
`delay(n)` and fits `int64`. For `n ≤ 33` the duration handed to `time.Sleep` is
exactly that number of seconds. -/
theorem Try_waits_within_jitter (retrier : exponentialRetrier) (client : HttpClient)
    (rnd : Nat → Nat) :
    ∃ res, retrier.Try client rnd = some res ∧
      ∀ n, 1 ≤ n → n ≤ res.sleeps.length → n ≤ 63 →
        ∃ wait, res.sleeps[n - 1]? = some wait ∧
          (0 < (backoffDelay n - previousDelayAt n) / 4 →
            backoffDelay n - (backoffDelay n - previousDelayAt n) / 4 ≤ wait ∧
            wait < backoffDelay n + (backoffDelay n - previousDelayAt n) / 4) ∧
          ((backoffDelay n - previousDelayAt n) / 4 = 0 → wait = backoffDelay n) ∧
          0 ≤ wait ∧
          4 * |wait - backoffDelay n| ≤ backoffDelay n ∧
          wait < 2 ^ 63 ∧
          (n ≤ 33 → sleepDuration wait = wait * Second ∧ 0 ≤ sleepDuration wait) := by
  obtain ⟨res, hres, _⟩ := Try_spec retrier client rnd
  refine ⟨res, hres, ?_⟩
  obtain ⟨_, hs⟩ := Try_sleeps retrier client rnd res hres
  intro n h1 h2 h63
  have hlen : res.sleeps.length = res.tries - 1 := by
    rw [hs]; simp
  obtain ⟨b1, b2, b3, b4⟩ := waitAt_bounds rnd n h1
  obtain ⟨w0, w1⟩ := waitAt_le rnd n h1
  refine ⟨waitAt rnd n, ?_, b1, b2, b3, b4, ?_, ?_⟩
  · rw [hs]
    have hidx : n - 1 < res.tries - 1 := by omega
    simp only [List.getElem?_map, List.getElem?_range hidx, Option.map_some']
    congr 2
    omega
  · have hd := backoffDelay_le_of_le_63 n h63
    omega
  · intro h33
    have hd := backoffDelay_le_of_le_33 n h33
    have hfit := sleepDuration_of_fits (waitAt rnd n) w0 (by omega)
    refine ⟨hfit, ?_⟩
    rw [hfit]
    unfold Second
    omega

/-- C14 (amended) on the default retrier with six tries, a transport that always
times out and a draw of 5: the fifth wait is 14 seconds, between `15 - 2` and
`15 + 2`, and it is handed to `time.Sleep` as 14000000000 nanoseconds. -/
theorem Try_waits_within_jitter_witness :
    ∃ res wait, (NewExponentialRetrier.WithMaxTries 6).Try
        (constClient ⟨none, some DeadlineExceeded⟩) (fun _ => 5) = some res ∧
      res.sleeps = [0, 1, 3, 7, 14, 32] ∧
      res.sleeps[4]? = some wait ∧ 15 - 2 ≤ wait ∧ wait < 15 + 2 ∧
      sleepDuration wait = wait * Second ∧ sleepDuration 14 = 14000000000 := by
  obtain ⟨res, hres, h⟩ := Try_waits_within_jitter (NewExponentialRetrier.WithMaxTries 6)
    (constClient ⟨none, some DeadlineExceeded⟩) (fun _ => 5)
  have hval : (NewExponentialRetrier.WithMaxTries 6).Try
      (constClient ⟨none, some DeadlineExceeded⟩) (fun _ => 5) =
      some { response := none, err := some DeadlineExceeded, previousDelay := 31, tries := 7,
             invocations := 6, sleeps := [0, 1, 3, 7, 14, 32] } := by
    decide
  rw [hval] at hres
  have hr := Option.some.inj hres
  subst hr
  obtain ⟨wait, hw, hb, _, _, _, _, hdur⟩ := h 5 (by decide) (by decide) (by decide)
  have hJ : (backoffDelay 5 - previousDelayAt 5) / 4 = 2 := by decide
  have hd : backoffDelay 5 = 15 := by decide
  rw [hJ, hd] at hb
  obtain ⟨hb1, hb2⟩ := hb (by decide)
  exact ⟨_, wait, hval, rfl, hw, hb1, hb2, (hdur (by decide)).1, by decide⟩

/-! ## `ReplaceAll` for two different tags -/

theorem ReplaceAll_of_not_infix (k v : GoString) :
    ∀ s : GoString, ¬ tagOf k <:+: s → ReplaceAll s (tagOf k) v = s := by
  intro s
  induction s with
  | nil => intro _; exact ReplaceAll_nil k v
  | cons c s ih =>
    intro h
    have h1 : ¬ tagOf k <+: c :: s := fun e => h e.isInfix
    have h2 : ¬ tagOf k <:+: s := fun e => h (List.infix_cons e)
    rw [ReplaceAll_cons_of_not_starts k v c s h1, ih h2]

theorem ReplaceAll_append_of_no_lbrace (k v x s : GoString) (hx : lbrace ∉ x) :
    ReplaceAll (x ++ s) (tagOf k) v = x ++ ReplaceAll s (tagOf k) v := by
  induction x with
  | nil => rfl
  | cons c x ih =>
    have hc : c ≠ lbrace := fun e => hx (by simp [e])
    have hx2 : lbrace ∉ x := fun e => hx (List.mem_cons_of_mem _ e)
    have h1 : ¬ tagOf k <+: c :: (x ++ s) := fun e => hc ((tag_starts_iff _ _ _).1 e).1
    rw [List.cons_append, ReplaceAll_cons_of_not_starts k v c _ h1, ih hx2, List.cons_append]

theorem braceFree_no_rbrace (v : GoString) (hv : braceFree v = true) : rbrace ∉ v := by
  intro h
  have := List.all_eq_true.1 hv rbrace h
  simp at this

theorem closing_unique (a b s : GoString) (ha : rbrace ∉ a) (hb : rbrace ∉ b)
    (h1 : (a ++ [rbrace]) <+: s) (h2 : (b ++ [rbrace]) <+: s) : a = b := by
  induction a generalizing b s with
  | nil =>
    cases b with
    | nil => rfl
    | cons d b =>
      exfalso
      cases s with
      | nil => simp at h1
      | cons c s =>
        simp only [List.nil_append, List.cons_append, List.cons_prefix_cons] at h1 h2
        exact hb (by rw [h2.1, ← h1.1]; exact List.mem_cons_self _ _)
  | cons c a ih =>
    cases b with
    | nil =>
      exfalso
      cases s with
      | nil => simp at h1
      | cons e s =>
        simp only [List.nil_append, List.cons_append, List.cons_prefix_cons] at h1 h2
        exact ha (by rw [h1.1, ← h2.1]; exact List.mem_cons_self _ _)
    | cons d b =>
      cases s with
      | nil => simp at h1
      | cons e s =>
        simp only [List.cons_append, List.cons_prefix_cons] at h1 h2
        have hcd : c = d := by rw [h1.1, h2.1]
        rw [hcd, ih b s (fun e => ha (List.mem_cons_of_mem _ e))
          (fun e => hb (List.mem_cons_of_mem _ e)) h1.2 h2.2]

theorem tag_starts_unique (a b : GoString) (c : Byte) (s : GoString)
    (ha : braceFree a = true) (hb : braceFree b = true)
    (h1 : tagOf a <+: c :: s) (h2 : tagOf b <+: c :: s) : a = b :=
  closing_unique a b s (braceFree_no_rbrace a ha) (braceFree_no_rbrace b hb)
    ((tag_starts_iff _ _ _).1 h1).2 ((tag_starts_iff _ _ _).1 h2).2

theorem no_lbrace_closing (a : GoString) (ha : braceFree a = true) : lbrace ∉ a ++ [rbrace] := by
  intro h
  rcases List.mem_append.1 h with h | h
  · exact braceFree_no_lbrace a ha h
  · simp only [List.mem_singleton] at h
    exact absurd h (by decide)

/-- The scan for the tag of `b` copies an occurrence of the tag of another name. -/
theorem ReplaceAll_other_tag (a b v rest : GoString) (ha : braceFree a = true)
    (hb : braceFree b = true) (hab : a ≠ b) :
    ReplaceAll (tagOf a ++ rest) (tagOf b) v = tagOf a ++ ReplaceAll rest (tagOf b) v := by
  have hs : tagOf a ++ rest = lbrace :: ((a ++ [rbrace]) ++ rest) := by simp [tagOf]
  have hnot : ¬ tagOf b <+: lbrace :: ((a ++ [rbrace]) ++ rest) := by
    intro h
    have h1 : tagOf a <+: lbrace :: ((a ++ [rbrace]) ++ rest) := by
      rw [← hs]; exact List.prefix_append _ _
    exact hab (tag_starts_unique a b _ _ ha hb h1 h)
  rw [hs, ReplaceAll_cons_of_not_starts b v _ _ hnot,
    ReplaceAll_append_of_no_lbrace b v _ rest (no_lbrace_closing a ha)]
  simp [tagOf]

/-- Replacing the tag of `b` destroys no occurrence of the tag of another name. -/
theorem tag_infix_ReplaceAll_of_infix (a b v : GoString) (ha : braceFree a = true)
    (hb : braceFree b = true) (hab : a ≠ b) :
    ∀ (n : Nat) (s : GoString), s.length ≤ n → tagOf a <:+: s →
      tagOf a <:+: ReplaceAll s (tagOf b) v := by
  intro n
  induction n with
  | zero =>
    intro s hlen h
    have hs : s = [] := List.length_eq_zero.1 (Nat.le_zero.1 hlen)
    subst hs
    simp [tagOf] at h
  | succ n ih =>
    intro s hlen h
    cases s with
    | nil => simp [tagOf] at h
    | cons c s =>
      by_cases hst : tagOf b <+: c :: s
      · obtain ⟨rest, hrest⟩ := hst
        rw [← hrest] at h hlen ⊢
        rw [ReplaceAll_tag_append]
        have hlen2 : rest.length ≤ n := by
          simp only [List.length_append, tagOf, List.length_cons] at hlen
          omega
        have hin : tagOf a <:+: rest := by
          have hs : tagOf b ++ rest = lbrace :: ((b ++ [rbrace]) ++ rest) := by simp [tagOf]
          rw [hs, List.infix_cons_iff] at h
          rcases h with h | h
          · exfalso
            have h1 : tagOf b <+: lbrace :: ((b ++ [rbrace]) ++ rest) := by
              rw [← hs]; exact List.prefix_append _ _
            exact hab (tag_starts_unique a b _ _ ha hb h h1)
          · exact infix_of_infix_append_braceFree _ _ _ a rfl (no_lbrace_closing b hb) h
        exact List.IsInfix.trans (ih rest hlen2 hin) (List.suffix_append _ _).isInfix
      · rw [ReplaceAll_cons_of_not_starts _ _ _ _ hst]
        have hlen2 : s.length ≤ n := by
          simp only [List.length_cons] at hlen
          omega
        rw [List.infix_cons_iff] at h
        rcases h with h | h
        · obtain ⟨hc, hclose⟩ := (tag_starts_iff _ _ _).1 h
          obtain ⟨rest, hrest⟩ := hclose
          rw [← hrest, ReplaceAll_append_of_no_lbrace b v _ rest (no_lbrace_closing a ha)]
          exact ((tag_starts_iff _ _ _).2 ⟨hc, List.prefix_append _ _⟩).isInfix
        · exact List.infix_cons (ih s hlen2 h)

theorem not_starts_ReplaceAll (k k2 v : GoString) (hk : braceFree k = true) (c : Byte)
    (s : GoString) (b2 : Bool) (hflat : flatFrom b2 s = true) (hb2 : c = lbrace → b2 = true)
    (h : ¬ tagOf k <+: c :: s) : ¬ tagOf k <+: c :: ReplaceAll s (tagOf k2) v := by
  intro hst
  obtain ⟨hc, hclose⟩ := (tag_starts_iff _ _ _).1 hst
  have hb := hb2 hc
  subst hb
  exact h ((tag_starts_iff _ _ _).2 ⟨hc, closing_starts_ReplaceAll k2 v s k hflat hk hclose⟩)

/-- On a string with flat braces the replacements of two different brace-free
tags by brace-free values commute. -/
theorem ReplaceAll_comm (a b va vb : GoString) (ha : braceFree a = true)
    (hb : braceFree b = true) (hva : braceFree va = true) (hvb : braceFree vb = true)
    (hab : a ≠ b) :
    ∀ (n : Nat) (s : GoString) (bb : Bool), s.length ≤ n → flatFrom bb s = true →
      ReplaceAll (ReplaceAll s (tagOf a) va) (tagOf b) vb =
        ReplaceAll (ReplaceAll s (tagOf b) vb) (tagOf a) va := by
  intro n
  induction n with
  | zero =>
    intro s bb hlen _
    have hs : s = [] := List.length_eq_zero.1 (Nat.le_zero.1 hlen)
    subst hs
    simp [ReplaceAll_nil]
  | succ n ih =>
    intro s bb hlen hflat
    cases s with
    | nil => simp [ReplaceAll_nil]
    | cons c s =>
      by_cases hsta : tagOf a <+: c :: s
      · obtain ⟨rest, hrest⟩ := hsta
        rw [← hrest] at hflat hlen ⊢
        rw [flatFrom_tag_append _ _ _ ha, Bool.and_eq_true] at hflat
        have hlen2 : rest.length ≤ n := by
          simp only [List.length_append, tagOf, List.length_cons] at hlen
          omega
        rw [ReplaceAll_tag_append, ReplaceAll_append_of_no_lbrace b vb va _
          (braceFree_no_lbrace va hva), ReplaceAll_other_tag a b vb rest ha hb hab,
          ReplaceAll_tag_append, ih rest false hlen2 hflat.2]
      · by_cases hstb : tagOf b <+: c :: s
        · obtain ⟨rest, hrest⟩ := hstb
          rw [← hrest] at hflat hlen ⊢
          rw [flatFrom_tag_append _ _ _ hb, Bool.and_eq_true] at hflat
          have hlen2 : rest.length ≤ n := by
            simp only [List.length_append, tagOf, List.length_cons] at hlen
            omega
          rw [ReplaceAll_tag_append, ReplaceAll_append_of_no_lbrace a va vb _
            (braceFree_no_lbrace vb hvb), ReplaceAll_other_tag b a va rest hb ha (Ne.symm hab),
            ReplaceAll_tag_append, ih rest false hlen2 hflat.2]
        · obtain ⟨b2, hb2, hb2l⟩ := flatFrom_tail bb c s hflat
          have hlen2 : s.length ≤ n := by
            simp only [List.length_cons] at hlen
            omega
          rw [ReplaceAll_cons_of_not_starts a va c s hsta,
            ReplaceAll_cons_of_not_starts b vb c s hstb,
            ReplaceAll_cons_of_not_starts b vb c _
              (not_starts_ReplaceAll b a va hb c s b2 hb2 hb2l hstb),
            ReplaceAll_cons_of_not_starts a va c _
              (not_starts_ReplaceAll a b vb ha c s b2 hb2 hb2l hsta),
            ih s b2 hlen2 hb2]

/-! ## One entry of the mapping, field by field -/

theorem ReplaceAll_of_not_Contains (s k v : GoString) (h : Contains s (tagOf k) = false) :
    ReplaceAll s (tagOf k) v = s :=
  ReplaceAll_of_not_infix k v s ((Contains_eq_false_iff _ _).1 h)

theorem resolveEntry_eq (u : URL) (k v : GoString) :
    resolveEntry u k v =
      { u with
        Path := ReplaceAll u.Path (tagOf k) v
        Fragment := ReplaceAll u.Fragment (tagOf k) v
        RawQuery := if tagMatched u k then ReplaceAll u.RawQuery (tagOf k) v
          else (u.Query.Add k v).Encode } := by
  unfold resolveEntry replaceField tagMatched
  by_cases h1 : Contains u.Path (tagOf k) = true <;>
  by_cases h2 : Contains u.Fragment (tagOf k) = true <;>
  by_cases h3 : Contains u.RawQuery (tagOf k) = true <;>
  simp [h1, h2, h3, URL.Query, ReplaceAll_of_not_Contains]

/-! ## `Values.Encode` depends on the map only -/

theorem strLe_total (a b : GoString) : strLe a b = true ∨ strLe b a = true := by
  induction a generalizing b with
  | nil => left; simp [strLe]
  | cons x a ih =>
    cases b with
    | nil => right; simp [strLe]
    | cons y b =>
      rcases lt_trichotomy x y with h | h | h
      · left; simp [strLe, h]
      · subst h
        simpa [strLe] using ih b
      · right; simp [strLe, h]

theorem strLe_trans (a b c : GoString) (h1 : strLe a b = true) (h2 : strLe b c = true) :
    strLe a c = true := by
  induction a generalizing b c with
  | nil => simp [strLe]
  | cons x a ih =>
    cases b with
    | nil => simp [strLe] at h1
    | cons y b =>
      cases c with
      | nil => simp [strLe] at h2
      | cons z c =>
        have hxy : x ≤ y := by
          by_contra hn
          have hlt : y < x := lt_of_not_ge hn
          have hnlt : ¬ x < y := not_lt_of_gt hlt
          simp [strLe, hlt, hnlt] at h1
        have hyz : y ≤ z := by
          by_contra hn
          have hlt : z < y := lt_of_not_ge hn
          have hnlt : ¬ y < z := not_lt_of_gt hlt
          simp [strLe, hlt, hnlt] at h2
        rcases lt_or_eq_of_le hxy with hlt | heq
        · have : x < z := lt_of_lt_of_le hlt hyz
          simp [strLe, this]
        · subst heq
          rcases lt_or_eq_of_le hyz with hlt | heq
          · simp [strLe, hlt]
          · subst heq
            simp only [strLe, lt_irrefl, if_false] at h1 h2 ⊢
            exact ih b c h1 h2

theorem strLe_antisymm (a b : GoString) (h1 : strLe a b = true) (h2 : strLe b a = true) :
    a = b := by
  induction a generalizing b with
  | nil =>
    cases b with
    | nil => rfl
    | cons y b => simp [strLe] at h2
  | cons x a ih =>
    cases b with
    | nil => simp [strLe] at h1
    | cons y b =>
      rcases lt_trichotomy x y with h | h | h
      · have hn : ¬ y < x := not_lt_of_gt h
        simp [strLe, h, hn] at h2
      · subst h
        simp only [strLe, lt_irrefl, if_false] at h1 h2
        rw [ih b h1 h2]
      · have hn : ¬ x < y := not_lt_of_gt h
        simp [strLe, h, hn] at h1

theorem sortStrings_sorted (keys : List GoString) :
    List.Sorted (fun a b => strLe a b = true) (sortStrings keys) := by
  haveI : IsTotal GoString (fun a b => strLe a b = true) := ⟨strLe_total⟩
  haveI : IsTrans GoString (fun a b => strLe a b = true) := ⟨strLe_trans⟩
  exact List.sorted_insertionSort _ keys

theorem eq_of_sorted_of_same_members (l1 l2 : List GoString)
    (hs1 : List.Sorted (fun a b => strLe a b = true) l1)
    (hs2 : List.Sorted (fun a b => strLe a b = true) l2)
    (hn1 : l1.Nodup) (hn2 : l2.Nodup) (hmem : ∀ k, k ∈ l1 ↔ k ∈ l2) : l1 = l2 := by
  haveI : IsAntisymm GoString (fun a b => strLe a b = true) := ⟨strLe_antisymm⟩
  exact List.eq_of_perm_of_sorted ((List.perm_ext_iff_of_nodup hn1 hn2).2 hmem) hs1 hs2

theorem flatMap_filter_nonempty {β : Type} (f : GoString → List β) (l : List GoString) :
    (l.filter (fun k => !(f k).isEmpty)).flatMap f = l.flatMap f := by
  induction l with
  | nil => rfl
  | cons k l ih =>
    by_cases h : (f k).isEmpty = true
    · have hnil : f k = [] := List.isEmpty_iff.1 h
      simp [List.filter, h, ih, hnil]
    · simp [List.filter, h, ih]

theorem mem_keys_of_index_ne_nil (m : Values) (k : GoString) (h : m.index k ≠ []) :
    k ∈ m.map Prod.fst := by
  by_contra hn
  exact h (index_eq_nil_of_not_mem m k hn)

/-- Two maps with the same values for every key are written alike. -/
theorem Encode_congr (m1 m2 : Values) (hn1 : (m1.map Prod.fst).Nodup)
    (hn2 : (m2.map Prod.fst).Nodup) (hidx : ∀ k, m1.index k = m2.index k) :
    m1.Encode = m2.Encode := by
  rw [Encode_eq, Encode_eq]
  congr 2
  unfold Values.pairs
  have hf : (fun k => (m1.index k).map (fun value => (k, value))) =
      (fun k => (m2.index k).map (fun value => (k, value))) := by
    funext k
    rw [hidx k]
  rw [hf, ← flatMap_filter_nonempty _ (sortStrings (m1.map Prod.fst)),
    ← flatMap_filter_nonempty _ (sortStrings (m2.map Prod.fst))]
  congr 1
  have hp1 : List.Perm (sortStrings (m1.map Prod.fst)) (m1.map Prod.fst) :=
    List.perm_insertionSort _ _
  have hp2 : List.Perm (sortStrings (m2.map Prod.fst)) (m2.map Prod.fst) :=
    List.perm_insertionSort _ _
  apply eq_of_sorted_of_same_members
  · exact (sortStrings_sorted _).filter _
  · exact (sortStrings_sorted _).filter _
  · exact (hp1.nodup_iff.2 hn1).filter _
  · exact (hp2.nodup_iff.2 hn2).filter _
  · intro k
    simp only [List.mem_filter, hp1.mem_iff, hp2.mem_iff, Bool.not_eq_true',
      List.isEmpty_eq_false, ne_eq, List.map_eq_nil_iff]
    constructor
    · rintro ⟨_, h⟩
      exact ⟨mem_keys_of_index_ne_nil m2 k h, h⟩
    · rintro ⟨_, h⟩
      have h1 : m1.index k ≠ [] := by rw [hidx k]; exact h
      exact ⟨mem_keys_of_index_ne_nil m1 k h1, h⟩

/-- Adding two parameters with different names to the query, each time through
`Query`, `Add` and `Encode`, gives the same raw query in either order. -/
theorem Encode_Add_comm (query a va b vb : GoString) (hab : a ≠ b) :
    ((parseQuery ((parseQuery query).Add a va).Encode).Add b vb).Encode =
      ((parseQuery ((parseQuery query).Add b vb).Encode).Add a va).Encode := by
  apply Encode_congr
  · exact nodup_keys_Add _ _ _ (nodup_keys_parseQuery _)
  · exact nodup_keys_Add _ _ _ (nodup_keys_parseQuery _)
  · intro k
    rw [index_Add, index_Add,
      index_parseQuery_Encode _ _ (nodup_keys_Add _ _ _ (nodup_keys_parseQuery _)),
      index_parseQuery_Encode _ _ (nodup_keys_Add _ _ _ (nodup_keys_parseQuery _)),
      index_Add, index_Add]
    by_cases h1 : a = k
    · have h2 : ¬ b = k := fun e => hab (h1.trans e.symm)
      simp [h1, h2]
    · simp [h1]

/-! ## The order of the entries -/

/-- A fold gives the same result over two orders of a list when the steps
commute on the states an invariant describes. -/
theorem foldl_perm_of_invariant {σ ε : Type} (f : σ → ε → σ) (Inv : σ → List ε → Prop)
    (hstep : ∀ s x l, Inv s (x :: l) → Inv (f s x) l)
    (hswap : ∀ s x y l, Inv s (x :: y :: l) → f (f s x) y = f (f s y) x)
    (hperm : ∀ s l1 l2, List.Perm l1 l2 → Inv s l1 → Inv s l2) :
    ∀ l1 l2 : List ε, List.Perm l1 l2 → ∀ s, Inv s l1 → l1.foldl f s = l2.foldl f s := by
  intro l1 l2 h
  induction h with
  | nil => intro s _; rfl
  | cons x _ ih =>
    intro s hs
    simp only [List.foldl_cons]
    exact ih _ (hstep s x _ hs)
  | swap x y l =>
    intro s hs
    simp only [List.foldl_cons]
    rw [hswap s y x l hs]
  | trans h1 _ ih1 ih2 =>
    intro s hs
    rw [ih1 s hs, ih2 s (hperm s _ _ h1 hs)]

theorem Contains_ReplaceAll_other (f a b vb : GoString) (ha : braceFree a = true)
    (hb : braceFree b = true) (hvb : braceFree vb = true) (hab : a ≠ b) (hf : flat f = true) :
    Contains (ReplaceAll f (tagOf b) vb) (tagOf a) = Contains f (tagOf a) := by
  rw [Bool.eq_iff_iff, Contains_iff, Contains_iff]
  constructor
  · intro h
    exact (tag_infix_ReplaceAll a b vb ha hb hvb f.length f false (le_refl _) hf h).1
  · intro h
    exact tag_infix_ReplaceAll_of_infix a b vb ha hb hab f.length f (le_refl _) h

theorem plainEntries_perm (l1 l2 : List (GoString × GoString)) (h : List.Perm l1 l2)
    (hp : plainEntries l1 = true) : plainEntries l2 = true := by
  simp only [plainEntries, List.all_eq_true] at hp ⊢
  intro kv hkv
  exact hp kv (h.mem_iff.2 hkv)

theorem nodup_keys_cons (x : GoString × GoString) (l : List (GoString × GoString))
    (h : ((x :: l).map Prod.fst).Nodup) :
    (∀ kv ∈ l, kv.1 ≠ x.1) ∧ (l.map Prod.fst).Nodup := by
  rw [List.map_cons, List.nodup_cons] at h
  refine ⟨?_, h.2⟩
  intro kv hkv e
  exact h.1 (by rw [← e]; exact List.mem_map_of_mem _ hkv)

theorem tagMatched_resolveEntry (u : URL) (a b vb : GoString) (ha : braceFree a = true)
    (hb : braceFree b = true) (hvb : braceFree vb = true) (hab : a ≠ b)
    (hflat : flatUrl u = true) (hmb : tagMatched u b = true) :
    tagMatched (resolveEntry u b vb) a = tagMatched u a := by
  simp only [flatUrl, Bool.and_eq_true] at hflat
  rw [resolveEntry_eq, hmb]
  simp only [tagMatched, if_true]
  rw [Contains_ReplaceAll_other _ a b vb ha hb hvb hab hflat.1.1,
    Contains_ReplaceAll_other _ a b vb ha hb hvb hab hflat.1.2,
    Contains_ReplaceAll_other _ a b vb ha hb hvb hab hflat.2]

theorem allSubstituted_step (u : URL) (x : GoString × GoString)
    (l : List (GoString × GoString)) (h : allSubstituted u (x :: l)) :
    allSubstituted (resolveEntry u x.1 x.2) l := by
  obtain ⟨hflat, hplain, hnd, hall⟩ := h
  obtain ⟨h1, h2, h3⟩ := plainEntries_cons x l hplain
  obtain ⟨hne, hnd2⟩ := nodup_keys_cons x l hnd
  refine ⟨resolveEntry_flatUrl u x.1 x.2 h1 h2 hflat, h3, hnd2, ?_⟩
  intro kv hkv
  have hk : braceFree kv.1 = true := by
    have := List.all_eq_true.1 h3 kv hkv
    simp only [Bool.and_eq_true] at this
    exact this.1
  rw [tagMatched_resolveEntry u kv.1 x.1 x.2 hk h1 h2 (hne kv hkv) hflat
    (hall x (List.mem_cons_self _ _))]
  exact hall kv (List.mem_cons_of_mem _ hkv)

theorem allSubstituted_swap (u : URL) (x y : GoString × GoString)
    (l : List (GoString × GoString)) (h : allSubstituted u (x :: y :: l)) :
    resolveEntry (resolveEntry u x.1 x.2) y.1 y.2 =
      resolveEntry (resolveEntry u y.1 y.2) x.1 x.2 := by
  obtain ⟨hflat, hplain, hnd, hall⟩ := h
  obtain ⟨hx1, hx2, hplain2⟩ := plainEntries_cons x (y :: l) hplain
  obtain ⟨hy1, hy2, _⟩ := plainEntries_cons y l hplain2
  obtain ⟨hne, _⟩ := nodup_keys_cons x (y :: l) hnd
  have hyx : y.1 ≠ x.1 := hne y (List.mem_cons_self _ _)
  have hmx : tagMatched u x.1 = true := hall x (List.mem_cons_self _ _)
  have hmy : tagMatched u y.1 = true := hall y (List.mem_cons_of_mem _ (List.mem_cons_self _ _))
  have hmy2 : tagMatched (resolveEntry u x.1 x.2) y.1 = true := by
    rw [tagMatched_resolveEntry u y.1 x.1 x.2 hy1 hx1 hx2 hyx hflat hmx]; exact hmy
  have hmx2 : tagMatched (resolveEntry u y.1 y.2) x.1 = true := by
    rw [tagMatched_resolveEntry u x.1 y.1 y.2 hx1 hy1 hy2 (Ne.symm hyx) hflat hmy]; exact hmx
  simp only [flatUrl, Bool.and_eq_true] at hflat
  rw [resolveEntry_eq (resolveEntry u x.1 x.2), resolveEntry_eq (resolveEntry u y.1 y.2),
    hmy2, hmx2]
  simp only [if_true]
  rw [resolveEntry_eq u x.1 x.2, resolveEntry_eq u y.1 y.2, hmx, hmy]
  simp only [if_true]
  rw [ReplaceAll_comm x.1 y.1 x.2 y.2 hx1 hy1 hx2 hy2 (Ne.symm hyx) _ u.Path false (le_refl _)
      hflat.1.1,
    ReplaceAll_comm x.1 y.1 x.2 y.2 hx1 hy1 hx2 hy2 (Ne.symm hyx) _ u.Fragment false (le_refl _)
      hflat.1.2,
    ReplaceAll_comm x.1 y.1 x.2 y.2 hx1 hy1 hx2 hy2 (Ne.symm hyx) _ u.RawQuery false (le_refl _)
      hflat.2]

theorem allSubstituted_perm (u : URL) (l1 l2 : List (GoString × GoString))
    (hp : List.Perm l1 l2) (h : allSubstituted u l1) : allSubstituted u l2 := by
  obtain ⟨hflat, hplain, hnd, hall⟩ := h
  exact ⟨hflat, plainEntries_perm l1 l2 hp hplain, ((hp.map Prod.fst).nodup_iff).1 hnd,
    fun kv hkv => hall kv (hp.mem_iff.2 hkv)⟩

theorem resolveEntry_of_query_untagged (u : URL) (k v : GoString)
    (h : ¬ tagOf k <:+: u.RawQuery) :
    resolveEntry u k v =
      { u with
        Path := ReplaceAll u.Path (tagOf k) v
        Fragment := ReplaceAll u.Fragment (tagOf k) v
        RawQuery := if (Contains u.Path (tagOf k) || Contains u.Fragment (tagOf k)) = true
          then u.RawQuery else ((parseQuery u.RawQuery).Add k v).Encode } := by
  have hq : Contains u.RawQuery (tagOf k) = false := (Contains_eq_false_iff _ _).2 h
  rw [resolveEntry_eq]
  simp only [tagMatched, hq, Bool.or_false, ReplaceAll_of_not_infix k v _ h, URL.Query]

theorem resolveEntry_query_untagged (u : URL) (k v a : GoString)
    (hk : ¬ tagOf k <:+: u.RawQuery) (ha : ¬ tagOf a <:+: u.RawQuery) :
    ¬ tagOf a <:+: (resolveEntry u k v).RawQuery := by
  rw [resolveEntry_of_query_untagged u k v hk]
  simp only
  split
  · exact ha
  · exact not_tag_infix_of_no_lbrace _ _ (Encode_no_lbrace _)

theorem braceFree_of_plain (l : List (GoString × GoString)) (h : plainEntries l = true)
    (kv : GoString × GoString) (hkv : kv ∈ l) :
    braceFree kv.1 = true ∧ braceFree kv.2 = true := by
  have := List.all_eq_true.1 h kv hkv
  simp only [Bool.and_eq_true] at this
  exact this

theorem queryUntagged_step (u : URL) (x : GoString × GoString)
    (l : List (GoString × GoString)) (h : queryUntagged u (x :: l)) :
    queryUntagged (resolveEntry u x.1 x.2) l := by
  obtain ⟨hp, hf, hplain, hnd, hq⟩ := h
  obtain ⟨h1, h2, h3⟩ := plainEntries_cons x l hplain
  obtain ⟨_, hnd2⟩ := nodup_keys_cons x l hnd
  have hqx := hq x (List.mem_cons_self _ _)
  refine ⟨?_, ?_, h3, hnd2, ?_⟩
  · rw [resolveEntry_of_query_untagged u x.1 x.2 hqx]
    exact flatFrom_ReplaceAll x.1 x.2 h1 h2 _ u.Path false (le_refl _) hp
  · rw [resolveEntry_of_query_untagged u x.1 x.2 hqx]
    exact flatFrom_ReplaceAll x.1 x.2 h1 h2 _ u.Fragment false (le_refl _) hf
  · intro kv hkv
    exact resolveEntry_query_untagged u x.1 x.2 kv.1 hqx (hq kv (List.mem_cons_of_mem _ hkv))

theorem queryUntagged_swap (u : URL) (x y : GoString × GoString)
    (l : List (GoString × GoString)) (h : queryUntagged u (x :: y :: l)) :
    resolveEntry (resolveEntry u x.1 x.2) y.1 y.2 =
      resolveEntry (resolveEntry u y.1 y.2) x.1 x.2 := by
  obtain ⟨hp, hf, hplain, hnd, hq⟩ := h
  obtain ⟨hx1, hx2, hplain2⟩ := plainEntries_cons x (y :: l) hplain
  obtain ⟨hy1, hy2, _⟩ := plainEntries_cons y l hplain2
  obtain ⟨hne, _⟩ := nodup_keys_cons x (y :: l) hnd
  have hyx : y.1 ≠ x.1 := hne y (List.mem_cons_self _ _)
  have hqx := hq x (List.mem_cons_self _ _)
  have hqy := hq y (List.mem_cons_of_mem _ (List.mem_cons_self _ _))
  have hqy2 := resolveEntry_query_untagged u x.1 x.2 y.1 hqx hqy
  have hqx2 := resolveEntry_query_untagged u y.1 y.2 x.1 hqy hqx
  rw [resolveEntry_of_query_untagged _ y.1 y.2 hqy2, resolveEntry_of_query_untagged _ x.1 x.2 hqx2]
  rw [resolveEntry_of_query_untagged u x.1 x.2 hqx, resolveEntry_of_query_untagged u y.1 y.2 hqy]
  simp only
  rw [Contains_ReplaceAll_other u.Path y.1 x.1 x.2 hy1 hx1 hx2 hyx hp,
    Contains_ReplaceAll_other u.Fragment y.1 x.1 x.2 hy1 hx1 hx2 hyx hf,
    Contains_ReplaceAll_other u.Path x.1 y.1 y.2 hx1 hy1 hy2 (Ne.symm hyx) hp,
    Contains_ReplaceAll_other u.Fragment x.1 y.1 y.2 hx1 hy1 hy2 (Ne.symm hyx) hf,
    ReplaceAll_comm x.1 y.1 x.2 y.2 hx1 hy1 hx2 hy2 (Ne.symm hyx) _ u.Path false (le_refl _) hp,
    ReplaceAll_comm x.1 y.1 x.2 y.2 hx1 hy1 hx2 hy2 (Ne.symm hyx) _ u.Fragment false (le_refl _)
      hf]
  by_cases hmx : (Contains u.Path (tagOf x.1) || Contains u.Fragment (tagOf x.1)) = true <;>
  by_cases hmy : (Contains u.Path (tagOf y.1) || Contains u.Fragment (tagOf y.1)) = true
  · simp only [hmx, hmy, if_true]
  · simp only [hmx, hmy, if_true, if_false]
  · simp only [hmx, hmy, if_true, if_false]
  · simp only [hmx, hmy, Bool.false_eq_true, if_false]
    rw [Encode_Add_comm u.RawQuery x.1 x.2 y.1 y.2 (Ne.symm hyx)]

theorem queryUntagged_perm (u : URL) (l1 l2 : List (GoString × GoString))
    (hperm : List.Perm l1 l2) (h : queryUntagged u l1) : queryUntagged u l2 := by
  obtain ⟨hp, hf, hplain, hnd, hq⟩ := h
  exact ⟨hp, hf, plainEntries_perm l1 l2 hperm hplain, ((hperm.map Prod.fst).nodup_iff).1 hnd,
    fun kv hkv => hq kv (hperm.mem_iff.2 hkv)⟩

/-- The result of the loop of `Resolve` does not depend on the order of the
entries, on the templates where every supplied name is substituted and on those
whose raw query holds no supplied tag. -/
theorem resolveAll_perm (u : URL) (l1 l2 : List (GoString × GoString))
    (hperm : List.Perm l1 l2) (h : allSubstituted u l1 ∨ queryUntagged u l1) :
    resolveAll u l1 = resolveAll u l2 := by
  rcases h with h | h
  · exact foldl_perm_of_invariant (fun u kv => resolveEntry u kv.1 kv.2) allSubstituted
      allSubstituted_step allSubstituted_swap allSubstituted_perm l1 l2 hperm u h
  · exact foldl_perm_of_invariant (fun u kv => resolveEntry u kv.1 kv.2) queryUntagged
      queryUntagged_step queryUntagged_swap queryUntagged_perm l1 l2 hperm u h

theorem Resolve_eq_resolveAll (u : URL) (entries : List (GoString × GoString)) :
    Resolve (some u) (some entries) = some (resolveAll u entries) :=
  Resolve_some u entries

/-! ## Order of the entries and composition of `Resolve` -/

theorem invariant_of_hypotheses (u : URL) (entries : List (GoString × GoString))
    (hplain : plainEntries entries = true) (hnodup : (entries.map Prod.fst).Nodup)
    (hpath : flat u.Path = true) (hfrag : flat u.Fragment = true)
    (hcase : (flat u.RawQuery = true ∧ ∀ kv ∈ entries, tagMatched u kv.1 = true) ∨
      (∀ kv ∈ entries, ¬ tagOf kv.1 <:+: u.RawQuery)) :
    allSubstituted u entries ∨ queryUntagged u entries := by
  rcases hcase with ⟨hq, hall⟩ | hq
  · left
    exact ⟨by simp [flatUrl, hpath, hfrag, hq], hplain, hnodup, hall⟩
  · right
    exact ⟨hpath, hfrag, hplain, hnodup, hq⟩

/-- C20 (counterexample): on the template of the test suite the entries visited
in the order `user`, `credentials`, `withBio` and in the reverse order give two
different raw queries; and on the path `/{a}` the entries `a = {b}`, `b = x`
give the path `/x` in this order and the path `/{b}` in the other. -/
theorem Resolve_depends_on_order :
    (Resolve
        (some (localUrl "/api/{user}/info" "withCredentials={credentials}&withPhoto=false" ""))
        (some [(ascii "user", ascii "julien"), (ascii "credentials", ascii "true"),
          (ascii "withBio", ascii "true")]) =
      some (localUrl "/api/julien/info" "withBio=true&withCredentials=true&withPhoto=false" "") ∧
     Resolve
        (some (localUrl "/api/{user}/info" "withCredentials={credentials}&withPhoto=false" ""))
        (some [(ascii "withBio", ascii "true"), (ascii "credentials", ascii "true"),
          (ascii "user", ascii "julien")]) =
      some (localUrl "/api/julien/info"
        "credentials=true&withBio=true&withCredentials=%7Bcredentials%7D&withPhoto=false" "")) ∧
    (Resolve (some (localUrl "/{a}" "" ""))
        (some [(ascii "a", ascii "{b}"), (ascii "b", ascii "x")]) =
      some (localUrl "/x" "" "") ∧
     Resolve (some (localUrl "/{a}" "" ""))
        (some [(ascii "b", ascii "x"), (ascii "a", ascii "{b}")]) =
      some (localUrl "/{b}" "b=x" "")) := by
  decide

/-- C20 (amended): let path and fragment have flat braces, let no name or value
of the mapping hold a brace and let every name occur once. If the raw query has
flat braces and every supplied name has its tag in the path, the fragment or the
raw query, or if no supplied tag occurs in the raw query, then `Resolve` returns
the same URL for any two orders in which the entries are visited. -/
theorem Resolve_order_independent (u : URL) (l1 l2 : List (GoString × GoString))
    (hperm : List.Perm l1 l2)
    (hplain : plainEntries l1 = true) (hnodup : (l1.map Prod.fst).Nodup)
    (hpath : flat u.Path = true) (hfrag : flat u.Fragment = true)
    (hcase : (flat u.RawQuery = true ∧ ∀ kv ∈ l1, tagMatched u kv.1 = true) ∨
      (∀ kv ∈ l1, ¬ tagOf kv.1 <:+: u.RawQuery)) :
    Resolve (some u) (some l1) = Resolve (some u) (some l2) := by
  rw [Resolve_eq_resolveAll, Resolve_eq_resolveAll,
    resolveAll_perm u l1 l2 hperm (invariant_of_hypotheses u l1 hplain hnodup hpath hfrag hcase)]

/-- C20 (amended) on the template `/api/{user}/info?withPhoto=false#{part}` with
`user = julien`, `withBio = true`, `part = top`: two orders, one result. -/
theorem Resolve_order_independent_witness :
    Resolve (some (localUrl "/api/{user}/info" "withPhoto=false" "{part}"))
        (some [(ascii "user", ascii "julien"), (ascii "withBio", ascii "true"),
          (ascii "part", ascii "top")]) =
      Resolve (some (localUrl "/api/{user}/info" "withPhoto=false" "{part}"))
        (some [(ascii "part", ascii "top"), (ascii "withBio", ascii "true"),
          (ascii "user", ascii "julien")]) ∧
    Resolve (some (localUrl "/api/{user}/info" "withPhoto=false" "{part}"))
        (some [(ascii "part", ascii "top"), (ascii "withBio", ascii "true"),
          (ascii "user", ascii "julien")]) =
      some (localUrl "/api/julien/info" "withBio=true&withPhoto=false" "top") := by
  refine ⟨?_, by decide⟩
  apply Resolve_order_independent
  · exact (List.reverse_perm _).symm
  · decide
  · decide
  · decide
  · decide
  · right
    intro kv _
    exact not_tag_infix_of_no_lbrace _ _ (by decide)

/-- C11 (counterexample): with the raw query `x={b}`, resolving `a = 1` and then
`b = 2` gives `a=1&b=2&x=%7Bb%7D`, while the merged mapping visited in the order
`b`, `a` gives `a=1&x=2`; and on the path `/{a}`, resolving `a = {b}` and then
`b = x` gives the path `/x`, while the merged mapping visited in the order `b`,
`a` gives the path `/{b}` and the raw query `b=x`. -/
theorem Resolve_twice_differs_from_merged :
    (Resolve (Resolve (some (localUrl "/p" "x={b}" "")) (some [(ascii "a", ascii "1")]))
        (some [(ascii "b", ascii "2")]) =
      some (localUrl "/p" "a=1&b=2&x=%7Bb%7D" "") ∧
     Resolve (some (localUrl "/p" "x={b}" ""))
        (some [(ascii "b", ascii "2"), (ascii "a", ascii "1")]) =
      some (localUrl "/p" "a=1&x=2" "")) ∧
    (Resolve (Resolve (some (localUrl "/{a}" "" "")) (some [(ascii "a", ascii "{b}")]))
        (some [(ascii "b", ascii "x")]) =
      some (localUrl "/x" "" "") ∧
     Resolve (some (localUrl "/{a}" "" ""))
        (some [(ascii "b", ascii "x"), (ascii "a", ascii "{b}")]) =
      some (localUrl "/{b}" "b=x" "")) := by
  decide

/-- C11 (amended): let `p1` and `p2` have disjoint key sets, each name occurring
once, let no name or value hold a brace and let path and fragment have flat
braces. If the raw query has flat braces and every supplied name has its tag in
the path, the fragment or the raw query, or if no supplied tag occurs in the raw
query, then `Resolve(Resolve(u, p1), p2)` equals `Resolve(u, merged)` for every
order in which the entries of the merged mapping are visited. -/
theorem Resolve_composes (u : URL) (p1 p2 merged : List (GoString × GoString))
    (hmerged : List.Perm merged (p1 ++ p2))
    (hplain : plainEntries (p1 ++ p2) = true) (hnodup : ((p1 ++ p2).map Prod.fst).Nodup)
    (hpath : flat u.Path = true) (hfrag : flat u.Fragment = true)
    (hcase : (flat u.RawQuery = true ∧ ∀ kv ∈ p1 ++ p2, tagMatched u kv.1 = true) ∨
      (∀ kv ∈ p1 ++ p2, ¬ tagOf kv.1 <:+: u.RawQuery)) :
    Resolve (Resolve (some u) (some p1)) (some p2) = Resolve (some u) (some merged) := by
  rw [Resolve_eq_resolveAll, Resolve_eq_resolveAll, Resolve_eq_resolveAll]
  have happ : resolveAll (resolveAll u p1) p2 = resolveAll u (p1 ++ p2) := by
    simp [resolveAll, List.foldl_append]
  rw [happ, resolveAll_perm u (p1 ++ p2) merged hmerged.symm
    (invariant_of_hypotheses u (p1 ++ p2) hplain hnodup hpath hfrag hcase)]

/-- C11 (amended) on the template of the test suite without the tag in the query:
resolving `user`, then `withBio` and `withMail`, equals resolving the three
entries at once in another order. -/
theorem Resolve_composes_witness :
    Resolve (Resolve (some (localUrl "/api/{user}/info" "withPhoto=false" ""))
          (some [(ascii "user", ascii "julien")]))
        (some [(ascii "withBio", ascii "true"), (ascii "withMail", ascii "no")]) =
      Resolve (some (localUrl "/api/{user}/info" "withPhoto=false" ""))
        (some [(ascii "withMail", ascii "no"), (ascii "withBio", ascii "true"),
          (ascii "user", ascii "julien")]) ∧
    Resolve (some (localUrl "/api/{user}/info" "withPhoto=false" ""))
        (some [(ascii "withMail", ascii "no"), (ascii "withBio", ascii "true"),
          (ascii "user", ascii "julien")]) =
      some (localUrl "/api/julien/info" "withBio=true&withMail=no&withPhoto=false" "") := by
  refine ⟨?_, by decide⟩
  apply Resolve_composes
  · exact List.reverse_perm [(ascii "user", ascii "julien"), (ascii "withBio", ascii "true"),
      (ascii "withMail", ascii "no")]
  · decide
  · decide
  · decide
  · decide
  · right
    intro kv _
    exact not_tag_infix_of_no_lbrace _ _ (by decide)

/-! ## The waits of `Try` and its attempts -/

/-- The loop with events is the loop of `Try`: it ends in the same state. -/
theorem tryLoopEvents_fst (retrier : exponentialRetrier) (client : HttpClient)
    (rnd : Nat → Nat) :
    ∀ (fuel : Nat) (st : TryState),
      (tryLoopEvents retrier client rnd fuel st).map Prod.fst =
        tryLoop retrier client rnd fuel st := by
  intro fuel
  induction fuel with
  | zero => intro st; simp [tryLoopEvents, tryLoop]
  | succ fuel ih =>
    intro st
    by_cases hle : st.tries ≤ retrier.maxTries
    · by_cases hc : canRetry retrier (client st.invocations) = true
      · simp only [tryLoopEvents, tryLoop, hle, hc, if_true, Option.map_map]
        rw [← ih]
        rfl
      · have hc2 : canRetry retrier (client st.invocations) = false := by simpa using hc
        simp [tryLoopEvents, tryLoop, hle, hc2]
    · simp [tryLoopEvents, tryLoop, hle]

theorem TryEvents_fst (retrier : exponentialRetrier) (client : HttpClient) (rnd : Nat → Nat) :
    (retrier.TryEvents client rnd).map Prod.fst = retrier.Try client rnd :=
  tryLoopEvents_fst retrier client rnd _ _

theorem sleepsOf_append (a b : List TryEvent) : sleepsOf (a ++ b) = sleepsOf a ++ sleepsOf b := by
  induction a with
  | nil => rfl
  | cons e rest ih => cases e <;> simp [sleepsOf, ih]

theorem invocationsOf_append (a b : List TryEvent) :
    invocationsOf (a ++ b) = invocationsOf a + invocationsOf b := by
  induction a with
  | nil => simp [invocationsOf]
  | cons e rest ih =>
    cases e with
    | invoke n => simp [invocationsOf, ih]; omega
    | sleep s => simp [invocationsOf, ih]

/-- The two observers of the state count the events: the recorded sleeps are the
sleeps among the events and the invocation counter counts the calls of
`client.Do` among them. -/
theorem tryLoopEvents_observers (retrier : exponentialRetrier) (client : HttpClient)
    (rnd : Nat → Nat) :
    ∀ (fuel : Nat) (st res : TryState) (events : List TryEvent),
      tryLoopEvents retrier client rnd fuel st = some (res, events) →
      res.sleeps = st.sleeps ++ sleepsOf events ∧
        res.invocations = st.invocations + invocationsOf events := by
  intro fuel
  induction fuel with
  | zero => intro st res events h; simp [tryLoopEvents] at h
  | succ fuel ih =>
    intro st res events h
    by_cases hle : st.tries ≤ retrier.maxTries
    · by_cases hc : canRetry retrier (client st.invocations) = true
      · simp only [tryLoopEvents, hle, hc, if_true, Option.map_eq_some', Prod.mk.injEq,
          Prod.exists] at h
        obtain ⟨res2, ev2, hrec, hres, hev⟩ := h
        subst hres hev
        obtain ⟨h1, h2⟩ := ih _ _ _ hrec
        simp only at h1 h2
        refine ⟨?_, ?_⟩
        · rw [h1]; simp [sleepsOf]
        · rw [h2]; simp [invocationsOf]; omega
      · have hc2 : canRetry retrier (client st.invocations) = false := by simpa using hc
        simp only [tryLoopEvents, hle, hc2, if_true, Bool.false_eq_true, if_false,
          Option.some.injEq, Prod.mk.injEq] at h
        obtain ⟨hres, hev⟩ := h
        subst hres hev
        simp [sleepsOf, invocationsOf]
    · simp only [tryLoopEvents, hle, if_false, Option.some.injEq, Prod.mk.injEq] at h
      obtain ⟨hres, hev⟩ := h
      subst hres hev
      simp [sleepsOf, invocationsOf]

/-- The order of the events: every retryable attempt is followed by its wait, and
a call of `client.Do` is the last event only when the loop ends on `break`. -/
theorem tryLoopEvents_order (retrier : exponentialRetrier) (client : HttpClient)
    (rnd : Nat → Nat) :
    ∀ (fuel : Nat) (st res : TryState) (events : List TryEvent),
      tryLoopEvents retrier client rnd fuel st = some (res, events) →
      st.invocations + 1 = st.tries →
      st.previousDelay = previousDelayAt st.tries →
      st.tries ≤ res.tries ∧
        events = attemptsWithWaits rnd st.tries (res.tries - st.tries) ++
          (if res.invocations = res.tries then [TryEvent.invoke res.tries] else []) := by
  intro fuel
  induction fuel with
  | zero => intro st res events h; simp [tryLoopEvents] at h
  | succ fuel ih =>
    intro st res events h hinv hprev
    by_cases hle : st.tries ≤ retrier.maxTries
    · by_cases hc : canRetry retrier (client st.invocations) = true
      · simp only [tryLoopEvents, hle, hc, if_true, Option.map_eq_some', Prod.mk.injEq,
          Prod.exists] at h
        obtain ⟨res2, ev2, hrec, hres, hev⟩ := h
        subst hres hev
        have hgt : ¬ st.tries + 1 ≤ 1 := by omega
        obtain ⟨h1, h2⟩ := ih _ _ _ hrec (by simp; omega) (by simp [previousDelayAt, hgt])
        simp only at h1 h2
        refine ⟨by omega, ?_⟩
        obtain ⟨k, hk⟩ : ∃ k, res2.tries - st.tries = k + 1 := ⟨res2.tries - st.tries - 1, by omega⟩
        have hk2 : res2.tries - (st.tries + 1) = k := by omega
        rw [h2, hk, hk2, hprev]
        simp [attemptsWithWaits, List.range'_succ, waitAt]
      · have hc2 : canRetry retrier (client st.invocations) = false := by simpa using hc
        simp only [tryLoopEvents, hle, hc2, if_true, Bool.false_eq_true, if_false,
          Option.some.injEq, Prod.mk.injEq] at h
        obtain ⟨hres, hev⟩ := h
        subst hres hev
        simp [attemptsWithWaits, hinv]
    · simp only [tryLoopEvents, hle, if_false, Option.some.injEq, Prod.mk.injEq] at h
      obtain ⟨hres, hev⟩ := h
      subst hres hev
      have hne : ¬ st.invocations = st.tries := by omega
      simp [attemptsWithWaits, hne]

theorem retryableAttempts_of_all (retrier : exponentialRetrier) (client : HttpClient) (n : Nat)
    (h : ∀ i, i < n → canRetry retrier (client i) = true) :
    retryableAttempts retrier client n = n := by
  unfold retryableAttempts
  rw [List.filter_eq_self.2]
  · simp
  · intro i hi
    exact h i (List.mem_range.1 hi)

theorem retryableAttempts_succ_of_false (retrier : exponentialRetrier) (client : HttpClient)
    (n : Nat) (h : canRetry retrier (client n) = false) :
    retryableAttempts retrier client (n + 1) = retryableAttempts retrier client n := by
  simp [retryableAttempts, List.range_succ, List.filter_append, h]

theorem getLast_attemptsWithWaits (rnd : Nat → Nat) (n : Nat) :
    (attemptsWithWaits rnd 1 (n + 1)).getLast? = some (TryEvent.sleep (waitAt rnd (n + 1))) := by
  simp [attemptsWithWaits, List.range'_concat, List.flatMap_append, Nat.add_comm]

theorem map_step_attemptsWithWaits (rnd : Nat → Nat) (first n : Nat) :
    (attemptsWithWaits rnd first n).map TryEvent.step =
      (List.range' first n).flatMap (fun k => [TryStep.attempt k, TryStep.wait]) := by
  simp [attemptsWithWaits, List.map_flatMap, TryEvent.step]

/-- What `Try` and its events are: `Try` returns, the loop with events ends in
the same state, the observers of the state count the events, and the events are
the retryable attempts each followed by its wait, then the attempt on which the
loop broke, if it did. -/
theorem TryEvents_spec (retrier : exponentialRetrier) (client : HttpClient)
    (rnd : Nat → Nat) :
    ∃ res events, retrier.Try client rnd = some res ∧
      retrier.TryEvents client rnd = some (res, events) ∧
      sleepsOf events = res.sleeps ∧
      invocationsOf events = res.invocations ∧
      res.sleeps.length = res.tries - 1 ∧
      res.sleeps.length = retryableAttempts retrier client res.invocations ∧
      events = attemptsWithWaits rnd 1 (res.tries - 1) ++
        (if res.invocations = res.tries then [TryEvent.invoke res.tries] else []) := by
  obtain ⟨res, hres, hcases⟩ := Try_spec retrier client rnd
  have hfst := TryEvents_fst retrier client rnd
  rw [hres] at hfst
  obtain ⟨⟨res2, events⟩, hev, hres2⟩ := Option.map_eq_some'.1 hfst
  simp only at hres2
  subst hres2
  obtain ⟨hobs1, hobs2⟩ := tryLoopEvents_observers retrier client rnd _ _ _ _ hev
  obtain ⟨_, hord⟩ := tryLoopEvents_order retrier client rnd _ _ _ _ hev rfl rfl
  obtain ⟨htries, hsleeps⟩ := Try_sleeps retrier client rnd _ hres
  have hlen : res2.sleeps.length = res2.tries - 1 := by rw [hsleeps]; simp
  simp only [TryState.init, List.nil_append, Nat.zero_add] at hobs1 hobs2 hord
  refine ⟨res2, events, hres, hev, hobs1.symm, hobs2.symm, hlen, ?_, hord⟩
  rcases hcases with ⟨a1, _, a3, a4, _, _, a7⟩ | ⟨b1, b2, b3, _⟩
  · obtain ⟨t, ht⟩ : ∃ t, res2.tries = t + 1 := ⟨res2.tries - 1, by omega⟩
    rw [ht, Nat.add_sub_cancel] at a4
    rw [hlen, a3, ht, retryableAttempts_succ_of_false retrier client t a4,
      retryableAttempts_of_all retrier client t (fun i hi => a7 i (by omega))]
    simp
  · rw [hlen, b2, retryableAttempts_of_all retrier client _ b3, b1]
    simp

/-- When every one of the `maxTries` attempts has a retryable outcome, the
events of `Try` are the attempts `1..maxTries`, each followed by its wait. -/
theorem TryEvents_exhausted (retrier : exponentialRetrier) (client : HttpClient)
    (rnd : Nat → Nat)
    (hall : ∀ i, i < retrier.maxTries → retryableOutcome retrier (client i)) :
    ∃ res events, retrier.Try client rnd = some res ∧
      retrier.TryEvents client rnd = some (res, events) ∧
      res.invocations = retrier.maxTries ∧ res.tries = retrier.maxTries + 1 ∧
      events = attemptsWithWaits rnd 1 retrier.maxTries := by
  obtain ⟨res, events, hres, hev, _, _, _, _, hord⟩ := TryEvents_spec retrier client rnd
  obtain ⟨res2, hres2, hinv, htries⟩ := Try_exhausted retrier client rnd hall
  rw [hres] at hres2
  have hr := Option.some.inj hres2
  subst hr
  have hne : ¬ res.invocations = res.tries := by omega
  rw [if_neg hne, List.append_nil, htries, Nat.add_sub_cancel] at hord
  exact ⟨res, events, hres, hev, hinv, htries, hord⟩

/-- C21 (counterexample): with 35 tries, a transport that always times out and
draws of 0, the last event of `Try` is the sleep after attempt 35, of
15032385535 seconds; the product with `time.Second` overflows `int64` and the
duration handed to `time.Sleep` is negative, so `Try` returns without having
waited `delay(35)` plus jitter. -/
theorem Try_last_wait_overflows_with_35_tries :
    ∃ res events,
      (NewExponentialRetrier.WithMaxTries 35).Try
        (constClient ⟨none, some DeadlineExceeded⟩) (fun _ => 0) = some res ∧
      (NewExponentialRetrier.WithMaxTries 35).TryEvents
        (constClient ⟨none, some DeadlineExceeded⟩) (fun _ => 0) = some (res, events) ∧
      res.invocations = 35 ∧
      events.getLast? = some (TryEvent.sleep 15032385535) ∧
      backoffDelay 35 = 17179869183 ∧
      sleepDuration 15032385535 = -3414358538709551616 ∧
      sleepDuration 15032385535 < 0 := by
  obtain ⟨res, events, hres, hev, hinv, _, hord⟩ :=
    TryEvents_exhausted (NewExponentialRetrier.WithMaxTries 35)
      (constClient ⟨none, some DeadlineExceeded⟩) (fun _ => 0)
      (fun i _ => Or.inl ⟨DeadlineExceeded, rfl, rfl⟩)
  have hm : (NewExponentialRetrier.WithMaxTries 35).maxTries = 34 + 1 := rfl
  have hw : waitAt (fun _ => 0) (34 + 1) = 15032385535 := by decide
  refine ⟨res, events, hres, hev, hinv, ?_, by decide, by decide, by decide⟩
  rw [hord, hm, getLast_attemptsWithWaits, hw]

/-- C21 (amended): `Try` returns, and within it the number of calls of
`time.Sleep` equals the number of attempts whose outcome was retryable. When all
the `maxTries` attempts are retryable (`maxTries ≥ 1`), the transport is invoked
`maxTries` times and `Try` calls `time.Sleep` `maxTries` times, one more than
the `maxTries - 1` re-sends: its events are the attempts `1..maxTries` each
followed by a sleep, so the last event before it returns is a sleep, with no
call of the transport after it. Up to 63 tries the value behind that sleep is
`delay(maxTries)` plus jitter seconds, never negative and within `int64`; up to
53 tries `delay(maxTries)` is `floor((2^maxTries - 1) / 2)`; up to 33 tries the
duration handed to `time.Sleep` is exactly that number of seconds. -/
theorem Try_waits_after_each_retryable_attempt (retrier : exponentialRetrier)
    (client : HttpClient) (rnd : Nat → Nat) :
    ∃ res events, retrier.Try client rnd = some res ∧
      retrier.TryEvents client rnd = some (res, events) ∧
      sleepsOf events = res.sleeps ∧
      invocationsOf events = res.invocations ∧
      res.sleeps.length = retryableAttempts retrier client res.invocations ∧
      ((∀ i, i < retrier.maxTries → retryableOutcome retrier (client i)) →
        1 ≤ retrier.maxTries →
        res.invocations = retrier.maxTries ∧
        res.sleeps.length = retrier.maxTries ∧
        res.sleeps.length = (res.invocations - 1) + 1 ∧
        events.map TryEvent.step =
          (List.range' 1 retrier.maxTries).flatMap
            (fun k => [TryStep.attempt k, TryStep.wait]) ∧
        events.getLast?.map TryEvent.step = some TryStep.wait ∧
        (retrier.maxTries ≤ 63 →
          events = attemptsWithWaits rnd 1 retrier.maxTries ∧
          events.getLast? = some (TryEvent.sleep (waitAt rnd retrier.maxTries)) ∧
          res.sleeps.getLast? = some (waitAt rnd retrier.maxTries) ∧
          waitAt rnd retrier.maxTries = backoffDelay retrier.maxTries +
            jitterOf (maxJitterOf (backoffDelay retrier.maxTries)
              (previousDelayAt retrier.maxTries)) (rnd retrier.maxTries) ∧
          0 ≤ waitAt rnd retrier.maxTries ∧
          waitAt rnd retrier.maxTries < 2 ^ 63) ∧
        (retrier.maxTries ≤ 53 →
          backoffDelay retrier.maxTries = (((2 ^ retrier.maxTries - 1) / 2 : Nat) : Int)) ∧
        (retrier.maxTries ≤ 33 →
          sleepDuration (waitAt rnd retrier.maxTries) = waitAt rnd retrier.maxTries * Second ∧
          0 ≤ sleepDuration (waitAt rnd retrier.maxTries))) := by
  obtain ⟨res, events, hres, hev, hobs1, hobs2, hlen, hcount, _⟩ :=
    TryEvents_spec retrier client rnd
  refine ⟨res, events, hres, hev, hobs1, hobs2, hcount, ?_⟩
  intro hall hpos
  obtain ⟨res2, events2, hres2, hev2, hinv, htries, hord⟩ :=
    TryEvents_exhausted retrier client rnd hall
  rw [hev] at hev2
  have hpair := Option.some.inj hev2
  obtain ⟨hr, he⟩ := Prod.mk.inj hpair
  subst hr he
  have hsleeps := (Try_sleeps retrier client rnd _ hres).2
  obtain ⟨m, hm⟩ : ∃ m, retrier.maxTries = m + 1 := ⟨retrier.maxTries - 1, by omega⟩
  have hlast : events.getLast? = some (TryEvent.sleep (waitAt rnd retrier.maxTries)) := by
    rw [hord, hm]
    exact getLast_attemptsWithWaits rnd m
  obtain ⟨w0, w1⟩ := waitAt_le rnd retrier.maxTries hpos
  refine ⟨hinv, by omega, by omega, ?_, ?_, ?_, ?_, ?_⟩
  · rw [hord]
    exact map_step_attemptsWithWaits rnd 1 retrier.maxTries
  · rw [hlast]
    rfl
  · intro h63
    refine ⟨hord, hlast, ?_, rfl, w0, ?_⟩
    · rw [hsleeps, htries, Nat.add_sub_cancel, hm]
      simp [List.range_succ]
    · have hd := backoffDelay_le_of_le_63 retrier.maxTries h63
      omega
  · intro h53
    rw [backoffDelay_small _ hpos h53, hm, half_pred_pow, Nat.add_sub_cancel]
  · intro h33
    have hd := backoffDelay_le_of_le_33 retrier.maxTries h33
    have hfit := sleepDuration_of_fits (waitAt rnd retrier.maxTries) w0 (by omega)
    refine ⟨hfit, ?_⟩
    rw [hfit]
    unfold Second
    omega

/-- C21 (amended) on the default retrier (three tries), a transport that always
answers 503 and draws of 0: three attempts, three sleeps of 0, 1 and 3 seconds,
the last event being the sleep of 3 seconds after the third attempt, handed to
`time.Sleep` as 3000000000 nanoseconds. -/
theorem Try_waits_after_each_retryable_attempt_witness :
    ∃ res events,
      NewExponentialRetrier.Try (constClient ⟨some (statusResponse 503), none⟩) (fun _ => 0) =
        some res ∧
      NewExponentialRetrier.TryEvents (constClient ⟨some (statusResponse 503), none⟩)
        (fun _ => 0) = some (res, events) ∧
      res.invocations = 3 ∧ res.sleeps = [0, 1, 3] ∧
      events = [TryEvent.invoke 1, TryEvent.sleep 0, TryEvent.invoke 2, TryEvent.sleep 1,
        TryEvent.invoke 3, TryEvent.sleep 3] ∧
      events.getLast? = some (TryEvent.sleep 3) ∧
      sleepDuration 3 = 3000000000 := by
  obtain ⟨res, events, h1, h2, h3, _, _, h6⟩ :=
    Try_waits_after_each_retryable_attempt NewExponentialRetrier
      (constClient ⟨some (statusResponse 503), none⟩) (fun _ => 0)
  obtain ⟨c1, _, _, _, _, c6, _, c8⟩ := h6
    (fun i _ => Or.inr ⟨statusResponse 503, rfl, by decide⟩) (by decide)
  obtain ⟨c4, c5, _⟩ := c6 (by decide)
  have hw : waitAt (fun _ => 0) NewExponentialRetrier.maxTries = 3 := by decide
  have he : attemptsWithWaits (fun _ => 0) 1 NewExponentialRetrier.maxTries =
      [TryEvent.invoke 1, TryEvent.sleep 0, TryEvent.invoke 2, TryEvent.sleep 1,
        TryEvent.invoke 3, TryEvent.sleep 3] := by decide
  have hdur := (c8 (by decide)).1
  rw [hw] at hdur
  refine ⟨res, events, h1, h2, c1, ?_, ?_, ?_, ?_⟩
  · rw [← h3, c4, he]
    rfl
  · rw [c4, he]
  · rw [c5, hw]
  · rw [hdur]
    rfl

end ExpHttpClient
